import Mathlib

/-!
# Verification of the `likey` string-search / LIKE-matching core

This file is a shallow embedding of the Rust sources of the `likey`
repository (crates `algos`, `like`) into Lean 4, together with proofs and
refutations of the specified properties.

Modelling conventions:
* Rust byte slices (`&[u8]`) become `List Nat`; where byte-ness matters a
  hypothesis `Bytes l` (every element `< 256`) is carried.
* Rust `&str` values are modelled at the byte level; UTF-8 character
  stepping (`chars()` / `char_indices()`) is modelled by the leading-byte
  length function `utf8Len`, which agrees with `char::len_utf8` on every
  valid UTF-8 string.
* `while` loops become fuel-based or well-founded recursions; panics and
  `Option` returns become `Option`.
-/

set_option maxRecDepth 8000

namespace Likey

/-- A list of `u8` values: every element is below 256. -/
def Bytes (l : List Nat) : Prop := ∀ b ∈ l, b < 256

instance : DecidablePred Bytes := fun l => by
  unfold Bytes; infer_instance

/-! ## Generic first-hit scan

`firstFrom check count start` returns the first `i` in
`[start, start+count)` with `check i = true`.  The scalar search loops in
`naive.rs` (`for i in 0..=n-m`) are instances of this scheme, and the
specification function `firstOcc` below is as well. -/

def firstFrom (check : Nat → Bool) : Nat → Nat → Option Nat
  | 0, _ => none
  | count + 1, start =>
    if check start then some start else firstFrom check count (start + 1)

theorem firstFrom_eq_some {check : Nat → Bool} {count start i : Nat}
    (h : firstFrom check count start = some i) :
    start ≤ i ∧ i < start + count ∧ check i = true ∧
      ∀ j, start ≤ j → j < i → check j = false := by
  induction count generalizing start with
  | zero => simp [firstFrom] at h
  | succ c ih =>
    rw [firstFrom] at h
    by_cases hc : check start
    · simp [hc] at h
      subst h
      exact ⟨le_refl _, by omega, hc, fun j h1 h2 => absurd h1 (by omega)⟩
    · simp [hc] at h
      obtain ⟨h1, h2, h3, h4⟩ := ih h
      refine ⟨by omega, by omega, h3, fun j hj1 hj2 => ?_⟩
      rcases Nat.eq_or_lt_of_le hj1 with rfl | hlt
      · exact Bool.not_eq_true _ ▸ (by simpa using hc)
      · exact h4 j hlt hj2

theorem firstFrom_eq_none {check : Nat → Bool} {count start : Nat}
    (h : firstFrom check count start = none) :
    ∀ j, start ≤ j → j < start + count → check j = false := by
  induction count generalizing start with
  | zero => intro j h1 h2; omega
  | succ c ih =>
    rw [firstFrom] at h
    by_cases hc : check start
    · simp [hc] at h
    · simp [hc] at h
      intro j h1 h2
      rcases Nat.eq_or_lt_of_le h1 with rfl | hlt
      · simpa using hc
      · exact ih h j hlt (by omega)

theorem firstFrom_of_check {check : Nat → Bool} {count start i : Nat}
    (hlo : start ≤ i) (hhi : i < start + count) (hc : check i = true) :
    ∃ r, firstFrom check count start = some r ∧ r ≤ i := by
  induction count generalizing start with
  | zero => omega
  | succ c ih =>
    rw [firstFrom]
    by_cases h0 : check start
    · exact ⟨start, by simp [h0], hlo⟩
    · rcases Nat.eq_or_lt_of_le hlo with rfl | hlt
      · simp [hc] at h0
      · obtain ⟨r, hr, hri⟩ := ih hlt (by omega)
        exact ⟨r, by simp [h0, hr], hri⟩

/-! ## Occurrences and the specification of `find_first`

`occursAt pattern text i` states that `pattern` occurs in `text` at byte
offset `i`.  `firstOcc` is the least such offset.  These two definitions
are the common specification that the individual kernels are compared
against. -/

def occursAtB (pattern text : List Nat) (i : Nat) : Bool :=
  (text.drop i).take pattern.length == pattern

def occursAt (pattern text : List Nat) (i : Nat) : Prop :=
  occursAtB pattern text i = true

instance : ∀ p t i, Decidable (occursAt p t i) := fun p t i => by
  unfold occursAt; infer_instance

theorem occursAt_iff {pattern text : List Nat} {i : Nat} :
    occursAt pattern text i ↔
      (text.drop i).take pattern.length = pattern := by
  unfold occursAt occursAtB
  simp

theorem occursAt_le_length {pattern text : List Nat} {i : Nat}
    (hp : pattern ≠ []) (h : occursAt pattern text i) :
    i + pattern.length ≤ text.length := by
  rw [occursAt_iff] at h
  have h1 : ((text.drop i).take pattern.length).length = pattern.length := by
    rw [h]
  rw [List.length_take, List.length_drop] at h1
  have hp' : 0 < pattern.length := List.length_pos.mpr hp
  rcases Nat.le_total pattern.length (text.length - i) with hle | hle
  · omega
  · rw [Nat.min_eq_right hle] at h1
    omega

theorem occursAt_nil (text : List Nat) (i : Nat) : occursAt [] text i := by
  simp [occursAt, occursAtB]

def firstOcc (pattern text : List Nat) : Option Nat :=
  firstFrom (occursAtB pattern text) (text.length + 1) 0

theorem firstOcc_spec_some {pattern text : List Nat} {i : Nat}
    (h : firstOcc pattern text = some i) :
    occursAt pattern text i ∧ ∀ j < i, ¬ occursAt pattern text j := by
  obtain ⟨_, _, h3, h4⟩ := firstFrom_eq_some h
  exact ⟨h3, fun j hj hc => by simpa [occursAt, h4 j (Nat.zero_le _) hj] using hc⟩

theorem firstOcc_spec_none {pattern text : List Nat}
    (h : firstOcc pattern text = none) :
    ∀ j, ¬ occursAt pattern text j := by
  intro j hc
  by_cases hp : pattern = []
  · subst hp
    have := firstFrom_eq_none h 0 (le_refl 0) (by omega)
    simp [occursAtB] at this
  · have hle := occursAt_le_length hp hc
    have := firstFrom_eq_none h j (Nat.zero_le _) (by omega)
    simp [occursAt, this] at hc

theorem firstOcc_of_occursAt {pattern text : List Nat} {i : Nat}
    (h : occursAt pattern text i) :
    ∃ r, firstOcc pattern text = some r ∧ r ≤ i := by
  by_cases hp : pattern = []
  · subst hp
    refine ⟨0, ?_, Nat.zero_le _⟩
    simp [firstOcc, firstFrom, occursAtB]
  · have hle := occursAt_le_length hp h
    exact firstFrom_of_check (Nat.zero_le _) (by omega) h

/-- An `Option Nat`-valued search equals `firstOcc` as soon as it returns
a minimal occurrence and misses only when there is none. -/
theorem eq_firstOcc_of_spec {pattern text : List Nat} {r : Option Nat}
    (hsome : ∀ i, r = some i →
      occursAt pattern text i ∧ ∀ j < i, ¬ occursAt pattern text j)
    (hnone : r = none → ∀ j, ¬ occursAt pattern text j) :
    r = firstOcc pattern text := by
  cases hr : r with
  | none =>
    cases hf : firstOcc pattern text with
    | none => rfl
    | some k =>
      exact absurd (firstOcc_spec_some hf).1 (hnone hr k)
  | some i =>
    obtain ⟨h1, h2⟩ := hsome i hr
    obtain ⟨k, hk, hki⟩ := firstOcc_of_occursAt h1
    obtain ⟨hk1, hk2⟩ := firstOcc_spec_some hk
    rcases Nat.lt_or_ge k i with hlt | hge
    · exact absurd hk1 (h2 k hlt)
    · have : i = k := by omega
      rw [hk, this]

/-! ## The naive scalar kernel (`algos/src/naive.rs`)

`naive_find_scalar` / `naive_find_all_scalar`, translated from the source.
The verified inner loop `for j in 0..m` over bytes is rendered as equality
of the length-`m` slice with the pattern. -/

def naiveCheck (text pattern : List Nat) (i : Nat) : Bool :=
  (text.drop i).take pattern.length == pattern

def naive_find_scalar (text pattern : List Nat) : Option Nat :=
  if pattern.length = 0 then some 0
  else if pattern.length > text.length then none
  else firstFrom (naiveCheck text pattern) (text.length - pattern.length + 1) 0

def naive_find_all_scalar (text pattern : List Nat) : List Nat :=
  if pattern.length = 0 then List.range (text.length + 1)
  else if pattern.length > text.length then []
  else (List.range (text.length - pattern.length + 1)).filter
    (naiveCheck text pattern)

theorem naiveCheck_eq_occursAtB (text pattern : List Nat) (i : Nat) :
    naiveCheck text pattern i = occursAtB pattern text i := rfl

theorem occursAtB_false_of_late {pattern text : List Nat} {i : Nat}
    (hm : pattern.length ≠ 0) (hi : text.length - pattern.length + 1 ≤ i) :
    occursAtB pattern text i = false := by
  by_contra h
  have hocc : occursAt pattern text i := by
    simpa [occursAt] using Bool.not_eq_false _ ▸ h
  have hp : pattern ≠ [] := by
    intro heq; rw [heq] at hm; simp at hm
  have := occursAt_le_length hp hocc
  omega

theorem naive_find_scalar_eq_firstOcc (text pattern : List Nat) :
    naive_find_scalar text pattern = firstOcc pattern text := by
  unfold naive_find_scalar
  by_cases hm : pattern.length = 0
  · rcases List.length_eq_zero.mp hm with rfl
    rw [if_pos hm]
    simp [firstOcc, firstFrom, occursAtB]
  · by_cases hgt : pattern.length > text.length
    · rw [if_neg hm, if_pos hgt]
      apply eq_firstOcc_of_spec
      · intro i h; simp at h
      · intro _ j hc
        have hp : pattern ≠ [] := by
          intro heq; rw [heq] at hm; simp at hm
        have := occursAt_le_length hp hc
        omega
    · rw [if_neg hm, if_neg hgt]
      apply eq_firstOcc_of_spec
      · intro i h
        obtain ⟨_, _, h3, h4⟩ := firstFrom_eq_some h
        refine ⟨h3, fun j hj hc => ?_⟩
        have := h4 j (Nat.zero_le _) hj
        rw [naiveCheck_eq_occursAtB] at this
        simp [occursAt, this] at hc
      · intro h j hc
        have hp : pattern ≠ [] := by
          intro heq; rw [heq] at hm; simp at hm
        have hle := occursAt_le_length hp hc
        have := firstFrom_eq_none h j (Nat.zero_le _) (by omega)
        rw [naiveCheck_eq_occursAtB] at this
        simp [occursAt, this] at hc

theorem filter_range_congr {p : Nat → Bool} {a b : Nat} (hab : a ≤ b)
    (h : ∀ j, a ≤ j → j < b → p j = false) :
    (List.range b).filter p = (List.range a).filter p := by
  induction b with
  | zero =>
    have : a = 0 := by omega
    subst this; rfl
  | succ b ih =>
    rcases Nat.eq_or_lt_of_le hab with rfl | hlt
    · rfl
    · rw [List.range_succ, List.filter_append]
      have hb : p b = false := h b (by omega) (by omega)
      have hnil : List.filter p [b] = [] := by simp [hb]
      rw [hnil, List.append_nil]
      exact ih (by omega) (fun j h1 h2 => h j h1 (by omega))

theorem naive_find_all_scalar_eq_filter (text pattern : List Nat) :
    naive_find_all_scalar text pattern =
      (List.range (text.length + 1)).filter (occursAtB pattern text) := by
  unfold naive_find_all_scalar
  by_cases hm : pattern.length = 0
  · rcases List.length_eq_zero.mp hm with rfl
    rw [if_pos hm]
    rw [List.filter_eq_self.mpr]
    intro a _
    simp [occursAtB]
  · by_cases hgt : pattern.length > text.length
    · rw [if_neg hm, if_pos hgt]
      symm
      rw [List.filter_eq_nil_iff]
      intro a _ hc
      have hp : pattern ≠ [] := by
        intro heq; rw [heq] at hm; simp at hm
      have := occursAt_le_length hp (show occursAt pattern text a from hc)
      omega
    · rw [if_neg hm, if_neg hgt]
      have := filter_range_congr
        (show text.length - pattern.length + 1 ≤ text.length + 1 by omega)
        (fun j h1 _ => occursAtB_false_of_late hm h1)
        (p := occursAtB pattern text)
      rw [this]
      rfl

/-! ## The LIKE compiler (`like/src/lib.rs`)

Patterns and texts are byte lists.  `char_indices` stepping is modelled by
`utf8Len` (the byte length of the UTF-8 character starting with a given
leading byte, as `char::len_utf8` computes it).  The per-literal
`configs`/`states` arrays are modelled by the list `literals` of the
literal byte strings themselves, in literal order; the search kernel is a
function from a literal to a text slice to an optional offset. -/

def utf8Len (b : Nat) : Nat :=
  if b < 0x80 then 1
  else if b < 0xC0 then 1
  else if b < 0xE0 then 2
  else if b < 0xF0 then 3
  else 4

theorem utf8Len_pos (b : Nat) : 1 ≤ utf8Len b := by
  unfold utf8Len
  repeat' split
  all_goals omega

inductive Token where
  | lit (s : List Nat)
  | skip (n : Nat)
  | anyTok
deriving DecidableEq, Repr

structure CompileOptions where
  treat_underscore_as_literal : Bool
  literal_underscore_is_wildcard : Bool
deriving DecidableEq, Repr

def defaultOptions : CompileOptions := ⟨false, false⟩

structure Pattern where
  tokens : List Token
  min_len : Nat
  literals : List (List Nat)
  literal_underscore_is_wildcard : Bool
deriving DecidableEq, Repr

structure CompSt where
  tokens : List Token
  literals : List (List Nat)
  pending : List Nat
  min_len : Nat
deriving DecidableEq, Repr

/-- Closing the current literal (`if idx > start_idx { .. }` and the final
flush in `compile_pattern_with_options`). -/
def pushLiteral (st : CompSt) : CompSt :=
  if st.pending = [] then st
  else
    { tokens := st.tokens ++ [.lit st.pending],
      literals := st.literals ++ [st.pending],
      pending := [],
      min_len := st.min_len + st.pending.length }

/-- The `%` arm: push `Any` unless the last token is already `Any`. -/
def addAny (st : CompSt) : CompSt :=
  if st.tokens.getLast? = some .anyTok then st
  else { st with tokens := st.tokens ++ [.anyTok] }

/-- The `_` arm: bump the trailing `Skip`'s count or push `Skip(1)`;
`min_len += 1` either way. -/
def addSkip (st : CompSt) : CompSt :=
  match st.tokens.getLast? with
  | some (.skip n) =>
    { st with tokens := st.tokens.dropLast ++ [.skip (n + 1)],
              min_len := st.min_len + 1 }
  | _ =>
    { st with tokens := st.tokens ++ [.skip 1], min_len := st.min_len + 1 }

/-- The `for (idx, c) in pattern.char_indices()` loop.  A non-wildcard
character appends its UTF-8 bytes to the pending literal.  The `fuel`
argument only drives the recursion; one byte per step is always consumed,
so `fuel = bytes.length` (as `compileLoop` passes) never runs out. -/
def compileLoopF (opts : CompileOptions) : Nat → List Nat → CompSt → CompSt
  | _, [], st => pushLiteral st
  | 0, _ :: _, st => pushLiteral st
  | fuel + 1, b :: bs, st =>
    if b = 37 then
      compileLoopF opts fuel bs (addAny (pushLiteral st))
    else if b = 95 ∧ opts.treat_underscore_as_literal = false then
      compileLoopF opts fuel bs (addSkip (pushLiteral st))
    else
      compileLoopF opts fuel (bs.drop (utf8Len b - 1))
        { st with pending := st.pending ++ b :: bs.take (utf8Len b - 1) }

def compileLoop (opts : CompileOptions) (bytes : List Nat) (st : CompSt) :
    CompSt :=
  compileLoopF opts bytes.length bytes st

def compile_pattern_with_options (pattern : List Nat)
    (options : CompileOptions) : Option Pattern :=
  if options.literal_underscore_is_wildcard = true ∧
      options.treat_underscore_as_literal = false then
    none
  else
    let st := compileLoop options pattern ⟨[], [], [], 0⟩
    some ⟨st.tokens, st.min_len, st.literals,
      options.literal_underscore_is_wildcard⟩

/-! ## The LIKE matcher (`like/src/lib.rs`, `like_match`) -/

/-- A search kernel, as used by the matcher: `K config text_slice` models
`S::find_str(&configs[i], &states[i], slice)` for the config built from
the literal `config`. -/
abbrev Kernel := List Nat → List Nat → Option Nat

def slice_from (text : List Nat) (idx : Nat) : List Nat := text.drop idx

def literal_matches_at (K : Kernel) (p : Pattern) (lit : List Nat)
    (text : List Nat) (idx state_idx : Nat) : Bool :=
  if p.literal_underscore_is_wildcard = true ∧ lit.contains 95 then
    K (p.literals.getD state_idx []) (slice_from text idx) == some 0
  else
    lit.isPrefixOf (slice_from text idx)

/-- The `Token::Skip(count)` arm: step over exactly `count` UTF-8
characters of the slice, returning the byte advance, or `none` when fewer
characters remain. -/
def skipAdvance : List Nat → Nat → Option Nat
  | _, 0 => some 0
  | [], _ + 1 => none
  | b :: bs, c + 1 =>
    match skipAdvance (bs.drop (utf8Len b - 1)) c with
    | some a => some (utf8Len b + a)
    | none => none

structure MatchSt where
  t_idx : Nat
  s_idx : Nat
  state_idx : Nat
  last_wildcard_t_idx : Option Nat
  last_wildcard_state_idx : Nat
  match_s_idx : Nat
deriving DecidableEq, Repr

/-- One execution of the `match tokens[t_idx]` body.  `none` means the arm
fell through to the backtracking code; `some (.inl b)` is a `return`;
`some (.inr st)` is a `continue` with the updated variables. -/
def tokenStep (K : Kernel) (p : Pattern) (text : List Nat) (st : MatchSt) :
    Option (Sum Bool MatchSt) :=
  match p.tokens.get? st.t_idx with
  | some (.lit l) =>
    if literal_matches_at K p l text st.s_idx st.state_idx then
      some (.inr { st with s_idx := st.s_idx + l.length,
                           t_idx := st.t_idx + 1,
                           state_idx := st.state_idx + 1 })
    else none
  | some (.skip count) =>
    match skipAdvance (slice_from text st.s_idx) count with
    | some adv =>
      some (.inr { st with s_idx := st.s_idx + adv, t_idx := st.t_idx + 1 })
    | none => none
  | some .anyTok =>
    let st1 := { st with last_wildcard_t_idx := some st.t_idx,
                         last_wildcard_state_idx := st.state_idx }
    match p.tokens.get? (st.t_idx + 1) with
    | some (.lit _) =>
      match K (p.literals.getD st.state_idx []) (slice_from text st.s_idx) with
      | some off =>
        some (.inr { st1 with match_s_idx := st.s_idx + off,
                              s_idx := st.s_idx + off,
                              t_idx := st.t_idx + 1 })
      | none => some (.inl false)
    | _ => some (.inr { st1 with t_idx := st.t_idx + 1,
                                 match_s_idx := st.s_idx })
  | none => none

/-- The backtracking block.  `none` is the final `return false`. -/
def backtrackStep (K : Kernel) (p : Pattern) (text : List Nat)
    (st : MatchSt) : Option MatchSt :=
  match st.last_wildcard_t_idx with
  | some w =>
    let t1 := w + 1
    let si := st.last_wildcard_state_idx
    match p.tokens.get? t1 with
    | some (.lit _) =>
      let search_start := st.match_s_idx + 1
      if text.length ≤ search_start then none
      else
        match K (p.literals.getD si []) (slice_from text search_start) with
        | some off =>
          some { st with t_idx := t1, state_idx := si,
                         match_s_idx := search_start + off,
                         s_idx := search_start + off }
        | none => none
    | _ =>
      match slice_from text st.match_s_idx with
      | [] => none
      | b :: _ =>
        some { st with t_idx := t1, state_idx := si,
                       match_s_idx := st.match_s_idx + utf8Len b,
                       s_idx := st.match_s_idx + utf8Len b }
  | none => none

/-- `while t_idx < tokens.len()` after the main loop: only trailing
`Any` tokens may remain. -/
def consumeAny : List Token → Bool
  | [] => true
  | .anyTok :: ts => consumeAny ts
  | _ => false

def likeLoop (K : Kernel) (p : Pattern) (text : List Nat) :
    Nat → MatchSt → Bool
  | 0, _ => false
  | fuel + 1, st =>
    if st.s_idx < text.length then
      match tokenStep K p text st with
      | some (.inl b) => b
      | some (.inr st') => likeLoop K p text fuel st'
      | none =>
        match backtrackStep K p text st with
        | some st' => likeLoop K p text fuel st'
        | none => false
    else consumeAny (p.tokens.drop st.t_idx)

/-- Enough fuel for every terminating run of the matcher loop. -/
def likeFuel (p : Pattern) (text : List Nat) : Nat :=
  (text.length + 2) * (p.tokens.length + text.length + 2)

/-- The `!starts_with_any` anchored-prefix pre-check: `none` is the early
`return false`, otherwise the initial `(t_idx, s_idx, state_idx)`. -/
def likePrefixCheck (K : Kernel) (p : Pattern) (text : List Nat) :
    Option (Nat × Nat × Nat) :=
  match p.tokens.head? with
  | some .anyTok => some (0, 0, 0)
  | some (.lit l) =>
    if l = [] then some (0, 0, 0)
    else if literal_matches_at K p l text 0 0 then some (1, l.length, 1)
    else none
  | _ => some (0, 0, 0)

/-- The `!ends_with_any` anchored-suffix pre-check. -/
def likeSuffixCheck (K : Kernel) (p : Pattern) (text : List Nat) : Bool :=
  match p.tokens.getLast? with
  | some .anyTok => true
  | some (.lit l) =>
    if l = [] then true
    else if text.length < l.length then false
    else
      literal_matches_at K p l text (text.length - l.length)
        (p.literals.length - 1)
  | _ => true

def like_match (K : Kernel) (p : Pattern) (text : List Nat) : Bool :=
  if text.length < p.min_len then false
  else
    match likePrefixCheck K p text with
    | none => false
    | some (t0, s0, i0) =>
      if likeSuffixCheck K p text then
        likeLoop K p text (likeFuel p text)
          { t_idx := t0, s_idx := s0, state_idx := i0,
            last_wildcard_t_idx := none, last_wildcard_state_idx := 0,
            match_s_idx := 0 }
      else false

/-! ## Compiler invariants -/

def tokenWeight : Token → Nat
  | .lit l => l.length
  | .skip n => n
  | .anyTok => 0

def tokensWeight (ts : List Token) : Nat := (ts.map tokenWeight).sum

def litsOf (ts : List Token) : List (List Nat) :=
  ts.filterMap (fun t => match t with | .lit l => some l | _ => none)

def isSkipTok : Token → Prop
  | .skip _ => True
  | _ => False

instance : DecidablePred isSkipTok := fun t => by
  cases t <;> simp [isSkipTok] <;> infer_instance

def adjacentOK (a b : Token) : Prop :=
  ¬(a = .anyTok ∧ b = .anyTok) ∧ ¬(isSkipTok a ∧ isSkipTok b)

def noEmptyLit (ts : List Token) : Prop := ∀ l, Token.lit l ∈ ts → l ≠ []

/-- The internal invariant of the compile loop state. -/
structure CompInv (st : CompSt) : Prop where
  weight : st.min_len = tokensWeight st.tokens
  lits : st.literals = litsOf st.tokens
  chain : List.Chain' adjacentOK st.tokens
  noEmpty : noEmptyLit st.tokens

theorem tokensWeight_append (a b : List Token) :
    tokensWeight (a ++ b) = tokensWeight a + tokensWeight b := by
  simp [tokensWeight]

theorem litsOf_append (a b : List Token) :
    litsOf (a ++ b) = litsOf a ++ litsOf b := by
  simp [litsOf]

theorem adjacentOK_lit_right (a : Token) (l : List Nat) :
    adjacentOK a (.lit l) := by
  constructor
  · rintro ⟨_, h⟩; cases h
  · rintro ⟨_, h⟩; cases h

theorem adjacentOK_any_right (a : Token) (h : a ≠ .anyTok) :
    adjacentOK a .anyTok := by
  constructor
  · rintro ⟨h1, _⟩; exact h h1
  · rintro ⟨_, h2⟩; cases h2

theorem adjacentOK_skip_right (a : Token) (h : ¬ isSkipTok a) (n : Nat) :
    adjacentOK a (.skip n) := by
  constructor
  · rintro ⟨_, h2⟩; cases h2
  · rintro ⟨h1, _⟩; exact h h1

theorem adjacentOK_skip_congr {a : Token} {n m : Nat}
    (h : adjacentOK a (.skip n)) : adjacentOK a (.skip m) := by
  obtain ⟨h1, h2⟩ := h
  constructor
  · rintro ⟨_, hc⟩; cases hc
  · rintro ⟨hs, _⟩; exact h2 ⟨hs, trivial⟩

theorem chain'_append_singleton {R : Token → Token → Prop} {l : List Token}
    {x : Token} (hc : List.Chain' R l)
    (hr : ∀ a, l.getLast? = some a → R a x) :
    List.Chain' R (l ++ [x]) := by
  rw [List.chain'_append]
  refine ⟨hc, List.chain'_singleton x, ?_⟩
  intro a ha y hy
  simp at hy
  subst hy
  exact hr a ha

theorem pushLiteral_inv {st : CompSt} (h : CompInv st) :
    CompInv (pushLiteral st) := by
  unfold pushLiteral
  by_cases hp : st.pending = []
  · rw [if_pos hp]; exact h
  · rw [if_neg hp]
    refine ⟨?_, ?_, ?_, ?_⟩
    · simp [tokensWeight_append, h.weight, tokensWeight, tokenWeight]
    · simp [litsOf_append, h.lits, litsOf]
    · exact chain'_append_singleton h.chain
        (fun a _ => adjacentOK_lit_right a st.pending)
    · intro l hl
      simp [noEmptyLit] at hl
      rcases hl with hl | rfl
      · exact h.noEmpty l hl
      · exact hp

theorem addAny_inv {st : CompSt} (h : CompInv st) : CompInv (addAny st) := by
  unfold addAny
  by_cases hl : st.tokens.getLast? = some .anyTok
  · rw [if_pos hl]; exact h
  · rw [if_neg hl]
    refine ⟨?_, ?_, ?_, ?_⟩
    · simp [tokensWeight_append, h.weight, tokensWeight, tokenWeight]
    · simp [litsOf_append, h.lits, litsOf]
    · refine chain'_append_singleton h.chain (fun a ha => ?_)
      refine adjacentOK_any_right a (fun hc => ?_)
      rw [hc] at ha
      exact hl ha
    · intro l hl'
      simp at hl'
      exact h.noEmpty l hl'

theorem addSkip_inv {st : CompSt} (h : CompInv st) : CompInv (addSkip st) := by
  unfold addSkip
  split
  case _ n hl =>
    obtain ⟨l', heq⟩ := List.getLast?_eq_some_iff.mp hl
    have hdrop : st.tokens.dropLast = l' := by rw [heq]; simp
    have hchain := h.chain
    rw [heq, List.chain'_append] at hchain
    obtain ⟨hc1, _, hc3⟩ := hchain
    refine ⟨?_, ?_, ?_, ?_⟩
    · rw [hdrop]
      have hw := h.weight
      rw [heq] at hw
      simp [tokensWeight_append, tokensWeight, tokenWeight] at hw ⊢
      omega
    · rw [hdrop]
      have hli := h.lits
      rw [heq] at hli
      simp [litsOf_append, litsOf] at hli ⊢
      exact hli
    · rw [hdrop]
      refine chain'_append_singleton hc1 (fun a ha => ?_)
      exact adjacentOK_skip_congr (hc3 a ha (.skip n) rfl)
    · rw [hdrop]
      intro l hl'
      refine h.noEmpty l ?_
      rw [heq]
      simp at hl' ⊢
      exact hl'
  case _ hne =>
    refine ⟨?_, ?_, ?_, ?_⟩
    · simp [tokensWeight_append, h.weight, tokensWeight, tokenWeight]
    · simp [litsOf_append, h.lits, litsOf]
    · refine chain'_append_singleton h.chain (fun a ha => ?_)
      refine adjacentOK_skip_right a (fun hs => ?_) 1
      cases a with
      | skip n => exact hne n ha
      | lit s => cases hs
      | anyTok => cases hs
    · intro l hl'
      simp at hl'
      exact h.noEmpty l hl'

theorem compileLoopF_inv (opts : CompileOptions) (fuel : Nat)
    (bytes : List Nat) (st : CompSt) :
    CompInv st → CompInv (compileLoopF opts fuel bytes st) := by
  induction fuel, bytes, st using compileLoopF.induct opts with
  | case1 fuel st =>
    intro h
    rw [compileLoopF]
    exact pushLiteral_inv h
  | case2 b bs st =>
    intro h
    exact pushLiteral_inv h
  | case3 fuel bs st ih =>
    intro h
    rw [compileLoopF]
    rw [if_pos rfl]
    exact ih (addAny_inv (pushLiteral_inv h))
  | case4 fuel b bs st hb hu ih =>
    intro h
    rw [compileLoopF]
    rw [if_neg hb, if_pos hu]
    exact ih (addSkip_inv (pushLiteral_inv h))
  | case5 fuel b bs st hb hu ih =>
    intro h
    rw [compileLoopF]
    rw [if_neg hb, if_neg hu]
    exact ih ⟨h.weight, h.lits, h.chain, h.noEmpty⟩

theorem compileLoop_inv (opts : CompileOptions) (bytes : List Nat)
    (st : CompSt) : CompInv st → CompInv (compileLoop opts bytes st) :=
  compileLoopF_inv opts bytes.length bytes st

theorem compile_inv {pattern : List Nat} {options : CompileOptions}
    {p : Pattern}
    (h : compile_pattern_with_options pattern options = some p) :
    p.min_len = tokensWeight p.tokens ∧ p.literals = litsOf p.tokens ∧
      List.Chain' adjacentOK p.tokens ∧ noEmptyLit p.tokens ∧
      p.literal_underscore_is_wildcard =
        options.literal_underscore_is_wildcard := by
  unfold compile_pattern_with_options at h
  split at h
  · cases h
  · have hinv := compileLoop_inv options pattern ⟨[], [], [], 0⟩
      ⟨rfl, rfl, List.chain'_nil, by intro l hl; cases hl⟩
    cases h
    exact ⟨hinv.weight, hinv.lits, hinv.chain, hinv.noEmpty, rfl⟩

/-! ## Claim C9: the option-combination guard -/

/-- **C9.** Compiling with `literal_underscore_is_wildcard` set but
`treat_underscore_as_literal` unset always fails (the `panic!` guard at
the top of `compile_pattern_with_options`), and no other option
combination ever triggers that failure. -/
theorem compile_option_guard (pattern : List Nat)
    (options : CompileOptions) :
    compile_pattern_with_options pattern options = none ↔
      (options.literal_underscore_is_wildcard = true ∧
        options.treat_underscore_as_literal = false) := by
  unfold compile_pattern_with_options
  split
  · simp_all
  · simp_all

/-! ## Claim C4: `min_len` is a sound length lower bound -/

/-- **C4.** For every compiled pattern, `min_len` is the sum of the byte
lengths of the literal tokens plus the skip counts (one per `_`
wildcard), and `like_match` rejects every text shorter than `min_len`. -/
theorem min_len_lower_bound (pattern : List Nat) (options : CompileOptions)
    (p : Pattern)
    (hcomp : compile_pattern_with_options pattern options = some p) :
    p.min_len = tokensWeight p.tokens ∧
      ∀ (K : Kernel) (text : List Nat), text.length < p.min_len →
        like_match K p text = false := by
  refine ⟨(compile_inv hcomp).1, fun K text hlt => ?_⟩
  unfold like_match
  rw [if_pos hlt]

theorem min_len_lower_bound_witness :
    ∃ p, compile_pattern_with_options [97, 95, 98] defaultOptions = some p ∧
      p.min_len = tokensWeight p.tokens ∧
      like_match (fun l s => naive_find_scalar s l) p [120, 121] = false := by
  refine ⟨_, rfl, ?_⟩
  have h := min_len_lower_bound [97, 95, 98] defaultOptions _ rfl
  exact ⟨h.1, h.2 (fun l s => naive_find_scalar s l) [120, 121] (by decide)⟩

/-! ## Claim C8: token-sequence invariants -/

theorem compileLoopF_underscores (n : Nat) (k : Nat) (lits : List (List Nat))
    (ml : Nat) :
    compileLoopF defaultOptions n (List.replicate n 95)
      ⟨[.skip k], lits, [], ml⟩ = ⟨[.skip (k + n)], lits, [], ml + n⟩ := by
  induction n generalizing k ml with
  | zero => rfl
  | succ n ih =>
    rw [List.replicate_succ, compileLoopF]
    rw [if_neg (by decide), if_pos ⟨rfl, rfl⟩]
    have hstep : addSkip (pushLiteral ⟨[.skip k], lits, [], ml⟩) =
        ⟨[.skip (k + 1)], lits, [], ml + 1⟩ := rfl
    rw [hstep, ih]
    have h1 : k + 1 + n = k + (n + 1) := by omega
    have h2 : ml + 1 + n = ml + (n + 1) := by omega
    rw [h1, h2]

/-- **C8.** Compiled token sequences never contain two adjacent `Any`
tokens, two adjacent `Skip` tokens, or an empty `Literal`; and a run of
`n` consecutive `_` wildcards compiles to the single token `Skip(n)`. -/
theorem compiled_token_invariants :
    (∀ (pattern : List Nat) (options : CompileOptions) (p : Pattern),
        compile_pattern_with_options pattern options = some p →
          List.Chain' adjacentOK p.tokens ∧ noEmptyLit p.tokens) ∧
      ∀ n, 1 ≤ n →
        compile_pattern_with_options (List.replicate n 95) defaultOptions =
          some ⟨[.skip n], n, [], false⟩ := by
  constructor
  · intro pattern options p h
    obtain ⟨_, _, hchain, hnoE, _⟩ := compile_inv h
    exact ⟨hchain, hnoE⟩
  · intro n hn
    obtain ⟨m, rfl⟩ : ∃ m, n = m + 1 := ⟨n - 1, by omega⟩
    unfold compile_pattern_with_options
    rw [if_neg (by simp [defaultOptions])]
    unfold compileLoop
    rw [List.length_replicate, List.replicate_succ, compileLoopF]
    rw [if_neg (by decide), if_pos ⟨rfl, rfl⟩]
    have hstep : addSkip (pushLiteral ⟨[], [], [], 0⟩) =
        ⟨[.skip 1], [], [], 1⟩ := rfl
    rw [hstep, compileLoopF_underscores]
    simp [defaultOptions]
    omega

theorem compiled_token_invariants_witness :
    (∃ p, compile_pattern_with_options [97, 37, 37, 95, 95] defaultOptions =
        some p ∧ List.Chain' adjacentOK p.tokens ∧ noEmptyLit p.tokens) ∧
      compile_pattern_with_options [95, 95, 95] defaultOptions =
        some ⟨[.skip 3], 3, [], false⟩ := by
  constructor
  · exact ⟨_, rfl, compiled_token_invariants.1 [97, 37, 37, 95, 95]
      defaultOptions _ rfl⟩
  · exact compiled_token_invariants.2 3 (by omega)

/-- Elimination helper: a successful `like_match` run passed the length
gate, the anchored-prefix pre-check and the anchored-suffix pre-check. -/
theorem like_match_true_elim {K : Kernel} {p : Pattern} {text : List Nat}
    (h : like_match K p text = true) :
    ¬ text.length < p.min_len ∧
      (∃ v, likePrefixCheck K p text = some v) ∧
      likeSuffixCheck K p text = true := by
  by_cases hlen : text.length < p.min_len
  · rw [like_match, if_pos hlen] at h
    cases h
  · rw [like_match, if_neg hlen] at h
    cases hp : likePrefixCheck K p text with
    | none =>
      rw [hp] at h
      simp at h
    | some v =>
      rcases v with ⟨t0, s0, i0⟩
      rw [hp] at h
      simp only [] at h
      by_cases hs : likeSuffixCheck K p text = true
      · exact ⟨hlen, ⟨_, rfl⟩, hs⟩
      · rw [if_neg hs] at h
        cases h

/-! ## Claim C10: the empty pattern -/

/-- **C10.** Compiling the empty pattern yields no tokens and
`min_len = 0`, and the resulting matcher accepts exactly the empty
text. -/
theorem empty_pattern_matches_only_empty (options : CompileOptions)
    (p : Pattern)
    (hcomp : compile_pattern_with_options [] options = some p) :
    p.tokens = [] ∧ p.min_len = 0 ∧
      ∀ (K : Kernel) (text : List Nat),
        (like_match K p text = true ↔ text = []) := by
  have hp : p = ⟨[], 0, [], options.literal_underscore_is_wildcard⟩ := by
    unfold compile_pattern_with_options at hcomp
    split at hcomp
    · cases hcomp
    · cases hcomp; rfl
  subst hp
  refine ⟨rfl, rfl, fun K text => ?_⟩
  cases text with
  | nil =>
    simp [like_match, likePrefixCheck, likeSuffixCheck, likeFuel, likeLoop,
      consumeAny]
  | cons b bs =>
    have hfalse : like_match K
        ⟨[], 0, [], options.literal_underscore_is_wildcard⟩ (b :: bs) =
        false := by
      rw [like_match, if_neg (by simp)]
      have hpre : likePrefixCheck K
          ⟨[], 0, [], options.literal_underscore_is_wildcard⟩ (b :: bs) =
          some (0, 0, 0) := rfl
      rw [hpre]
      simp only []
      rw [if_pos (show likeSuffixCheck K
        ⟨[], 0, [], options.literal_underscore_is_wildcard⟩ (b :: bs) = true
        from rfl)]
      obtain ⟨f, hf⟩ : ∃ f, likeFuel
          ⟨[], 0, [], options.literal_underscore_is_wildcard⟩ (b :: bs) =
          f + 1 := by
        refine ⟨likeFuel ⟨[], 0, [],
          options.literal_underscore_is_wildcard⟩ (b :: bs) - 1, ?_⟩
        have h0 : 0 < likeFuel ⟨[], 0, [],
            options.literal_underscore_is_wildcard⟩ (b :: bs) := by
          unfold likeFuel
          positivity
        omega
      rw [hf, likeLoop]
      rw [if_pos (by simp)]
      rfl
    rw [hfalse]
    simp

theorem empty_pattern_matches_only_empty_witness :
    ∃ p, compile_pattern_with_options [] defaultOptions = some p ∧
      p.tokens = [] ∧ p.min_len = 0 ∧
      (like_match (fun l s => naive_find_scalar s l) p [] = true ↔
        ([] : List Nat) = []) ∧
      (like_match (fun l s => naive_find_scalar s l) p [104, 105] = true ↔
        ([104, 105] : List Nat) = []) := by
  refine ⟨_, rfl, ?_⟩
  have h := empty_pattern_matches_only_empty defaultOptions _ rfl
  exact ⟨h.1, h.2.1, h.2.2 _ [], h.2.2 _ [104, 105]⟩

/-! ## Claim C3: anchored prefix / suffix literals -/

/-- The LIKE semantics of a literal containing `_` wildcards matching at
the front of `s` (each `_` byte matches one arbitrary byte). -/
def wildMatchB (lit s : List Nat) : Bool :=
  decide (lit.length ≤ s.length) &&
    (List.range lit.length).all
      (fun j => (lit.getD j 0 == 95) || (lit.getD j 0 == s.getD j 0))

theorem wildMatchB_of_prefix {lit s : List Nat}
    (h : lit.isPrefixOf s = true) : wildMatchB lit s = true := by
  obtain ⟨t, rfl⟩ := List.isPrefixOf_iff_prefix.mp h
  unfold wildMatchB
  rw [Bool.and_eq_true]
  constructor
  · simp
  · rw [List.all_eq_true]
    intro j hj
    rw [List.mem_range] at hj
    rw [List.getD_append _ _ _ _ hj]
    simp

/-- What `like_match` guarantees on an anchored prefix literal `L`:
byte-equality at offset 0 normally, wildcard-tolerant equality when the
`literal_underscore_is_wildcard` mode applies to `L`. -/
def anchoredPrefix (p : Pattern) (L text : List Nat) : Prop :=
  if p.literal_underscore_is_wildcard = true ∧ L.contains 95 then
    wildMatchB L text = true
  else L <+: text

/-- The mirrored guarantee at the end of the text. -/
def anchoredSuffix (p : Pattern) (L text : List Nat) : Prop :=
  L.length ≤ text.length ∧
    (if p.literal_underscore_is_wildcard = true ∧ L.contains 95 then
      wildMatchB L (text.drop (text.length - L.length)) = true
    else L <:+ text)

theorem litsOf_head {ts : List Token} {L : List Nat}
    (h : ts.head? = some (.lit L)) : (litsOf ts).getD 0 [] = L := by
  cases ts with
  | nil => cases h
  | cons t ts =>
    simp at h
    subst h
    simp [litsOf]

theorem litsOf_last {ts : List Token} {L : List Nat}
    (h : ts.getLast? = some (.lit L)) :
    (litsOf ts).getD ((litsOf ts).length - 1) [] = L := by
  obtain ⟨l', rfl⟩ := List.getLast?_eq_some_iff.mp h
  rw [litsOf_append]
  have hsing : litsOf [Token.lit L] = [L] := rfl
  rw [hsing]
  have hlen : (litsOf l' ++ [L]).length - 1 = (litsOf l').length := by
    simp
  rw [hlen, List.getD_append_right _ _ _ _ (le_refl _)]
  simp

theorem suffix_of_prefix_drop {L t : List Nat} (hle : L.length ≤ t.length)
    (h : L <+: t.drop (t.length - L.length)) : L <:+ t := by
  have hlen : (t.drop (t.length - L.length)).length = L.length := by
    rw [List.length_drop]
    omega
  have heq := List.IsPrefix.eq_of_length h (by rw [hlen])
  rw [heq]
  exact List.drop_suffix _ _

/-- **C3.** If the compiled pattern's first token is a literal `L` (the
pattern does not start with `%`), a successful `like_match` implies the
text starts with `L` (with `_` in `L` matching any byte when
`literal_underscore_is_wildcard` applies); symmetrically for a trailing
literal.  The kernel hypothesis states that `find_str` returning offset 0
means a wildcard-tolerant match at the front, which the naive kernel (and
every exact kernel) satisfies. -/
theorem like_match_anchoring (K : Kernel) (bytes : List Nat)
    (options : CompileOptions) (p : Pattern) (text : List Nat)
    (hcomp : compile_pattern_with_options bytes options = some p)
    (HK : ∀ l s, K l s = some 0 → wildMatchB l s = true)
    (h : like_match K p text = true) :
    (∀ L, p.tokens.head? = some (.lit L) → anchoredPrefix p L text) ∧
      (∀ L, p.tokens.getLast? = some (.lit L) → anchoredSuffix p L text) := by
  obtain ⟨hw, hlits, hchain, hnoE, hluw⟩ := compile_inv hcomp
  obtain ⟨hlen, ⟨v, hpre⟩, hsuf⟩ := like_match_true_elim h
  constructor
  · intro L hL
    have hLne : L ≠ [] :=
      hnoE L (List.mem_of_mem_head? hL)
    unfold likePrefixCheck at hpre
    rw [hL] at hpre
    simp only [] at hpre
    rw [if_neg hLne] at hpre
    by_cases hm : literal_matches_at K p L text 0 0 = true
    · unfold literal_matches_at at hm
      unfold anchoredPrefix
      by_cases hwild : p.literal_underscore_is_wildcard = true ∧
          L.contains 95 = true
      · rw [if_pos hwild] at hm ⊢
        have hg : p.literals.getD 0 [] = L := by
          rw [hlits]
          exact litsOf_head hL
        rw [hg] at hm
        simp only [slice_from, List.drop_zero, beq_iff_eq] at hm
        exact HK L text hm
      · rw [if_neg hwild] at hm ⊢
        simp only [slice_from, List.drop_zero] at hm
        exact List.isPrefixOf_iff_prefix.mp hm
    · rw [if_neg hm] at hpre
      cases hpre
  · intro L hL
    have hLne : L ≠ [] :=
      hnoE L (List.mem_of_mem_getLast? hL)
    unfold likeSuffixCheck at hsuf
    rw [hL] at hsuf
    simp only [] at hsuf
    rw [if_neg hLne] at hsuf
    by_cases hlt : text.length < L.length
    · rw [if_pos hlt] at hsuf
      cases hsuf
    · rw [if_neg hlt] at hsuf
      unfold literal_matches_at at hsuf
      unfold anchoredSuffix
      refine ⟨by omega, ?_⟩
      by_cases hwild : p.literal_underscore_is_wildcard = true ∧
          L.contains 95 = true
      · rw [if_pos hwild] at hsuf ⊢
        have hg : p.literals.getD (p.literals.length - 1) [] = L := by
          rw [hlits]
          exact litsOf_last hL
        rw [hg] at hsuf
        simp only [slice_from, beq_iff_eq] at hsuf
        exact HK L _ hsuf
      · rw [if_neg hwild] at hsuf ⊢
        simp only [slice_from] at hsuf
        exact suffix_of_prefix_drop (by omega)
          (List.isPrefixOf_iff_prefix.mp hsuf)

theorem naive_kernel_wild_sound :
    ∀ l s : List Nat, naive_find_scalar s l = some 0 →
      wildMatchB l s = true := by
  intro l s h
  rw [naive_find_scalar_eq_firstOcc] at h
  have hocc := (firstOcc_spec_some h).1
  rw [occursAt_iff] at hocc
  apply wildMatchB_of_prefix
  rw [List.isPrefixOf_iff_prefix]
  refine ⟨s.drop l.length, ?_⟩
  simp at hocc
  have hsplit := List.take_append_drop l.length s
  rw [hocc] at hsplit
  exact hsplit

theorem like_match_anchoring_witness :
    ∃ p, compile_pattern_with_options [97, 98, 37, 99, 100] defaultOptions =
        some p ∧
      (∀ L, p.tokens.head? = some (.lit L) →
        anchoredPrefix p L [97, 98, 120, 99, 100]) ∧
      (∀ L, p.tokens.getLast? = some (.lit L) →
        anchoredSuffix p L [97, 98, 120, 99, 100]) := by
  refine ⟨_, rfl, ?_⟩
  exact like_match_anchoring (fun l s => naive_find_scalar s l)
    [97, 98, 37, 99, 100] defaultOptions _ [97, 98, 120, 99, 100] rfl
    naive_kernel_wild_sound (by decide)

/-! ## The k-mer kernel (`algos/src/kmer.rs`)

The `HashMap<Vec<u8>, Vec<usize>>` is modelled as an insertion-ordered
association list; the per-diagonal counter `HashMap<isize, usize>` as a
function `Int → Nat` (only point lookups and updates are performed, so
iteration order never matters). -/

structure KmerConfig where
  pattern : List Nat
  k : Nat
  min_hits : Nat
deriving DecidableEq, Repr

structure KmerIndex where
  map : List (List Nat × List Nat)
  k : Nat
  min_hits : Nat
deriving DecidableEq, Repr

def assocPush (m : List (List Nat × List Nat)) (key : List Nat) (v : Nat) :
    List (List Nat × List Nat) :=
  match m with
  | [] => [(key, [v])]
  | (k', vs) :: rest =>
    if k' = key then (k', vs ++ [v]) :: rest
    else (k', vs) :: assocPush rest key v

def assocGet (m : List (List Nat × List Nat)) (key : List Nat) :
    Option (List Nat) :=
  match m with
  | [] => none
  | (k', vs) :: rest => if k' = key then some vs else assocGet rest key

def kmer_build (config : KmerConfig) : KmerIndex :=
  let map :=
    if 0 < config.k ∧ config.k ≤ config.pattern.length then
      (List.range (config.pattern.length - config.k + 1)).foldl
        (fun m i =>
          assocPush m ((config.pattern.drop i).take config.k) i) []
    else []
  ⟨map, config.k, config.min_hits⟩

/-- The `for &query_pos in query_positions` inner loop of
`KmerSearch::find_bytes`. -/
def kmerScanPositions (min_hits text_pos : Nat) (counts : Int → Nat) :
    List Nat → (Int → Nat) × Option Nat
  | [] => (counts, none)
  | qp :: qps =>
    let d : Int := (text_pos : Int) - (qp : Int)
    if d < 0 then kmerScanPositions min_hits text_pos counts qps
    else
      let c := counts d + 1
      let counts' : Int → Nat := fun x => if x = d then c else counts x
      if min_hits ≤ c then (counts', some d.toNat)
      else kmerScanPositions min_hits text_pos counts' qps

/-- The `for text_pos in 0..=text.len() - state.k` outer loop; `rem` is
the number of positions still to visit. -/
def kmerOuter (map : List (List Nat × List Nat)) (kk min_hits : Nat)
    (text : List Nat) : Nat → Nat → (Int → Nat) → Option Nat
  | 0, _, _ => none
  | rem + 1, text_pos, counts =>
    let kmer := (text.drop text_pos).take kk
    match assocGet map kmer with
    | some qps =>
      match kmerScanPositions min_hits text_pos counts qps with
      | (_, some r) => some r
      | (counts', none) =>
        kmerOuter map kk min_hits text rem (text_pos + 1) counts'
    | none => kmerOuter map kk min_hits text rem (text_pos + 1) counts

def kmer_find_bytes (state : KmerIndex) (text : List Nat) : Option Nat :=
  if state.map = [] ∨ text.length < state.k then none
  else
    kmerOuter state.map state.k state.min_hits text
      (text.length - state.k + 1) 0 (fun _ => 0)

/-! ## The KMP kernel (`algos/src/kmp.rs`) -/

/-- The `while i < m` loop of `build_lps`.  One unit of fuel per loop
iteration; `build_lps` passes `2*m + 1`, which the termination measure
`2*(m - i) + len` shows is always enough. -/
def buildLpsLoop (pattern : List Nat) : Nat → List Nat → Nat → Nat → List Nat
  | 0, lps, _, _ => lps
  | fuel + 1, lps, len, i =>
    if i < pattern.length then
      if pattern.getD i 0 = pattern.getD len 0 then
        buildLpsLoop pattern fuel (lps.set i (len + 1)) (len + 1) (i + 1)
      else if len ≠ 0 then
        buildLpsLoop pattern fuel lps (lps.getD (len - 1) 0) i
      else
        buildLpsLoop pattern fuel (lps.set i 0) 0 (i + 1)
    else lps

def build_lps (pattern : List Nat) : List Nat :=
  buildLpsLoop pattern (2 * pattern.length + 1)
    (List.replicate pattern.length 0) 0 1

/-- The `while i < n` scan loop of `kmp_find`. -/
def kmpLoop (text pattern lps : List Nat) : Nat → Nat → Nat → Option Nat
  | 0, _, _ => none
  | fuel + 1, i, j =>
    if i < text.length then
      if text.getD i 0 = pattern.getD j 0 then
        if j + 1 = pattern.length then some (i + 1 - pattern.length)
        else kmpLoop text pattern lps fuel (i + 1) (j + 1)
      else if j ≠ 0 then
        kmpLoop text pattern lps fuel i (lps.getD (j - 1) 0)
      else kmpLoop text pattern lps fuel (i + 1) 0
    else none

def kmp_find (text pattern : List Nat) : Option Nat :=
  if pattern.length = 0 then some 0
  else if pattern.length > text.length then none
  else
    kmpLoop text pattern (build_lps pattern) (2 * text.length + 1) 0 0

/-- The scan loop of `kmp_find_all`: on a full match the start offset is
pushed and `j` falls back to `lps[m-1]`. -/
def kmpAllLoop (text pattern lps : List Nat) :
    Nat → Nat → Nat → List Nat → List Nat
  | 0, _, _, acc => acc
  | fuel + 1, i, j, acc =>
    if i < text.length then
      if text.getD i 0 = pattern.getD j 0 then
        if j + 1 = pattern.length then
          kmpAllLoop text pattern lps fuel (i + 1)
            (lps.getD (pattern.length - 1) 0) (acc ++ [i + 1 - pattern.length])
        else kmpAllLoop text pattern lps fuel (i + 1) (j + 1) acc
      else if j ≠ 0 then
        kmpAllLoop text pattern lps fuel i (lps.getD (j - 1) 0) acc
      else kmpAllLoop text pattern lps fuel (i + 1) 0 acc
    else acc

def kmp_find_all (text pattern : List Nat) : List Nat :=
  if pattern.length = 0 then List.range (text.length + 1)
  else if pattern.length > text.length then []
  else
    kmpAllLoop text pattern (build_lps pattern) (2 * text.length + 1) 0 0 []

/-! ## Border theory

A border of a list `w` is a proper prefix that is also a suffix;
`lps[k]` must be the length of the longest border of `pattern.take
(k+1)`. -/

def IsBorder (w : List Nat) (b : Nat) : Prop := b < w.length ∧ w.take b <:+ w

instance : ∀ w b, Decidable (IsBorder w b) := fun w b => by
  unfold IsBorder; infer_instance

def maxBorder (w : List Nat) : Nat :=
  Nat.findGreatest (fun b => IsBorder w b) (w.length - 1)

theorem isBorder_zero {w : List Nat} (h : w ≠ []) : IsBorder w 0 :=
  ⟨List.length_pos.mpr h, by simp⟩

theorem maxBorder_isBorder {w : List Nat} (h : w ≠ []) :
    IsBorder w (maxBorder w) :=
  Nat.findGreatest_spec (Nat.zero_le _) (isBorder_zero h)

theorem le_maxBorder {w : List Nat} {b : Nat} (h : IsBorder w b) :
    b ≤ maxBorder w :=
  Nat.le_findGreatest (by have := h.1; omega) h

theorem maxBorder_lt {w : List Nat} (h : w ≠ []) : maxBorder w < w.length := by
  have h1 : 0 < w.length := List.length_pos.mpr h
  have := Nat.findGreatest_le (P := fun b => IsBorder w b) (w.length - 1)
  unfold maxBorder
  omega

theorem getD_drop (l : List Nat) (i j : Nat) :
    (l.drop i).getD j 0 = l.getD (i + j) 0 := by
  simp [List.getD_eq_getElem?_getD, List.getElem?_drop]

theorem take_succ_getD {l : List Nat} {n : Nat} (h : n < l.length) :
    l.take (n + 1) = l.take n ++ [l.getD n 0] := by
  rw [List.take_succ]
  congr 1
  simp [List.get?_eq_getElem?, List.getD, List.getElem?_eq_getElem h]

theorem suffix_append_singleton_iff {l1 l2 : List Nat} {x y : Nat} :
    l1 ++ [x] <:+ l2 ++ [y] ↔ x = y ∧ l1 <:+ l2 := by
  rw [← List.reverse_prefix]
  simp only [List.reverse_append, List.reverse_cons, List.reverse_nil,
    List.nil_append, List.singleton_append]
  rw [List.cons_prefix_cons, List.reverse_prefix]

/-- Suffix of a known length: a suffix of `w` of length `b` is
`w.drop (w.length - b)`. -/
theorem suffix_eq_drop {w s : List Nat} (h : s <:+ w) :
    s = w.drop (w.length - s.length) :=
  List.suffix_iff_eq_drop.mp h

theorem border_take_drop {w : List Nat} {b : Nat} (h : IsBorder w b) :
    w.take b = w.drop (w.length - b) := by
  have hb := h.1
  have := suffix_eq_drop h.2
  rwa [List.length_take, Nat.min_eq_left (by omega)] at this

theorem border_trans {w : List Nat} {b c : Nat} (hb : IsBorder w b)
    (hc : IsBorder (w.take b) c) : IsBorder w c := by
  have hbl : b < w.length := hb.1
  have hcl : c < (w.take b).length := hc.1
  rw [List.length_take, Nat.min_eq_left (by omega)] at hcl
  refine ⟨by omega, ?_⟩
  have h1 : (w.take b).take c = w.take c := by
    rw [List.take_take, Nat.min_eq_left (by omega)]
  have hc2 := hc.2
  rw [h1] at hc2
  exact hc2.trans hb.2

theorem border_nest {w : List Nat} {b c : Nat} (hb : IsBorder w b)
    (hcb : c < b) (hc : IsBorder w c) : IsBorder (w.take b) c := by
  have hbl : b < w.length := hb.1
  refine ⟨by rw [List.length_take]; omega, ?_⟩
  rw [List.take_take, Nat.min_eq_left (by omega)]
  exact List.suffix_of_suffix_length_le hc.2 hb.2
    (by rw [List.length_take, List.length_take]; omega)

/-- Extending a border by one matching character. -/
theorem border_succ_iff {p : List Nat} {i b : Nat} (hi : i < p.length)
    (hb : b ≤ i) :
    IsBorder (p.take (i + 1)) (b + 1) ↔
      IsBorder (p.take i) b ∧ p.getD b 0 = p.getD i 0 := by
  have hbl : b < p.length := by omega
  have hlen1 : (p.take (i + 1)).length = i + 1 := by
    rw [List.length_take]; omega
  have hlen0 : (p.take i).length = i := by
    rw [List.length_take]; omega
  have htk1 : p.take (i + 1) = p.take i ++ [p.getD i 0] := take_succ_getD hi
  have htkb : (p.take (i + 1)).take (b + 1) =
      (p.take i).take b ++ [p.getD b 0] := by
    rw [List.take_take, Nat.min_eq_left (by omega)]
    rw [take_succ_getD hbl, List.take_take, Nat.min_eq_left (by omega)]
  constructor
  · rintro ⟨h1, h2⟩
    rw [htkb, htk1] at h2
    obtain ⟨hxy, hsuf⟩ := suffix_append_singleton_iff.mp h2
    exact ⟨⟨by omega, hsuf⟩, hxy⟩
  · rintro ⟨⟨h1, h2⟩, h3⟩
    refine ⟨by omega, ?_⟩
    rw [htkb, htk1]
    exact suffix_append_singleton_iff.mpr ⟨h3, h2⟩

theorem getD_set_ne {l : List Nat} {i k v : Nat} (h : i ≠ k) :
    (l.set i v).getD k 0 = l.getD k 0 := by
  simp [List.getD_eq_getElem?_getD, List.getElem?_set_ne h]

theorem getD_set_self {l : List Nat} {i v : Nat} (h : i < l.length) :
    (l.set i v).getD i 0 = v := by
  simp [List.getD_eq_getElem?_getD, List.getElem?_set_self, h]

theorem take_length_of_le {p : List Nat} {i : Nat} (h : i ≤ p.length) :
    (p.take i).length = i := by
  rw [List.length_take]; omega

theorem take_ne_nil_of_pos {p : List Nat} {i : Nat} (h0 : 0 < i)
    (h : i ≤ p.length) : p.take i ≠ [] := by
  intro hc
  have := congrArg List.length hc
  rw [take_length_of_le h] at this
  simp at this
  omega

/-- The loop invariant of `build_lps`: entries below `i` are correct,
`len` is a border of `pattern.take i`, and every longer border has
already been ruled out as an extension candidate for position `i`. -/
structure LpsInv (p lps : List Nat) (len i : Nat) : Prop where
  hlen : lps.length = p.length
  hi1 : 1 ≤ i
  him : i ≤ p.length
  hprev : ∀ k, k < i → lps.getD k 0 = maxBorder (p.take (k + 1))
  hborder : IsBorder (p.take i) len
  hmaximal : ∀ c, IsBorder (p.take i) c → len < c →
    p.getD c 0 ≠ p.getD i 0

theorem buildLpsLoop_spec (p : List Nat) :
    ∀ (fuel : Nat) (lps : List Nat) (len i : Nat),
      2 * (p.length - i) + len < fuel →
      LpsInv p lps len i →
      ∀ k, k < p.length →
        (buildLpsLoop p fuel lps len i).getD k 0 =
          maxBorder (p.take (k + 1)) := by
  intro fuel
  induction fuel with
  | zero => intro lps len i hfuel; omega
  | succ f ih =>
    intro lps len i hfuel inv k hk
    have hlenlti : len < i := by
      have := inv.hborder.1
      rwa [take_length_of_le inv.him] at this
    rw [buildLpsLoop]
    by_cases hi : i < p.length
    · rw [if_pos hi]
      by_cases hc : p.getD i 0 = p.getD len 0
      · -- match: extend the border
        rw [if_pos hc]
        have hnew : maxBorder (p.take (i + 1)) = len + 1 := by
          have hside : IsBorder (p.take (i + 1)) (len + 1) :=
            (border_succ_iff hi (by omega)).mpr ⟨inv.hborder, hc.symm⟩
          have hle : len + 1 ≤ maxBorder (p.take (i + 1)) :=
            le_maxBorder hside
          have hge : maxBorder (p.take (i + 1)) ≤ len + 1 := by
            have hne : p.take (i + 1) ≠ [] :=
              take_ne_nil_of_pos (by omega) (by omega)
            have hmb := maxBorder_isBorder hne
            cases hM : maxBorder (p.take (i + 1)) with
            | zero => omega
            | succ c =>
              rw [hM] at hmb
              obtain ⟨hcb, hcc⟩ := (border_succ_iff hi (by
                have := hmb.1
                rw [take_length_of_le (by omega)] at this
                omega)).mp hmb
              by_contra hgt
              exact inv.hmaximal c hcb (by omega) hcc
          omega
        apply ih
        · omega
        · refine ⟨by simp [inv.hlen], by omega, by omega, ?_, ?_, ?_⟩
          · intro k' hk'
            rcases Nat.lt_or_ge k' i with hki | hki
            · rw [getD_set_ne (by omega)]
              exact inv.hprev k' hki
            · have hki' : k' = i := by omega
              subst hki'
              rw [getD_set_self (by rw [inv.hlen]; omega), hnew]
          · rw [← hnew]
            exact maxBorder_isBorder
              (take_ne_nil_of_pos (by omega) (by omega))
          · intro c hcb hcgt
            have := le_maxBorder hcb
            omega
        · exact hk
      · rw [if_neg hc]
        by_cases hl : len ≠ 0
        · -- fall back along the border chain
          rw [if_pos hl]
          have hlp : 0 < len := by omega
          have hlen_ne : p.take len ≠ [] :=
            take_ne_nil_of_pos hlp (by omega)
          have hfall : lps.getD (len - 1) 0 = maxBorder (p.take len) := by
            have := inv.hprev (len - 1) (by omega)
            rwa [Nat.sub_add_cancel hlp] at this
          have hmbl : maxBorder (p.take len) < len := by
            have := maxBorder_lt hlen_ne
            rwa [take_length_of_le (by omega)] at this
          apply ih
          · omega
          · refine ⟨inv.hlen, inv.hi1, inv.him, inv.hprev, ?_, ?_⟩
            · rw [hfall]
              have hb' : IsBorder ((p.take i).take len)
                  (maxBorder (p.take len)) := by
                rw [List.take_take, Nat.min_eq_left (by omega)]
                exact maxBorder_isBorder hlen_ne
              exact border_trans inv.hborder hb'
            · rw [hfall]
              intro c hcb hcgt
              rcases Nat.lt_trichotomy c len with hcl | hcl | hcl
              · -- maxBorder (take len) < c < len: impossible
                exfalso
                have hnest := border_nest inv.hborder hcl hcb
                rw [List.take_take, Nat.min_eq_left (by omega)] at hnest
                have := le_maxBorder hnest
                omega
              · subst hcl
                exact fun he => hc (he.symm)
              · exact inv.hmaximal c hcb (by omega)
          · exact hk
        · -- len = 0 and mismatch: no border extension exists
          rw [if_neg hl]
          push_neg at hl
          subst hl
          have hzero : maxBorder (p.take (i + 1)) = 0 := by
            apply Nat.findGreatest_eq_zero_iff.mpr
            intro b hb0 _ hB
            cases b with
            | zero => omega
            | succ c =>
              obtain ⟨hcb, hcc⟩ := (border_succ_iff hi (by
                have := hB.1
                rw [take_length_of_le (by omega)] at this
                omega)).mp hB
              cases c with
              | zero => exact hc hcc.symm
              | succ c' => exact inv.hmaximal (c' + 1) hcb (by omega) hcc
          apply ih
          · omega
          · refine ⟨by simp [inv.hlen], by omega, by omega, ?_, ?_, ?_⟩
            · intro k' hk'
              rcases Nat.lt_or_ge k' i with hki | hki
              · rw [getD_set_ne (by omega)]
                exact inv.hprev k' hki
              · have hki' : k' = i := by omega
                subst hki'
                rw [getD_set_self (by rw [inv.hlen]; omega), hzero]
            · exact isBorder_zero (take_ne_nil_of_pos (by omega) (by omega))
            · intro c hcb hcgt
              have := le_maxBorder hcb
              omega
          · exact hk
    · rw [if_neg hi]
      exact inv.hprev k (by omega)

theorem build_lps_spec (p : List Nat) (hp : p ≠ []) :
    ∀ k, k < p.length →
      (build_lps p).getD k 0 = maxBorder (p.take (k + 1)) := by
  have hm : 0 < p.length := List.length_pos.mpr hp
  unfold build_lps
  apply buildLpsLoop_spec
  · omega
  · refine ⟨by simp, le_refl 1, hm, ?_, ?_, ?_⟩
    · intro k hk
      have hk0 : k = 0 := by omega
      subst hk0
      have h1 : maxBorder (p.take 1) = 0 := by
        unfold maxBorder
        rw [take_length_of_le hm]
        exact Nat.findGreatest_zero
      rw [h1]
      simp [List.getD_eq_getElem?_getD]
    · exact isBorder_zero (take_ne_nil_of_pos (by omega) hm)
    · intro c hcb hcgt
      have := hcb.1
      rw [take_length_of_le hm] at this
      omega

theorem getD_take {l : List Nat} {n j : Nat} (h : j < n) (d : Nat) :
    (l.take n).getD j d = l.getD j d := by
  simp [List.getD_eq_getElem?_getD, List.getElem?_take, h]

theorem occursAt_getD {pattern text : List Nat} {q j : Nat}
    (h : occursAt pattern text q) (hj : j < pattern.length) :
    pattern.getD j 0 = text.getD (q + j) 0 := by
  have heq := occursAt_iff.mp h
  calc pattern.getD j 0
      = ((text.drop q).take pattern.length).getD j 0 := by rw [heq]
    _ = (text.drop q).getD j 0 := getD_take hj 0
    _ = text.getD (q + j) 0 := getD_drop text q j

theorem slice_shift {text : List Nat} {i j c : Nat} (hcj : c ≤ j)
    (hji : j ≤ i) :
    ((text.drop (i - j)).take j).drop (j - c) = (text.drop (i - c)).take c := by
  rw [List.drop_take, List.drop_drop]
  have h1 : j - (j - c) = c := by omega
  have h2 : i - j + (j - c) = i - c := by omega
  rw [h1, h2]

theorem firstOcc_eq_some_of {pattern text : List Nat} {i0 : Nat}
    (h1 : occursAt pattern text i0)
    (h2 : ∀ q, q < i0 → ¬ occursAt pattern text q) :
    firstOcc pattern text = some i0 := by
  have := eq_firstOcc_of_spec (r := some i0)
    (fun i h => by cases h; exact ⟨h1, fun j hj => h2 j hj⟩)
    (fun h => by cases h)
  exact this.symm

theorem firstOcc_eq_none_of {pattern text : List Nat}
    (h : ∀ q, ¬ occursAt pattern text q) : firstOcc pattern text = none := by
  have := eq_firstOcc_of_spec (r := none)
    (fun i hi => by cases hi) (fun _ => h)
  exact this.symm

/-- The partial match grows by one byte when the current characters
agree. -/
theorem kmp_match_extend {text pattern : List Nat} {i j : Nat}
    (hj : j < pattern.length) (hji : j ≤ i) (hi : i < text.length)
    (hmatch : (text.drop (i - j)).take j = pattern.take j)
    (hc : text.getD i 0 = pattern.getD j 0) :
    (text.drop (i - j)).take (j + 1) = pattern.take (j + 1) := by
  have hlend : j < (text.drop (i - j)).length := by
    rw [List.length_drop]; omega
  rw [take_succ_getD hlend, take_succ_getD hj, hmatch]
  congr 2
  rw [getD_drop]
  have : i - j + j = i := by omega
  rw [this]
  exact hc

/-- No occurrence can start strictly between the current alignment and
the alignment given by the longest border of the matched prefix. -/
theorem kmp_gap {text pattern : List Nat} {i j : Nat}
    (hjm : j ≤ pattern.length) (hji : j ≤ i) (hin : i ≤ text.length)
    (hmatch : (text.drop (i - j)).take j = pattern.take j) :
    ∀ q, i - j < q → q < i - maxBorder (pattern.take j) →
      ¬ occursAt pattern text q := by
  intro q hq1 hq2 hocc
  have hqi : q < i := by
    have := maxBorder_lt (w := pattern.take j)
    omega
  have hc0 : 0 < i - q := by omega
  have hcj : i - q < j := by omega
  set c := i - q with hcdef
  have hcm : c ≤ pattern.length := by omega
  -- the first c bytes of the occurrence are a suffix of `pattern.take j`
  have h1 : pattern.take c = (text.drop q).take c := by
    have heq := occursAt_iff.mp hocc
    rw [← heq, List.take_take, Nat.min_eq_left hcm]
  have h2 : (text.drop q).take c = (pattern.take j).drop (j - c) := by
    have hs := @slice_shift text i j c (by omega) hji
    rw [hmatch] at hs
    have hq : i - c = q := by omega
    rw [hq] at hs
    exact hs.symm
  have hborder : IsBorder (pattern.take j) c := by
    refine ⟨by rw [take_length_of_le hjm]; omega, ?_⟩
    rw [List.take_take, Nat.min_eq_left (by omega), h1, h2]
    exact List.drop_suffix _ _
  have := le_maxBorder hborder
  omega

theorem kmp_edge {text pattern : List Nat} {i j : Nat}
    (hjm : j < pattern.length) (hji : j ≤ i)
    (hmis : text.getD i 0 ≠ pattern.getD j 0) :
    ¬ occursAt pattern text (i - j) := by
  intro hocc
  have h := occursAt_getD hocc hjm
  have hij : i - j + j = i := by omega
  rw [hij] at h
  exact hmis h.symm

/-- The loop invariant of the `kmp_find` scan. -/
structure KmpInv (text pattern : List Nat) (i j : Nat) : Prop where
  hj : j < pattern.length
  hji : j ≤ i
  hin : i ≤ text.length
  hmatch : (text.drop (i - j)).take j = pattern.take j
  hmin : ∀ q, q < i - j → ¬ occursAt pattern text q

theorem kmpLoop_spec (text pattern lps : List Nat)
    (hlps : ∀ k, k < pattern.length →
      lps.getD k 0 = maxBorder (pattern.take (k + 1)))
    (hmn : pattern.length ≤ text.length) :
    ∀ (fuel i j : Nat), 2 * (text.length - i) + j < fuel →
      KmpInv text pattern i j →
      kmpLoop text pattern lps fuel i j = firstOcc pattern text := by
  intro fuel
  induction fuel with
  | zero => intro i j h; omega
  | succ f ih =>
    intro i j hfuel inv
    rw [kmpLoop]
    by_cases hi : i < text.length
    · rw [if_pos hi]
      by_cases hc : text.getD i 0 = pattern.getD j 0
      · rw [if_pos hc]
        have hext := kmp_match_extend inv.hj inv.hji hi inv.hmatch hc
        by_cases hdone : j + 1 = pattern.length
        · rw [if_pos hdone]
          symm
          apply firstOcc_eq_some_of
          · rw [occursAt_iff]
            have hji := inv.hji
            have h1 : i + 1 - pattern.length = i - j := by omega
            rw [h1, ← hdone, hext, hdone]
            exact List.take_length _
          · intro q hq
            have hji := inv.hji
            exact inv.hmin q (by omega)
        · rw [if_neg hdone]
          have hjm := inv.hj
          have hji := inv.hji
          have hin := inv.hin
          apply ih
          · omega
          · refine ⟨by omega, by omega, by omega, ?_,
              fun q hq => inv.hmin q (by omega)⟩
            have h1 : i + 1 - (j + 1) = i - j := by omega
            rw [h1]
            exact hext
      · rw [if_neg hc]
        by_cases hj0 : j ≠ 0
        · rw [if_pos hj0]
          have hj1 : 1 ≤ j := by omega
          have hfall : lps.getD (j - 1) 0 = maxBorder (pattern.take j) := by
            have := hlps (j - 1) (by have := inv.hj; omega)
            rwa [Nat.sub_add_cancel hj1] at this
          have htkj : pattern.take j ≠ [] :=
            take_ne_nil_of_pos (by omega) (by have := inv.hj; omega)
          have hmbl : maxBorder (pattern.take j) < j := by
            have := maxBorder_lt htkj
            rwa [take_length_of_le (by have := inv.hj; omega)] at this
          have hjm := inv.hj
          have hji := inv.hji
          have hin := inv.hin
          apply ih
          · rw [hfall]; omega
          · rw [hfall]
            set b := maxBorder (pattern.take j) with hb
            have hbord : IsBorder (pattern.take j) b :=
              maxBorder_isBorder htkj
            refine ⟨by omega, by omega, inv.hin, ?_, ?_⟩
            · -- the border keeps matching: shift the slice
              have hs := @slice_shift text i j b (by omega) inv.hji
              rw [inv.hmatch] at hs
              rw [← hs]
              have hbd := border_take_drop hbord
              rw [take_length_of_le (by omega)] at hbd
              rw [← hbd, List.take_take, Nat.min_eq_left (by omega)]
            · intro q hq
              rcases Nat.lt_trichotomy q (i - j) with h1 | h1 | h1
              · exact inv.hmin q h1
              · subst h1
                exact kmp_edge inv.hj inv.hji hc
              · exact kmp_gap (by omega) inv.hji inv.hin
                  inv.hmatch q h1 (by omega)
        · rw [if_neg hj0]
          push_neg at hj0
          subst hj0
          apply ih
          · omega
          · refine ⟨inv.hj, by omega, by omega, by simp, ?_⟩
            intro q hq
            rcases Nat.lt_or_ge q i with h1 | h1
            · exact inv.hmin q (by omega)
            · have hq' : q = i := by omega
              subst hq'
              have := kmp_edge inv.hj (by omega) hc
              simpa using this
    · rw [if_neg hi]
      have hi' : i = text.length := by have := inv.hin; omega
      symm
      apply firstOcc_eq_none_of
      intro q hocc
      have hple : pattern ≠ [] := by
        intro hp
        rw [hp] at inv
        have := inv.hj
        simp at this
      have hlen := occursAt_le_length hple hocc
      have := inv.hmin q
      by_cases hq : q < i - j
      · exact this hq hocc
      · have := inv.hj
        omega

theorem kmp_find_eq_firstOcc (text pattern : List Nat) :
    kmp_find text pattern = firstOcc pattern text := by
  unfold kmp_find
  by_cases hm : pattern.length = 0
  · rw [if_pos hm]
    rcases List.length_eq_zero.mp hm with rfl
    simp [firstOcc, firstFrom, occursAtB]
  · rw [if_neg hm]
    by_cases hgt : pattern.length > text.length
    · rw [if_pos hgt]
      symm
      apply firstOcc_eq_none_of
      intro q hocc
      have hple : pattern ≠ [] := by
        intro hp; rw [hp] at hm; simp at hm
      have := occursAt_le_length hple hocc
      omega
    · rw [if_neg hgt]
      have hple : pattern ≠ [] := by
        intro hp; rw [hp] at hm; simp at hm
      apply kmpLoop_spec
      · exact build_lps_spec pattern hple
      · omega
      · omega
      · exact ⟨by omega, Nat.zero_le _, Nat.zero_le _, by simp,
          fun q hq => absurd hq (by omega)⟩

theorem kmp_find_eq_naive (text pattern : List Nat) :
    kmp_find text pattern = naive_find_scalar text pattern := by
  rw [kmp_find_eq_firstOcc, naive_find_scalar_eq_firstOcc]

/-! ## `kmp_find_all` collects exactly the occurrence list -/

/-- All occurrences with start offset `< x`, in increasing order. -/
def occUpto (pattern text : List Nat) (x : Nat) : List Nat :=
  (List.range x).filter (occursAtB pattern text)

theorem occUpto_extend_one {pattern text : List Nat} {a : Nat}
    (h : occursAt pattern text a) :
    occUpto pattern text (a + 1) = occUpto pattern text a ++ [a] := by
  unfold occUpto
  rw [List.range_succ, List.filter_append]
  congr 1
  have hb : occursAtB pattern text a = true := h
  simp [hb]

theorem occUpto_congr {pattern text : List Nat} {a b : Nat} (hab : a ≤ b)
    (h : ∀ q, a ≤ q → q < b → ¬ occursAt pattern text q) :
    occUpto pattern text b = occUpto pattern text a := by
  unfold occUpto
  apply filter_range_congr hab
  intro j h1 h2
  have := h j h1 h2
  simpa [occursAt] using this

structure KmpAllInv (text pattern : List Nat) (i j : Nat)
    (acc : List Nat) : Prop where
  hj : j < pattern.length
  hji : j ≤ i
  hin : i ≤ text.length
  hmatch : (text.drop (i - j)).take j = pattern.take j
  hacc : acc = occUpto pattern text (i - j)

theorem kmpAllLoop_spec (text pattern lps : List Nat)
    (hlps : ∀ k, k < pattern.length →
      lps.getD k 0 = maxBorder (pattern.take (k + 1)))
    (hm : 0 < pattern.length) (hmn : pattern.length ≤ text.length) :
    ∀ (fuel i j : Nat) (acc : List Nat),
      2 * (text.length - i) + j < fuel →
      KmpAllInv text pattern i j acc →
      kmpAllLoop text pattern lps fuel i j acc =
        occUpto pattern text (text.length - pattern.length + 1) := by
  intro fuel
  induction fuel with
  | zero => intro i j acc h; omega
  | succ f ih =>
    intro i j acc hfuel inv
    have hjm := inv.hj
    have hji := inv.hji
    have hin := inv.hin
    rw [kmpAllLoop]
    by_cases hi : i < text.length
    · rw [if_pos hi]
      by_cases hc : text.getD i 0 = pattern.getD j 0
      · rw [if_pos hc]
        have hext := kmp_match_extend inv.hj inv.hji hi inv.hmatch hc
        by_cases hdone : j + 1 = pattern.length
        · rw [if_pos hdone]
          -- full match at i - j = i + 1 - m; fall back to lps[m-1]
          have hocc : occursAt pattern text (i - j) := by
            rw [occursAt_iff, ← hdone, hext, hdone]
            exact List.take_length _
          have htkm : pattern.take pattern.length ≠ [] := by
            rw [List.take_length]
            intro hp
            rw [hp] at hm
            simp at hm
          have hfall : lps.getD (pattern.length - 1) 0 =
              maxBorder (pattern.take pattern.length) := by
            have := hlps (pattern.length - 1) (by omega)
            rwa [Nat.sub_add_cancel hm] at this
          have hmbl : maxBorder (pattern.take pattern.length) <
              pattern.length := by
            have := maxBorder_lt htkm
            rwa [take_length_of_le (le_refl _)] at this
          have hmatchm : (text.drop (i + 1 - pattern.length)).take
              pattern.length = pattern.take pattern.length := by
            have h1 : i + 1 - pattern.length = i - j := by omega
            rw [h1, ← hdone]
            exact hext
          apply ih
          · rw [hfall]; omega
          · rw [hfall]
            set b := maxBorder (pattern.take pattern.length) with hb
            have hbord : IsBorder (pattern.take pattern.length) b :=
              maxBorder_isBorder htkm
            refine ⟨by omega, by omega, by omega, ?_, ?_⟩
            · -- matched border slice at the new alignment
              have hs := @slice_shift text (i + 1) pattern.length b
                (by omega) (by omega)
              rw [hmatchm] at hs
              rw [← hs]
              have hbd := border_take_drop hbord
              rw [take_length_of_le (le_refl _)] at hbd
              rw [← hbd, List.take_take, Nat.min_eq_left (by omega)]
            · -- accumulated occurrences up to the new boundary
              have h1 : i + 1 - pattern.length = i - j := by omega
              have hacc1 : acc ++ [i + 1 - pattern.length] =
                  occUpto pattern text (i - j + 1) := by
                rw [h1, inv.hacc, occUpto_extend_one hocc]
              rw [hacc1]
              symm
              have hgap := @kmp_gap text pattern (i + 1) pattern.length
                (le_refl _) (by omega) (by omega) hmatchm
              apply occUpto_congr (by omega)
              intro q hq1 hq2
              exact hgap q (by omega) (by omega)
        · rw [if_neg hdone]
          apply ih
          · omega
          · refine ⟨by omega, by omega, by omega, ?_, ?_⟩
            · have h1 : i + 1 - (j + 1) = i - j := by omega
              rw [h1]
              exact hext
            · have h1 : i + 1 - (j + 1) = i - j := by omega
              rw [h1]
              exact inv.hacc
      · rw [if_neg hc]
        by_cases hj0 : j ≠ 0
        · rw [if_pos hj0]
          have hj1 : 1 ≤ j := by omega
          have hfall : lps.getD (j - 1) 0 = maxBorder (pattern.take j) := by
            have := hlps (j - 1) (by omega)
            rwa [Nat.sub_add_cancel hj1] at this
          have htkj : pattern.take j ≠ [] :=
            take_ne_nil_of_pos (by omega) (by omega)
          have hmbl : maxBorder (pattern.take j) < j := by
            have := maxBorder_lt htkj
            rwa [take_length_of_le (by omega)] at this
          apply ih
          · rw [hfall]; omega
          · rw [hfall]
            set b := maxBorder (pattern.take j) with hb
            have hbord : IsBorder (pattern.take j) b :=
              maxBorder_isBorder htkj
            refine ⟨by omega, by omega, inv.hin, ?_, ?_⟩
            · have hs := @slice_shift text i j b (by omega) inv.hji
              rw [inv.hmatch] at hs
              rw [← hs]
              have hbd := border_take_drop hbord
              rw [take_length_of_le (by omega)] at hbd
              rw [← hbd, List.take_take, Nat.min_eq_left (by omega)]
            · rw [inv.hacc]
              symm
              apply occUpto_congr (by omega)
              intro q hq1 hq2
              rcases Nat.lt_or_ge q (i - j + 1) with h1 | h1
              · have hq' : q = i - j := by omega
                subst hq'
                exact kmp_edge inv.hj inv.hji hc
              · exact kmp_gap (by omega) inv.hji inv.hin inv.hmatch q
                  (by omega) (by omega)
        · rw [if_neg hj0]
          push_neg at hj0
          subst hj0
          apply ih
          · omega
          · refine ⟨inv.hj, by omega, by omega, by simp, ?_⟩
            rw [inv.hacc]
            symm
            apply occUpto_congr (by omega)
            intro q hq1 hq2
            have hq' : q = i := by omega
            subst hq'
            have := kmp_edge inv.hj (by omega) hc
            simpa using this
    · rw [if_neg hi]
      have hi' : i = text.length := by omega
      rw [inv.hacc]
      apply occUpto_congr (by omega)
      intro q hq1 hq2
      intro hocc
      have hple : pattern ≠ [] := by
        intro hp
        rw [hp] at hm
        simp at hm
      have := occursAt_le_length hple hocc
      omega

theorem kmp_find_all_eq_naive (text pattern : List Nat) :
    kmp_find_all text pattern = naive_find_all_scalar text pattern := by
  unfold kmp_find_all naive_find_all_scalar
  by_cases hm : pattern.length = 0
  · rw [if_pos hm, if_pos hm]
  · rw [if_neg hm, if_neg hm]
    by_cases hgt : pattern.length > text.length
    · rw [if_pos hgt, if_pos hgt]
    · rw [if_neg hgt, if_neg hgt]
      have hple : pattern ≠ [] := by
        intro hp; rw [hp] at hm; simp at hm
      have := kmpAllLoop_spec text pattern (build_lps pattern)
        (build_lps_spec pattern hple) (by omega) (by omega)
        (2 * text.length + 1) 0 0 [] (by omega)
        ⟨by omega, Nat.zero_le _, Nat.zero_le _, by simp, by
          simp [occUpto]⟩
      rw [this]
      rfl

/-! ## The Boyer–Moore kernel (`algos/src/bm.rs`) -/

/-- `build_bad_char_table`: last-occurrence index per byte, `-1` when the
byte does not occur. -/
def build_bad_char_table (pattern : List Nat) : List Int :=
  (List.range pattern.length).foldl
    (fun table i => table.set (pattern.getD i 0) (i : Int))
    (List.replicate 256 (-1))

/-- The inner `while j <= m && p[i-1] != p[j-1]` walk of the good-suffix
preprocessing.  Returns the stopping `j` and the updated `shift` array.
`j` strictly increases along the border chain, so fuel `m + 2` always
suffices. -/
def bmInner (pattern : List Nat) (i : Nat) (bpos : List Nat) :
    Nat → Nat → List Nat → (Nat × List Nat)
  | 0, j, shift => (j, shift)
  | fuel + 1, j, shift =>
    if j ≤ pattern.length ∧
        pattern.getD (i - 1) 0 ≠ pattern.getD (j - 1) 0 then
      let shift' := if shift.getD j 0 = 0 then shift.set j (j - i) else shift
      bmInner pattern i bpos fuel (bpos.getD j 0) shift'
    else (j, shift)

/-- The outer `while i > 0` loop of the good-suffix preprocessing. -/
def bmOuter (pattern : List Nat) :
    Nat → Nat → Nat → List Nat → List Nat → (List Nat × List Nat)
  | 0, _, _, shift, bpos => (shift, bpos)
  | fuel + 1, i, j, shift, bpos =>
    if 0 < i then
      match bmInner pattern i bpos (pattern.length + 2) j shift with
      | (j', shift') =>
        bmOuter pattern fuel (i - 1) (j' - 1) shift'
          (bpos.set (i - 1) (j' - 1))
    else (shift, bpos)

/-- Phase 2 of `build_good_suffix_table`: fill the still-zero entries
with the widest-border positions of the whole pattern. -/
def bmPhase2 (bpos : List Nat) (m : Nat) :
    Nat → List Nat → Nat → Nat → List Nat
  | 0, shift, _, _ => shift
  | fuel + 1, shift, i, j =>
    if i ≤ m then
      let shift' := if shift.getD i 0 = 0 then shift.set i j else shift
      let j' := if i = j then bpos.getD j 0 else j
      bmPhase2 bpos m fuel shift' (i + 1) j'
    else shift

def build_good_suffix_table (pattern : List Nat) : List Nat :=
  let m := pattern.length
  match bmOuter pattern (m + 1) m (m + 1) (List.replicate (m + 1) 0)
      ((List.replicate (m + 1) 0).set m (m + 1)) with
  | (shift1, bpos) =>
    bmPhase2 bpos m (m + 2) shift1 0 (bpos.getD 0 0)

/-- The right-to-left comparison at alignment `i`: `none` on a full
match, otherwise `some` of the mismatch index.  The argument counts down
from `m` as `j + 1`. -/
def bmCheck (text pattern : List Nat) (i : Nat) : Nat → Option Nat
  | 0 => none
  | jp + 1 =>
    if pattern.getD jp 0 = text.getD (i + jp) 0 then
      bmCheck text pattern i jp
    else some jp

/-- The `while i <= n - m` scan loop of `bm_find`. -/
def bmLoop (text pattern : List Nat) (bad_char : List Int)
    (good_suffix : List Nat) : Nat → Nat → Option Nat
  | 0, _ => none
  | fuel + 1, i =>
    if i ≤ text.length - pattern.length then
      match bmCheck text pattern i pattern.length with
      | none => some i
      | some mismatch_index =>
        let bad_byte := text.getD (i + mismatch_index) 0
        let last_occurrence := bad_char.getD bad_byte (-1)
        let bc_shift : Nat :=
          if 0 < (mismatch_index : Int) - last_occurrence then
            ((mismatch_index : Int) - last_occurrence).toNat
          else 1
        let gs_shift := good_suffix.getD (mismatch_index + 1) 0
        bmLoop text pattern bad_char good_suffix fuel
          (i + max bc_shift gs_shift)
    else none

def bm_find (text pattern : List Nat) : Option Nat :=
  if pattern.length = 0 then some 0
  else if pattern.length > text.length then none
  else
    bmLoop text pattern (build_bad_char_table pattern)
      (build_good_suffix_table pattern) (text.length + 1) 0

/-- The scan loop of `bm_find_all`: after a full match the alignment
advances by `good_suffix[0]`. -/
def bmAllLoop (text pattern : List Nat) (bad_char : List Int)
    (good_suffix : List Nat) : Nat → Nat → List Nat → List Nat
  | 0, _, acc => acc
  | fuel + 1, i, acc =>
    if i ≤ text.length - pattern.length then
      match bmCheck text pattern i pattern.length with
      | none =>
        bmAllLoop text pattern bad_char good_suffix fuel
          (i + good_suffix.getD 0 0) (acc ++ [i])
      | some mismatch_index =>
        let bad_byte := text.getD (i + mismatch_index) 0
        let last_occurrence := bad_char.getD bad_byte (-1)
        let bc_shift : Nat :=
          if 0 < (mismatch_index : Int) - last_occurrence then
            ((mismatch_index : Int) - last_occurrence).toNat
          else 1
        let gs_shift := good_suffix.getD (mismatch_index + 1) 0
        bmAllLoop text pattern bad_char good_suffix fuel
          (i + max bc_shift gs_shift) acc
    else acc

def bm_find_all (text pattern : List Nat) : List Nat :=
  if pattern.length = 0 then List.range (text.length + 1)
  else if pattern.length > text.length then []
  else
    bmAllLoop text pattern (build_bad_char_table pattern)
      (build_good_suffix_table pattern) (text.length + 1) 0 []

/-! ### Bad-character table -/

theorem getD_set_ne' {α : Type} {l : List α} {i k : Nat} {v d : α}
    (h : i ≠ k) : (l.set i v).getD k d = l.getD k d := by
  simp [List.getD_eq_getElem?_getD, List.getElem?_set_ne h]

theorem getD_set_self' {α : Type} {l : List α} {i : Nat} {v d : α}
    (h : i < l.length) : (l.set i v).getD i d = v := by
  simp [List.getD_eq_getElem?_getD, List.getElem?_set_self, h]

def bcFold (pattern : List Nat) (t : Nat) : List Int :=
  (List.range t).foldl
    (fun table i => table.set (pattern.getD i 0) (i : Int))
    (List.replicate 256 (-1))

theorem build_bad_char_table_eq_bcFold (pattern : List Nat) :
    build_bad_char_table pattern = bcFold pattern pattern.length := rfl

theorem bcFold_succ (pattern : List Nat) (t : Nat) :
    bcFold pattern (t + 1) =
      (bcFold pattern t).set (pattern.getD t 0) (t : Int) := by
  unfold bcFold
  rw [List.range_succ, List.foldl_append]
  rfl

theorem bcFold_length (pattern : List Nat) (t : Nat) :
    (bcFold pattern t).length = 256 := by
  induction t with
  | zero =>
    show (List.replicate 256 (-1 : Int)).length = 256
    simp
  | succ t ih => rw [bcFold_succ]; simp [ih]

theorem bcFold_no_later (pattern : List Nat) (hbytes : Bytes pattern) :
    ∀ t, t ≤ pattern.length → ∀ b, b < 256 → ∀ k : Nat,
      (bcFold pattern t).getD b (-1) < (k : Int) → k < t →
      pattern.getD k 0 ≠ b := by
  intro t
  induction t with
  | zero => intro _ b _ k _ hk; omega
  | succ t ih =>
    intro ht b hb k hlt hk
    rw [bcFold_succ] at hlt
    have hpt : pattern.getD t 0 < 256 := by
      have hmem : pattern.getD t 0 ∈ pattern := by
        have htl : t < pattern.length := by omega
        rw [List.getD_eq_getElem?_getD, List.getElem?_eq_getElem htl]
        exact List.getElem_mem _
      exact hbytes _ hmem
    by_cases hbeq : pattern.getD t 0 = b
    · rw [← hbeq] at hlt
      rw [getD_set_self' (by rw [bcFold_length]; omega)] at hlt
      -- table entry is t; k > t and k < t+1 is impossible
      omega
    · rw [getD_set_ne' hbeq] at hlt
      rcases Nat.lt_or_ge k t with hkt | hkt
      · exact ih (by omega) b hb k hlt hkt
      · have hk' : k = t := by omega
        subst hk'
        exact hbeq

theorem bad_char_no_later (pattern : List Nat) (hbytes : Bytes pattern)
    {b : Nat} (hb : b < 256) {k : Nat}
    (hlt : (build_bad_char_table pattern).getD b (-1) < ((k : Nat) : Int))
    (hk : k < pattern.length) : pattern.getD k 0 ≠ b := by
  rw [build_bad_char_table_eq_bcFold] at hlt
  exact bcFold_no_later pattern hbytes pattern.length (le_refl _) b hb k
    hlt hk

theorem bad_char_ge_neg_one (pattern : List Nat) (b : Nat) :
    -1 ≤ (build_bad_char_table pattern).getD b (-1) := by
  rw [build_bad_char_table_eq_bcFold]
  suffices h : ∀ t, -1 ≤ (bcFold pattern t).getD b (-1) from h _
  intro t
  induction t with
  | zero =>
    show -1 ≤ (List.replicate 256 (-1 : Int)).getD b (-1)
    rw [List.getD_eq_getElem?_getD, List.getElem?_replicate]
    rcases Nat.lt_or_ge b 256 with hb | hb
    · rw [if_pos hb]; simp
    · rw [if_neg (by omega)]; simp
  | succ t ih =>
    rw [bcFold_succ]
    by_cases hbeq : pattern.getD t 0 = b
    · rw [← hbeq]
      by_cases hlen : pattern.getD t 0 < (bcFold pattern t).length
      · rw [getD_set_self' hlen]; omega
      · rw [List.set_eq_of_length_le (by omega)]
        rw [hbeq]
        exact ih
    · rw [getD_set_ne' hbeq]
      exact ih

/-! ### The right-to-left window comparison -/

theorem bmCheck_none {text pattern : List Nat} {i : Nat} :
    ∀ jp1, bmCheck text pattern i jp1 = none ↔
      ∀ j, j < jp1 → pattern.getD j 0 = text.getD (i + j) 0 := by
  intro jp1
  induction jp1 with
  | zero => simp [bmCheck]
  | succ jp ih =>
    rw [bmCheck]
    by_cases hc : pattern.getD jp 0 = text.getD (i + jp) 0
    · rw [if_pos hc, ih]
      constructor
      · intro h j hj
        rcases Nat.lt_or_ge j jp with h1 | h1
        · exact h j h1
        · have : j = jp := by omega
          subst this; exact hc
      · intro h j hj
        exact h j (by omega)
    · rw [if_neg hc]
      constructor
      · intro h; cases h
      · intro h
        exact absurd (h jp (by omega)) hc

theorem bmCheck_some {text pattern : List Nat} {i : Nat} :
    ∀ jp1 j, bmCheck text pattern i jp1 = some j →
      j < jp1 ∧ pattern.getD j 0 ≠ text.getD (i + j) 0 ∧
        ∀ idx, j < idx → idx < jp1 →
          pattern.getD idx 0 = text.getD (i + idx) 0 := by
  intro jp1
  induction jp1 with
  | zero => intro j h; cases h
  | succ jp ih =>
    intro j h
    rw [bmCheck] at h
    by_cases hc : pattern.getD jp 0 = text.getD (i + jp) 0
    · rw [if_pos hc] at h
      obtain ⟨h1, h2, h3⟩ := ih j h
      refine ⟨by omega, h2, fun idx hidx1 hidx2 => ?_⟩
      rcases Nat.lt_or_ge idx jp with h4 | h4
      · exact h3 idx hidx1 h4
      · have : idx = jp := by omega
        subst this; exact hc
    · rw [if_neg hc] at h
      cases h
      exact ⟨by omega, hc, fun idx h1 h2 => by omega⟩

/-! ### Suffix borders

`SufBorder p i j` states that the suffix `p[j..]` is a (proper, possibly
empty) border of the suffix `p[i..]`: it is also a prefix of `p[i..]`.
`bposSpec p i` is the start of the widest such border (`m + 1` when
`i = m`), the semantics of the `border_pos` array. -/

def SufBorder (p : List Nat) (i j : Nat) : Prop :=
  i < j ∧ j ≤ p.length ∧ p.drop j <+: p.drop i

instance : ∀ p i j, Decidable (SufBorder p i j) := fun p i j => by
  unfold SufBorder
  infer_instance

def bposSpec (p : List Nat) (i : Nat) : Nat :=
  (firstFrom (fun j => decide (SufBorder p i j)) (p.length - i)
    (i + 1)).getD (p.length + 1)

theorem drop_eq_getD_cons {p : List Nat} {k : Nat} (h : k < p.length) :
    p.drop k = p.getD k 0 :: p.drop (k + 1) := by
  rw [List.drop_eq_getElem_cons h]
  simp [List.getD_eq_getElem?_getD, List.getElem?_eq_getElem h]

theorem sufBorder_trivial {p : List Nat} {i : Nat} (hi : i < p.length) :
    SufBorder p i p.length := by
  refine ⟨hi, le_refl _, ?_⟩
  simp

theorem sufBorder_trans {p : List Nat} {i j k : Nat}
    (h1 : SufBorder p i j) (h2 : SufBorder p j k) : SufBorder p i k :=
  ⟨by have := h1.1; have := h2.1; omega, h2.2.1, h2.2.2.trans h1.2.2⟩

theorem sufBorder_nest {p : List Nat} {i j1 j2 : Nat}
    (h1 : SufBorder p i j1) (h2 : SufBorder p i j2) (hj : j1 < j2) :
    SufBorder p j1 j2 := by
  refine ⟨hj, h2.2.1, ?_⟩
  exact List.prefix_of_prefix_length_le h2.2.2 h1.2.2
    (by simp [List.length_drop]; omega)

theorem bposSpec_at_m (p : List Nat) :
    bposSpec p p.length = p.length + 1 := by
  unfold bposSpec
  rw [Nat.sub_self]
  rfl

theorem bposSpec_spec {p : List Nat} {i : Nat} (hi : i < p.length) :
    SufBorder p i (bposSpec p i) ∧
      ∀ j, SufBorder p i j → bposSpec p i ≤ j := by
  have hcheck : decide (SufBorder p i p.length) = true :=
    decide_eq_true (sufBorder_trivial hi)
  obtain ⟨r, hr, hrle⟩ := @firstFrom_of_check
      (fun j => decide (SufBorder p i j)) (p.length - i) (i + 1)
      p.length (by omega) (by omega) hcheck
  have hb : bposSpec p i = r := by unfold bposSpec; rw [hr]; rfl
  obtain ⟨hr1, hr2, hr3, hr4⟩ := firstFrom_eq_some hr
  constructor
  · rw [hb]; exact of_decide_eq_true hr3
  · intro j hj
    rw [hb]
    by_contra hlt
    push_neg at hlt
    have hj1 : i + 1 ≤ j := by have := hj.1; omega
    have := hr4 j hj1 hlt
    rw [decide_eq_false_iff_not] at this
    exact this hj

theorem bposSpec_gt {p : List Nat} {i : Nat} (hi : i ≤ p.length) :
    i < bposSpec p i := by
  rcases Nat.lt_or_ge i p.length with h | h
  · have := (bposSpec_spec h).1.1
    omega
  · have : i = p.length := by omega
    subst this
    rw [bposSpec_at_m]
    omega

theorem bposSpec_le {p : List Nat} {i : Nat} :
    bposSpec p i ≤ p.length + 1 := by
  rcases Nat.lt_or_ge i p.length with h | h
  · have := (bposSpec_spec h).1.2.1
    omega
  · unfold bposSpec
    cases hf : firstFrom (fun j => decide (SufBorder p i j))
        (p.length - i) (i + 1) with
    | none => simp
    | some r =>
      obtain ⟨h1, h2, _, _⟩ := firstFrom_eq_some hf
      simp
      omega

/-- Left extension of a suffix border by one matching character. -/
theorem sufBorder_pred_iff {p : List Nat} {i j : Nat} (hi1 : 1 ≤ i)
    (hij : i < j) (hjm : j ≤ p.length) :
    SufBorder p (i - 1) (j - 1) ↔
      SufBorder p i j ∧ p.getD (i - 1) 0 = p.getD (j - 1) 0 := by
  have hi1m : i - 1 < p.length := by omega
  have hj1m : j - 1 < p.length := by omega
  have hd1 : p.drop (i - 1) = p.getD (i - 1) 0 :: p.drop i := by
    rw [drop_eq_getD_cons hi1m, Nat.sub_add_cancel hi1]
  have hd2 : p.drop (j - 1) = p.getD (j - 1) 0 :: p.drop j := by
    rw [drop_eq_getD_cons hj1m, Nat.sub_add_cancel (by omega)]
  constructor
  · rintro ⟨h1, h2, h3⟩
    rw [hd1, hd2, List.cons_prefix_cons] at h3
    exact ⟨⟨hij, hjm, h3.2⟩, h3.1.symm⟩
  · rintro ⟨⟨h1, h2, h3⟩, h4⟩
    refine ⟨by omega, by omega, ?_⟩
    rw [hd1, hd2, List.cons_prefix_cons]
    exact ⟨h4.symm, h3⟩

/-! ### The good-suffix shift: phase-1 specification

A *candidate* for column `k` is a row `i ≥ 1` such that `p[k..]` is a
border of `p[i..]` and the characters to the left differ; these are
exactly the alignments the strong good-suffix rule may shift to when the
mismatch happened just before the matched suffix `p[k..]`.  Phase 1
stores `k - istar` for the maximal candidate `istar`, and leaves `0` when no
candidate exists. -/

def GsCand (p : List Nat) (k i : Nat) : Prop :=
  1 ≤ i ∧ SufBorder p i k ∧ p.getD (i - 1) 0 ≠ p.getD (k - 1) 0

instance : ∀ p k i, Decidable (GsCand p k i) := fun p k i => by
  unfold GsCand
  infer_instance

def IsMaxCand (p : List Nat) (k i : Nat) : Prop :=
  GsCand p k i ∧ ∀ i', GsCand p k i' → i' ≤ i

def maxCand (p : List Nat) (k : Nat) : Nat :=
  Nat.findGreatest (fun i => GsCand p k i) k

theorem maxCand_isMax {p : List Nat} {k : Nat} (h : ∃ i, GsCand p k i) :
    IsMaxCand p k (maxCand p k) := by
  obtain ⟨i, hi⟩ := h
  have hik : i ≤ k := by have := hi.2.1.1; omega
  constructor
  · exact Nat.findGreatest_spec hik hi
  · intro i' hi'
    exact Nat.le_findGreatest (by have := hi'.2.1.1; omega) hi'

theorem isMaxCand_eq_maxCand {p : List Nat} {k i : Nat}
    (h : IsMaxCand p k i) : i = maxCand p k := by
  have hmax := maxCand_isMax ⟨i, h.1⟩
  have h1 := h.2 _ hmax.1
  have h2 := hmax.2 _ h.1
  omega

/-- The mid-inner shift-array invariant at row `i`, chain position `j`. -/
def SInv (p : List Nat) (shift : List Nat) (i j : Nat) : Prop :=
  ∀ k, 1 ≤ k → k ≤ p.length →
    (shift.getD k 0 = 0 ∧
      ∀ i', IsMaxCand p k i' → i' < i ∨ (i' = i ∧ j ≤ k)) ∨
    (∃ i', IsMaxCand p k i' ∧ shift.getD k 0 = k - i' ∧
      (i < i' ∨ (i' = i ∧ k < j)))

/-- The inner-walk invariant: `j` is on the border chain of `p[i..]`
(or past its end), and every chain element already passed mismatched. -/
def ChainInv (p : List Nat) (i j : Nat) : Prop :=
  (SufBorder p i j ∨ j = p.length + 1) ∧
    ∀ j', SufBorder p i j' → j' < j →
      p.getD (i - 1) 0 ≠ p.getD (j' - 1) 0

theorem bmInner_spec (p : List Nat) {i : Nat} (hi1 : 1 ≤ i)
    (him : i ≤ p.length) {bpos : List Nat}
    (hbpos : ∀ t, i ≤ t → t ≤ p.length → bpos.getD t 0 = bposSpec p t) :
    ∀ (fuel j : Nat) (shift : List Nat),
      p.length + 2 - j < fuel →
      ChainInv p i j → i < j →
      SInv p shift i j →
      shift.length = p.length + 1 →
      ChainInv p i (bmInner p i bpos fuel j shift).1 ∧
        ((bmInner p i bpos fuel j shift).1 = p.length + 1 ∨
          (SufBorder p i (bmInner p i bpos fuel j shift).1 ∧
            p.getD (i - 1) 0 =
              p.getD ((bmInner p i bpos fuel j shift).1 - 1) 0)) ∧
        SInv p (bmInner p i bpos fuel j shift).2 i
          (bmInner p i bpos fuel j shift).1 ∧
        (bmInner p i bpos fuel j shift).2.length = p.length + 1 ∧
        i < (bmInner p i bpos fuel j shift).1 ∧
        (bmInner p i bpos fuel j shift).2.getD 0 0 = shift.getD 0 0 := by
  intro fuel
  induction fuel with
  | zero => intro j shift h; omega
  | succ f ih =>
    intro j shift hfuel hchain hij hsinv hslen
    rw [bmInner]
    by_cases hcond : j ≤ p.length ∧ p.getD (i - 1) 0 ≠ p.getD (j - 1) 0
    · rw [if_pos hcond]
      obtain ⟨hjm, hmis⟩ := hcond
      have hSij : SufBorder p i j := by
        rcases hchain.1 with h | h
        · exact h
        · omega
      have hcand : GsCand p j i := ⟨hi1, hSij, hmis⟩
      have hjnew : bpos.getD j 0 = bposSpec p j := hbpos j (by omega) hjm
      have hnext_gt : j < bposSpec p j := bposSpec_gt (by omega)
      have hnext_le : bposSpec p j ≤ p.length + 1 := bposSpec_le
      have hchain' : ChainInv p i (bposSpec p j) := by
        constructor
        · rcases Nat.lt_or_ge j p.length with hjlt | hjge
          · exact Or.inl (sufBorder_trans hSij (bposSpec_spec hjlt).1)
          · right
            have hje : j = p.length := by omega
            subst hje
            exact bposSpec_at_m p
        · intro j' hj' hlt
          rcases Nat.lt_trichotomy j' j with h1 | h1 | h1
          · exact hchain.2 j' hj' h1
          · subst h1; exact hmis
          · exfalso
            have hj'm := hj'.2.1
            rcases Nat.lt_or_ge j p.length with hjlt | hjge
            · have hnest := sufBorder_nest hSij hj' h1
              have := (bposSpec_spec hjlt).2 _ hnest
              omega
            · omega
      -- common fact: for a column k > j that is a border start of p[i..],
      -- the next chain element is at most k
      have hskip : ∀ k, SufBorder p i k → j < k → bposSpec p j ≤ k := by
        intro k hSik hjk
        have hj'm := hSik.2.1
        have hjlt : j < p.length := by omega
        exact (bposSpec_spec hjlt).2 _ (sufBorder_nest hSij hSik hjk)
      rw [hjnew]
      by_cases hz : shift.getD j 0 = 0
      · rw [if_pos hz]
        have hslen' : (shift.set j (j - i)).length = p.length + 1 := by
          simp [hslen]
        have hsinv' : SInv p (shift.set j (j - i)) i (bposSpec p j) := by
          intro k hk1 hkm
          by_cases hkj : k = j
          · subst hkj
            right
            have hmax : IsMaxCand p k i := by
              refine ⟨hcand, fun i'' hi'' => ?_⟩
              by_contra hgt
              push_neg at hgt
              have hmaxex := maxCand_isMax ⟨i'', hi''⟩
              have hle := hmaxex.2 _ hi''
              rcases hsinv k hk1 hkm with ⟨_, hbound⟩ | ⟨i', hmi', hval, _⟩
              · rcases hbound _ hmaxex with h | ⟨h, _⟩ <;> omega
              · have hi'k : i' < k := hmi'.1.2.1.1
                rw [hval] at hz
                omega
            refine ⟨i, hmax, ?_, Or.inr ⟨rfl, by omega⟩⟩
            rw [getD_set_self' (by rw [hslen]; omega)]
          · rw [getD_set_ne' (fun h => hkj h.symm)]
            rcases hsinv k hk1 hkm with ⟨hzz, hbound⟩ | ⟨i', hmi', hval, hproc⟩
            · left
              refine ⟨hzz, fun istar histar => ?_⟩
              rcases hbound istar histar with h | ⟨heq, hjk⟩
              · exact Or.inl h
              · right
                refine ⟨heq, ?_⟩
                have hjk' : j < k := by omega
                have hSik : SufBorder p i k := heq ▸ histar.1.2.1
                exact hskip k hSik hjk'
            · right
              refine ⟨i', hmi', hval, ?_⟩
              rcases hproc with h | ⟨h1, h2⟩
              · exact Or.inl h
              · exact Or.inr ⟨h1, by omega⟩
        obtain ⟨h1, h2, h3, h4, h5, h6⟩ := ih (bposSpec p j)
          (shift.set j (j - i)) (by omega) hchain' (by omega) hsinv' hslen'
        exact ⟨h1, h2, h3, h4, h5,
          h6.trans (getD_set_ne' (by omega))⟩
      · rw [if_neg hz]
        have hsinv' : SInv p shift i (bposSpec p j) := by
          intro k hk1 hkm
          rcases hsinv k hk1 hkm with ⟨hzz, hbound⟩ | ⟨i', hmi', hval, hproc⟩
          · by_cases hkj : k = j
            · subst hkj
              exact absurd hzz hz
            · left
              refine ⟨hzz, fun istar histar => ?_⟩
              rcases hbound istar histar with h | ⟨heq, hjk⟩
              · exact Or.inl h
              · right
                refine ⟨heq, ?_⟩
                have hjk' : j < k := by omega
                have hSik : SufBorder p i k := heq ▸ histar.1.2.1
                exact hskip k hSik hjk'
          · right
            refine ⟨i', hmi', hval, ?_⟩
            rcases hproc with h | ⟨h1, h2⟩
            · exact Or.inl h
            · exact Or.inr ⟨h1, by omega⟩
        exact ih (bposSpec p j) shift (by omega) hchain' (by omega)
          hsinv' hslen
    · rw [if_neg hcond]
      refine ⟨hchain, ?_, hsinv, hslen, hij, rfl⟩
      rcases Nat.lt_or_ge p.length j with h | h
      · left
        rcases hchain.1 with hS | hE
        · have := hS.2.1; omega
        · exact hE
      · right
        have hS : SufBorder p i j := by
          rcases hchain.1 with hS | hE
          · exact hS
          · omega
        have hchar : p.getD (i - 1) 0 = p.getD (j - 1) 0 := by
          by_contra hne
          exact hcond ⟨h, hne⟩
        exact ⟨hS, hchar⟩

/-- At the start of each outer-loop row the walk position is exactly the
widest-border start of that row, and no smaller chain element exists. -/
theorem chainInv_start {p : List Nat} {i : Nat} (him : i ≤ p.length) :
    ChainInv p i (bposSpec p i) := by
  constructor
  · rcases Nat.lt_or_ge i p.length with h | h
    · exact Or.inl (bposSpec_spec h).1
    · right
      have : i = p.length := by omega
      subst this
      exact bposSpec_at_m p
  · intro j' hj' hlt
    exfalso
    rcases Nat.lt_or_ge i p.length with h | h
    · have := (bposSpec_spec h).2 j' hj'
      omega
    · have := hj'.1
      have := hj'.2.1
      omega

/-- When the inner walk of row `i` stops at `j`, then `j - 1` is the
widest-border start of row `i - 1`: the preprocessing entry
`bpos[i - 1] = j - 1` is correct. -/
theorem bposSpec_pred_of_stop {p : List Nat} {i j : Nat} (hi1 : 1 ≤ i)
    (him : i ≤ p.length) (hij : i < j) (hchain : ChainInv p i j)
    (hstop : j = p.length + 1 ∨
      (SufBorder p i j ∧ p.getD (i - 1) 0 = p.getD (j - 1) 0)) :
    bposSpec p (i - 1) = j - 1 := by
  have hm1 : 1 ≤ p.length := by omega
  have hi1m : i - 1 < p.length := by omega
  have hjle : j ≤ p.length + 1 := by
    rcases hstop with h | h
    · omega
    · have := h.1.2.1; omega
  have hSpred : SufBorder p (i - 1) (j - 1) := by
    rcases hstop with h | h
    · subst h
      refine ⟨by omega, by omega, ?_⟩
      simp
    · exact (sufBorder_pred_iff hi1 hij (h.1.2.1)).mpr ⟨h.1, h.2⟩
  obtain ⟨hB1, hB2⟩ := bposSpec_spec hi1m
  have hle : bposSpec p (i - 1) ≤ j - 1 := hB2 _ hSpred
  have hge : j - 1 ≤ bposSpec p (i - 1) := by
    by_contra hlt
    push_neg at hlt
    set B := bposSpec p (i - 1) with hBdef
    have hBi : i - 1 < B := hB1.1
    have hBm : B + 1 ≤ p.length := by omega
    have hB' : SufBorder p (i - 1) (B + 1 - 1) := by
      simpa using hB1
    have hiff := (sufBorder_pred_iff hi1 (by omega : i < B + 1) hBm).mp hB'
    exact hchain.2 (B + 1) hiff.1 (by omega) hiff.2
  omega

/-- Moving to the next outer row preserves the shift-array invariant. -/
theorem sinv_step_down {p : List Nat} {q js : Nat} {shift : List Nat}
    (hq1 : 1 ≤ q) (hqm : q ≤ p.length) (hchain : ChainInv p q js)
    (hqj : q < js)
    (hstop : js = p.length + 1 ∨
      (SufBorder p q js ∧ p.getD (q - 1) 0 = p.getD (js - 1) 0))
    (hsinv : SInv p shift q js) :
    SInv p shift (q - 1) (js - 1) := by
  intro k hk1 hkm
  have hjle : js ≤ p.length + 1 := by
    rcases hstop with h | h
    · omega
    · have := h.1.2.1; omega
  rcases hsinv k hk1 hkm with ⟨hz, hbound⟩ | ⟨i', hmi', hval, hproc⟩
  · left
    refine ⟨hz, fun i' hi' => ?_⟩
    have hi'1 : 1 ≤ i' := hi'.1.1
    rcases hbound i' hi' with h | ⟨heq, hjk⟩
    · rcases Nat.lt_or_ge i' (q - 1) with h1 | h1
      · exact Or.inl h1
      · have heq' : i' = q - 1 := by omega
        right
        refine ⟨heq', ?_⟩
        by_contra hklt
        push_neg at hklt
        have hSk : SufBorder p (q - 1) k := heq' ▸ hi'.1.2.1
        have hqk : q ≤ k := by have := hSk.1; omega
        have hk1m : k + 1 ≤ p.length := by omega
        have hSk' : SufBorder p (q - 1) (k + 1 - 1) := by simpa using hSk
        have hiff := (sufBorder_pred_iff hq1 (by omega) hk1m).mp hSk'
        exact hchain.2 (k + 1) hiff.1 (by omega) hiff.2
    · exfalso
      rcases hstop with hE | ⟨hSj, hceq⟩
      · omega
      · rcases Nat.lt_or_ge js k with hgt | hge
        · have hSqk : SufBorder p q k := heq ▸ hi'.1.2.1
          have hblock : GsCand p k js := by
            refine ⟨by omega, sufBorder_nest hSj hSqk hgt, ?_⟩
            have hne : p.getD (q - 1) 0 ≠ p.getD (k - 1) 0 :=
              heq ▸ hi'.1.2.2
            rw [← hceq]
            exact hne
          have := hi'.2 js hblock
          omega
        · have hkj : k = js := by omega
          have hne : p.getD (q - 1) 0 ≠ p.getD (k - 1) 0 :=
            heq ▸ hi'.1.2.2
          rw [hkj] at hne
          exact hne hceq
  · right
    refine ⟨i', hmi', hval, Or.inl ?_⟩
    rcases hproc with h | ⟨h1, h2⟩
    · omega
    · omega

/-- Full correctness of the outer preprocessing loop: it fills `bpos`
with the widest-border starts and leaves the shift array in the
phase-1 state `SInv p · 0 _`. -/
theorem bmOuter_spec (p : List Nat) :
    ∀ (fuel i j : Nat) (shift bpos : List Nat),
      i < fuel → i ≤ p.length → j = bposSpec p i →
      shift.length = p.length + 1 → bpos.length = p.length + 1 →
      (∀ t, i ≤ t → t ≤ p.length → bpos.getD t 0 = bposSpec p t) →
      SInv p shift i j → shift.getD 0 0 = 0 →
      (bmOuter p fuel i j shift bpos).1.length = p.length + 1 ∧
        (∀ t, t ≤ p.length →
          (bmOuter p fuel i j shift bpos).2.getD t 0 = bposSpec p t) ∧
        SInv p (bmOuter p fuel i j shift bpos).1 0 (bposSpec p 0) ∧
        (bmOuter p fuel i j shift bpos).1.getD 0 0 = 0 := by
  intro fuel
  induction fuel with
  | zero => intro i j shift bpos h; omega
  | succ f ih =>
    intro i j shift bpos hfuel him hj hslen hblen hbpos hsinv hs0
    rw [bmOuter]
    by_cases hi0 : 0 < i
    · rw [if_pos hi0]
      have hfine : p.length + 2 - j < p.length + 2 := by
        have := bposSpec_gt (i := i) him
        omega
      have H := bmInner_spec p hi0 him hbpos (p.length + 2) j shift hfine
        (hj ▸ chainInv_start him) (hj ▸ bposSpec_gt him) hsinv hslen
      rcases hbm : bmInner p i bpos (p.length + 2) j shift with ⟨js, shift'⟩
      rw [hbm] at H
      obtain ⟨Hchain, Hstop, Hsinv, Hslen, Hij, H0⟩ := H
      have hbspec : bposSpec p (i - 1) = js - 1 :=
        bposSpec_pred_of_stop hi0 him Hij Hchain Hstop
      have hbpos' : ∀ t, i - 1 ≤ t → t ≤ p.length →
          (bpos.set (i - 1) (js - 1)).getD t 0 = bposSpec p t := by
        intro t ht1 ht2
        by_cases hti : t = i - 1
        · subst hti
          rw [getD_set_self' (by omega)]
          exact hbspec.symm
        · rw [getD_set_ne' (fun h => hti h.symm)]
          exact hbpos t (by omega) ht2
      have hsinv' : SInv p shift' (i - 1) (js - 1) :=
        sinv_step_down hi0 him Hchain Hij Hstop Hsinv
      have := ih (i - 1) (js - 1) shift' (bpos.set (i - 1) (js - 1))
        (by omega) (by omega) hbspec.symm Hslen (by simp [hblen])
        hbpos' hsinv' (H0.trans hs0)
      exact this
    · rw [if_neg hi0]
      have hie : i = 0 := by omega
      subst hie
      exact ⟨hslen, fun t ht => hbpos t (Nat.zero_le _) ht,
        hj ▸ hsinv, hs0⟩

/-! ### Phase 2: filling with borders of the whole pattern -/

/-- The least border start `s ≥ i` of the whole pattern (`p.length + 1`
when none exists, which happens only for `i = p.length + 1`). -/
def minBS (p : List Nat) (i : Nat) : Nat :=
  (firstFrom (fun s => decide (SufBorder p 0 s)) (p.length + 1 - i)
    i).getD (p.length + 1)

theorem minBS_le {p : List Nat} {i : Nat} : minBS p i ≤ p.length + 1 := by
  unfold minBS
  cases hf : firstFrom (fun s => decide (SufBorder p 0 s))
      (p.length + 1 - i) i with
  | none => simp
  | some r =>
    obtain ⟨h1, h2, _, _⟩ := firstFrom_eq_some hf
    simp
    omega

theorem minBS_ge {p : List Nat} {i : Nat} (hi : i ≤ p.length + 1) :
    i ≤ minBS p i := by
  unfold minBS
  cases hf : firstFrom (fun s => decide (SufBorder p 0 s))
      (p.length + 1 - i) i with
  | none => simpa using hi
  | some r =>
    obtain ⟨h1, _, _, _⟩ := firstFrom_eq_some hf
    simpa using h1

theorem minBS_border {p : List Nat} {i : Nat}
    (h : minBS p i ≤ p.length) : SufBorder p 0 (minBS p i) := by
  cases hf : firstFrom (fun s => decide (SufBorder p 0 s))
      (p.length + 1 - i) i with
  | none =>
    exfalso
    have he : minBS p i = p.length + 1 := by unfold minBS; rw [hf]; rfl
    omega
  | some r =>
    have he : minBS p i = r := by unfold minBS; rw [hf]; rfl
    obtain ⟨_, _, h3, _⟩ := firstFrom_eq_some hf
    rw [he]
    exact of_decide_eq_true h3

theorem minBS_min {p : List Nat} {i s : Nat} (his : i ≤ s)
    (hb : SufBorder p 0 s) : minBS p i ≤ s := by
  have hsm : s ≤ p.length := hb.2.1
  obtain ⟨r, hr, hri⟩ := @firstFrom_of_check
      (fun s => decide (SufBorder p 0 s)) (p.length + 1 - i) i s
      his (by omega) (decide_eq_true hb)
  unfold minBS
  rw [hr]
  simpa using hri

theorem minBS_pos {p : List Nat} {i : Nat} : 1 ≤ minBS p i := by
  by_contra h
  push_neg at h
  have h0 : minBS p i = 0 := by omega
  have := minBS_border (p := p) (i := i) (by omega)
  rw [h0] at this
  exact absurd this.1 (by omega)

theorem minBS_top (p : List Nat) : minBS p (p.length + 1) = p.length + 1 := by
  unfold minBS
  rw [Nat.sub_self]
  rfl

theorem minBS_succ_of_not {p : List Nat} {i : Nat} (hi : i ≤ p.length)
    (h : ¬ SufBorder p 0 i) : minBS p (i + 1) = minBS p i := by
  have hle : minBS p (i + 1) ≤ p.length + 1 := minBS_le
  have hle' : minBS p i ≤ p.length + 1 := minBS_le
  have h1 : minBS p (i + 1) ≤ minBS p i := by
    rcases Nat.lt_or_ge (minBS p i) (p.length + 1) with hlt | hge
    · have hb := minBS_border (p := p) (i := i) (by omega)
      have hge' : i ≤ minBS p i := minBS_ge (by omega)
      have hne : minBS p i ≠ i := fun he => h (by rw [← he]; exact hb)
      exact minBS_min (by omega) hb
    · omega
  have h2 : minBS p i ≤ minBS p (i + 1) := by
    rcases Nat.lt_or_ge (minBS p (i + 1)) (p.length + 1) with hlt | hge
    · have hb := minBS_border (p := p) (i := i + 1) (by omega)
      have hge' : i + 1 ≤ minBS p (i + 1) := minBS_ge (by omega)
      exact minBS_min (by omega) hb
    · omega
  omega

theorem minBS_succ_of_border {p : List Nat} {i : Nat}
    (h : SufBorder p 0 i) : minBS p (i + 1) = bposSpec p i := by
  have him : i ≤ p.length := h.2.1
  rcases Nat.lt_or_ge i p.length with hlt | hge
  · obtain ⟨hB1, hB2⟩ := bposSpec_spec hlt
    have h1 : minBS p (i + 1) ≤ bposSpec p i := by
      refine minBS_min (by have := hB1.1; omega) ?_
      exact sufBorder_trans h hB1
    have h2 : bposSpec p i ≤ minBS p (i + 1) := by
      rcases Nat.lt_or_ge (minBS p (i + 1)) (p.length + 1) with hlt2 | hge2
      · have hb := minBS_border (p := p) (i := i + 1) (by omega)
        have hge' : i + 1 ≤ minBS p (i + 1) := minBS_ge (by omega)
        exact hB2 _ (sufBorder_nest h hb (by omega))
      · have := bposSpec_le (p := p) (i := i)
        omega
    omega
  · have hie : i = p.length := by omega
    subst hie
    rw [minBS_top, bposSpec_at_m]

theorem minBS_zero {p : List Nat} (hm : 1 ≤ p.length) :
    minBS p 0 = bposSpec p 0 := by
  have hb0 : SufBorder p 0 p.length := sufBorder_trivial (by omega)
  obtain ⟨hB1, hB2⟩ := bposSpec_spec (show 0 < p.length by omega)
  have h1 : minBS p 0 ≤ bposSpec p 0 := minBS_min (Nat.zero_le _) hB1
  have h2 : bposSpec p 0 ≤ minBS p 0 := by
    have hle : minBS p 0 ≤ p.length := minBS_min (Nat.zero_le _) hb0
    exact hB2 _ (minBS_border hle)
  omega

/-- Phase-2 loop correctness: zero entries of the phase-1 array are
replaced by the least whole-pattern border start at or after the
column. -/
theorem bmPhase2_spec (p : List Nat) {bpos : List Nat}
    (hbpos : ∀ t, t ≤ p.length → bpos.getD t 0 = bposSpec p t)
    (shift1 : List Nat) :
    ∀ (fuel i j : Nat) (shift : List Nat),
      p.length + 1 - i < fuel → i ≤ p.length + 1 → j = minBS p i →
      shift.length = p.length + 1 →
      (∀ k, i ≤ k → k ≤ p.length → shift.getD k 0 = shift1.getD k 0) →
      (∀ k, k < i → shift.getD k 0 =
        (if shift1.getD k 0 = 0 then minBS p k else shift1.getD k 0)) →
      (bmPhase2 bpos p.length fuel shift i j).length = p.length + 1 ∧
        ∀ k, k ≤ p.length →
          (bmPhase2 bpos p.length fuel shift i j).getD k 0 =
            (if shift1.getD k 0 = 0 then minBS p k else shift1.getD k 0) := by
  intro fuel
  induction fuel with
  | zero => intro i j shift h; omega
  | succ f ih =>
    intro i j shift hfuel hi hj hslen hup hdone
    rw [bmPhase2]
    by_cases him : i ≤ p.length
    · rw [if_pos him]
      have hjnew : (if i = j then bpos.getD j 0 else j) = minBS p (i + 1) := by
        by_cases hij : i = j
        · rw [if_pos hij]
          have hmi : minBS p i = i := by rw [← hj, ← hij]
          have hbord : SufBorder p 0 i := by
            have hb := minBS_border (p := p) (i := i) (by rw [hmi]; exact him)
            rwa [hmi] at hb
          rw [← hij, hbpos i him, minBS_succ_of_border hbord]
        · rw [if_neg hij]
          have hnb : ¬ SufBorder p 0 i := by
            intro hb
            apply hij
            have h1 : minBS p i ≤ i := minBS_min (le_refl _) hb
            have h2 : i ≤ minBS p i := minBS_ge (by omega)
            omega
          rw [hj, minBS_succ_of_not him hnb]
      by_cases hz : shift.getD i 0 = 0
      · rw [if_pos hz]
        refine ih (i + 1) _ (shift.set i j) (by omega) (by omega)
          hjnew (by simp [hslen]) ?_ ?_
        · intro k hk1 hk2
          rw [getD_set_ne' (by omega)]
          exact hup k (by omega) hk2
        · intro k hk
          by_cases hki : k = i
          · subst hki
            rw [getD_set_self' (by omega)]
            have h1 : shift1.getD k 0 = 0 := (hup k (le_refl _) him) ▸ hz
            rw [if_pos h1, hj]
          · rw [getD_set_ne' (fun h => hki h.symm)]
            exact hdone k (by omega)
      · rw [if_neg hz]
        refine ih (i + 1) _ shift (by omega) (by omega) hjnew hslen
          ?_ ?_
        · intro k hk1 hk2
          exact hup k (by omega) hk2
        · intro k hk
          by_cases hki : k = i
          · subst hki
            have h1 : shift1.getD k 0 ≠ 0 := by
              intro h0
              exact hz ((hup k (le_refl _) him).trans h0)
            rw [if_neg h1]
            exact hup k (le_refl _) him
          · exact hdone k (by omega)
    · rw [if_neg him]
      exact ⟨hslen, fun k hk => hdone k (by omega)⟩

/-! ### The good-suffix table: final characterization -/

theorem getD_replicate_zero (n t : Nat) :
    (List.replicate n (0 : Nat)).getD t 0 = 0 := by
  rw [List.getD_eq_getElem?_getD, List.getElem?_replicate]
  split <;> rfl

theorem build_good_suffix_spec (p : List Nat) (hm : 1 ≤ p.length) :
    (build_good_suffix_table p).length = p.length + 1 ∧
      ∀ k, k ≤ p.length →
        ((∃ i, GsCand p k i) →
          (build_good_suffix_table p).getD k 0 = k - maxCand p k) ∧
        ((¬ ∃ i, GsCand p k i) →
          (build_good_suffix_table p).getD k 0 = minBS p k) := by
  have hbpos0 : ∀ t, p.length ≤ t → t ≤ p.length →
      ((List.replicate (p.length + 1) 0).set p.length
        (p.length + 1)).getD t 0 = bposSpec p t := by
    intro t ht1 ht2
    have hte : t = p.length := by omega
    subst hte
    rw [getD_set_self' (by simp), bposSpec_at_m]
  have hsinv0 : SInv p (List.replicate (p.length + 1) 0) p.length
      (p.length + 1) := by
    intro k hk1 hkm
    left
    refine ⟨getD_replicate_zero _ _, fun i' hi' => ?_⟩
    left
    have h1 := hi'.1.2.1.1
    omega
  have Hout := bmOuter_spec p (p.length + 1) p.length (p.length + 1)
    (List.replicate (p.length + 1) 0)
    ((List.replicate (p.length + 1) 0).set p.length (p.length + 1))
    (by omega) (le_refl _) (bposSpec_at_m p).symm (by simp) (by simp)
    hbpos0 hsinv0 (getD_replicate_zero _ _)
  rcases hout : bmOuter p (p.length + 1) p.length (p.length + 1)
      (List.replicate (p.length + 1) 0)
      ((List.replicate (p.length + 1) 0).set p.length (p.length + 1))
    with ⟨shift1, bpos⟩
  rw [hout] at Hout
  simp only [] at Hout
  obtain ⟨Hlen, Hbpos, HsinvZ, H0⟩ := Hout
  have hbuild : build_good_suffix_table p =
      bmPhase2 bpos p.length (p.length + 2) shift1 0 (bpos.getD 0 0) := by
    show (match bmOuter p (p.length + 1) p.length (p.length + 1)
        (List.replicate (p.length + 1) 0)
        ((List.replicate (p.length + 1) 0).set p.length (p.length + 1)) with
      | (shift1, bpos) =>
        bmPhase2 bpos p.length (p.length + 2) shift1 0 (bpos.getD 0 0)) =
      bmPhase2 bpos p.length (p.length + 2) shift1 0 (bpos.getD 0 0)
    rw [hout]
  have hj0 : bpos.getD 0 0 = minBS p 0 := by
    rw [Hbpos 0 (Nat.zero_le _), minBS_zero hm]
  have Hphase := bmPhase2_spec p Hbpos shift1 (p.length + 2) 0
    (bpos.getD 0 0) shift1 (by omega) (by omega) hj0 Hlen
    (fun k _ _ => rfl) (fun k hk => by omega)
  rw [hbuild]
  refine ⟨Hphase.1, fun k hk => ⟨?_, ?_⟩⟩
  · intro hex
    obtain ⟨i, hi⟩ := hex
    have hk1 : 1 ≤ k := by have := hi.2.1.1; omega
    rcases HsinvZ k hk1 hk with ⟨hz, hbound⟩ | ⟨i', hmi', hval, _⟩
    · exfalso
      have hmx := maxCand_isMax ⟨i, hi⟩
      have h1 := hmx.1.1
      rcases hbound _ hmx with h | ⟨h, _⟩ <;> omega
    · have hlt := hmi'.1.2.1.1
      rw [Hphase.2 k hk, if_neg (by rw [hval]; omega), hval,
        isMaxCand_eq_maxCand hmi']
  · intro hno
    have hz : shift1.getD k 0 = 0 := by
      rcases Nat.eq_zero_or_pos k with hk0 | hk1
      · subst hk0; exact H0
      · rcases HsinvZ k hk1 hk with ⟨hz, _⟩ | ⟨i', hmi', _, _⟩
        · exact hz
        · exact absurd ⟨i', hmi'.1⟩ hno
    rw [Hphase.2 k hk, if_pos hz]

theorem gs_pos {p : List Nat} (hm : 1 ≤ p.length) {k : Nat}
    (hk : k ≤ p.length) : 1 ≤ (build_good_suffix_table p).getD k 0 := by
  obtain ⟨-, hspec⟩ := build_good_suffix_spec p hm
  by_cases hc : ∃ i, GsCand p k i
  · rw [(hspec k hk).1 hc]
    have hmx := maxCand_isMax hc
    have h1 := hmx.1.2.1.1
    have h2 := hmx.1.1
    omega
  · rw [(hspec k hk).2 hc]
    exact minBS_pos

theorem gs_bounded {p : List Nat} (hm : 1 ≤ p.length) {k : Nat}
    (hk : k ≤ p.length) :
    (build_good_suffix_table p).getD k 0 ≤ p.length + 1 := by
  obtain ⟨-, hspec⟩ := build_good_suffix_spec p hm
  by_cases hc : ∃ i, GsCand p k i
  · rw [(hspec k hk).1 hc]; omega
  · rw [(hspec k hk).2 hc]; exact minBS_le

theorem gs_safe_cand {p : List Nat} (hm : 1 ≤ p.length) {k i : Nat}
    (hk : k ≤ p.length) (hc : GsCand p k i) :
    (build_good_suffix_table p).getD k 0 ≤ k - i := by
  obtain ⟨-, hspec⟩ := build_good_suffix_spec p hm
  have hex : ∃ i, GsCand p k i := ⟨i, hc⟩
  rw [(hspec k hk).1 hex]
  have := (maxCand_isMax hex).2 i hc
  omega

theorem gs_safe_border {p : List Nat} (hm : 1 ≤ p.length) {k s : Nat}
    (hk : k ≤ p.length) (hks : k ≤ s) (hb : SufBorder p 0 s) :
    (build_good_suffix_table p).getD k 0 ≤ s := by
  obtain ⟨-, hspec⟩ := build_good_suffix_spec p hm
  by_cases hc : ∃ i, GsCand p k i
  · rw [(hspec k hk).1 hc]
    have hmx := maxCand_isMax hc
    have h1 := hmx.1.1
    have h2 := hmx.1.2.1.1
    omega
  · rw [(hspec k hk).2 hc]
    exact minBS_min hks hb

theorem gs_at_zero {p : List Nat} (hm : 1 ≤ p.length) :
    (build_good_suffix_table p).getD 0 0 = minBS p 0 := by
  obtain ⟨-, hspec⟩ := build_good_suffix_spec p hm
  refine (hspec 0 (Nat.zero_le _)).2 ?_
  rintro ⟨i, hi⟩
  have := hi.2.1.1
  omega

/-! ### The Boyer–Moore scan loops -/

theorem getD_lt_256 {l : List Nat} (hb : Bytes l) {i : Nat}
    (hi : i < l.length) : l.getD i 0 < 256 := by
  rw [List.getD_eq_getElem?_getD, List.getElem?_eq_getElem hi]
  exact hb _ (List.getElem_mem hi)

theorem prefix_of_getD {l1 l2 : List Nat} (hlen : l1.length ≤ l2.length)
    (h : ∀ u, u < l1.length → l1.getD u 0 = l2.getD u 0) : l1 <+: l2 := by
  rw [List.prefix_iff_eq_take]
  apply List.ext_getElem
  · rw [List.length_take]; omega
  · intro n h1 h2
    have e1 : l1.getD n 0 = l1[n] := by
      rw [List.getD_eq_getElem?_getD, List.getElem?_eq_getElem h1]
      rfl
    have e2 : (l2.take l1.length).getD n 0 = (l2.take l1.length)[n] := by
      rw [List.getD_eq_getElem?_getD, List.getElem?_eq_getElem h2]
      rfl
    rw [← e1, ← e2, getD_take h1]
    exact h n h1

theorem occursAt_of_getD {pattern text : List Nat} {q : Nat}
    (hle : q + pattern.length ≤ text.length)
    (h : ∀ j, j < pattern.length →
      pattern.getD j 0 = text.getD (q + j) 0) :
    occursAt pattern text q := by
  rw [occursAt_iff]
  apply List.ext_getElem
  · rw [List.length_take, List.length_drop]; omega
  · intro n h1 h2
    have e1 : ((text.drop q).take pattern.length).getD n 0 =
        ((text.drop q).take pattern.length)[n] := by
      rw [List.getD_eq_getElem?_getD, List.getElem?_eq_getElem h1]
      rfl
    have e2 : pattern.getD n 0 = pattern[n] := by
      rw [List.getD_eq_getElem?_getD, List.getElem?_eq_getElem h2]
      rfl
    rw [← e1, ← e2, getD_take h2, getD_drop]
    exact (h n h2).symm

/-- No occurrence is skipped by the combined bad-character/good-suffix
shift taken after a mismatch at index `jm` of the window at `a`. -/
theorem bm_skip_safe {text p : List Nat} (htb : Bytes text)
    (hpb : Bytes p) (hm : 1 ≤ p.length) (hmn : p.length ≤ text.length)
    {a jm : Nat} (ha : a + p.length ≤ text.length)
    (hchk : bmCheck text p a p.length = some jm) {s : Nat}
    (hs1 : 1 ≤ s)
    (hsm : s < max
      (if 0 < (jm : Int) -
          (build_bad_char_table p).getD (text.getD (a + jm) 0) (-1) then
        ((jm : Int) -
          (build_bad_char_table p).getD (text.getD (a + jm) 0) (-1)).toNat
      else 1)
      ((build_good_suffix_table p).getD (jm + 1) 0)) :
    ¬ occursAt p text (a + s) := by
  intro hocc
  obtain ⟨hjm_lt, hmis, hmatch⟩ := bmCheck_some p.length jm hchk
  rcases lt_max_iff.mp hsm with hbc | hgs
  · -- bad-character shift was safe
    by_cases hpos : 0 < (jm : Int) -
        (build_bad_char_table p).getD (text.getD (a + jm) 0) (-1)
    · rw [if_pos hpos] at hbc
      have hlo := bad_char_ge_neg_one p (text.getD (a + jm) 0)
      have hsjm : s ≤ jm := by omega
      have hidx : jm - s < p.length := by omega
      have hocc_char : p.getD (jm - s) 0 = text.getD (a + jm) 0 := by
        have h2 := occursAt_getD hocc (show jm - s < p.length by omega)
        rw [h2]
        congr 1
        omega
      have hbblt : text.getD (a + jm) 0 < 256 :=
        getD_lt_256 htb (by omega)
      have hlater : (build_bad_char_table p).getD
          (text.getD (a + jm) 0) (-1) < ((jm - s : Nat) : Int) := by
        omega
      exact bad_char_no_later p hpb hbblt hlater hidx hocc_char
    · rw [if_neg hpos] at hbc
      omega
  · -- good-suffix shift was safe
    have hk : jm + 1 ≤ p.length := hjm_lt
    have hgs_le : (build_good_suffix_table p).getD (jm + 1) 0 ≤
        p.length + 1 := gs_bounded hm hk
    have hsm' : s ≤ p.length := by omega
    rcases Nat.lt_or_ge s (jm + 1) with hlt | hge
    · -- the strong-rule candidate `jm + 1 - s` exists
      have hcand : GsCand p (jm + 1) (jm + 1 - s) := by
        refine ⟨by omega, ⟨by omega, hk, ?_⟩, ?_⟩
        · apply prefix_of_getD
          · simp [List.length_drop]
            omega
          · intro u hu
            rw [List.length_drop] at hu
            rw [getD_drop, getD_drop]
            have h1 : p.getD (jm + 1 + u) 0 =
                text.getD (a + (jm + 1 + u)) 0 :=
              hmatch _ (by omega) (by omega)
            have h2 : p.getD (jm + 1 - s + u) 0 =
                text.getD (a + s + (jm + 1 - s + u)) 0 :=
              occursAt_getD hocc (by omega)
            rw [h1, h2]
            congr 1
            omega
        · intro hceq
          apply hmis
          have hidx1 : jm + 1 - s - 1 = jm - s := by omega
          have hidx2 : jm + 1 - 1 = jm := by omega
          rw [hidx1, hidx2] at hceq
          have h2 : p.getD (jm - s) 0 =
              text.getD (a + s + (jm - s)) 0 :=
            occursAt_getD hocc (by omega)
          rw [← hceq, h2]
          congr 1
          omega
      have := gs_safe_cand hm hk hcand
      omega
    · -- the occurrence induces a border of the whole pattern
      have hbord : SufBorder p 0 s := by
        refine ⟨by omega, hsm', ?_⟩
        apply prefix_of_getD
        · simp [List.length_drop]
        · intro u hu
          rw [List.length_drop] at hu
          rw [getD_drop, getD_drop]
          have h1 : p.getD (s + u) 0 = text.getD (a + (s + u)) 0 :=
            hmatch _ (by omega) (by omega)
          have h2 : p.getD (0 + u) 0 = text.getD (a + s + u) 0 := by
            rw [Nat.zero_add]
            exact occursAt_getD hocc (by omega)
          rw [h1, h2]
          congr 1
          omega
      have := gs_safe_border hm hk hge hbord
      omega

/-- After a full match at `a`, the `good_suffix[0]` advance of
`bm_find_all` skips no occurrence. -/
theorem bm_match_skip_safe {text p : List Nat} (hm : 1 ≤ p.length)
    {a : Nat} (hocc : occursAt p text a) {s : Nat} (hs1 : 1 ≤ s)
    (hsm : s < (build_good_suffix_table p).getD 0 0) :
    ¬ occursAt p text (a + s) := by
  intro hocc2
  rw [gs_at_zero hm] at hsm
  have hle : minBS p 0 ≤ p.length + 1 := minBS_le
  have hsm' : s ≤ p.length := by omega
  have hbord : SufBorder p 0 s := by
    refine ⟨by omega, hsm', ?_⟩
    apply prefix_of_getD
    · simp [List.length_drop]
    · intro u hu
      rw [List.length_drop] at hu
      rw [getD_drop, getD_drop]
      have h1 : p.getD (s + u) 0 = text.getD (a + (s + u)) 0 :=
        occursAt_getD hocc (by omega)
      have h2 : p.getD (0 + u) 0 = text.getD (a + s + u) 0 := by
        rw [Nat.zero_add]
        exact occursAt_getD hocc2 (by omega)
      rw [h1, h2]
      congr 1
      omega
  have := minBS_min (Nat.zero_le s) hbord
  omega

theorem bmLoop_spec (text p : List Nat) (htb : Bytes text)
    (hpb : Bytes p) (hm : 1 ≤ p.length) (hmn : p.length ≤ text.length) :
    ∀ (fuel a : Nat), text.length + 1 - a ≤ fuel →
      (∀ q, q < a → ¬ occursAt p text q) →
      bmLoop text p (build_bad_char_table p)
        (build_good_suffix_table p) fuel a = firstOcc p text := by
  have hple : p ≠ [] := by
    intro hp
    rw [hp] at hm
    simp at hm
  intro fuel
  induction fuel with
  | zero =>
    intro a hfuel hprev
    rw [bmLoop]
    symm
    apply firstOcc_eq_none_of
    intro q hocc
    rcases Nat.lt_or_ge q a with h | h
    · exact hprev q h hocc
    · have := occursAt_le_length hple hocc
      omega
  | succ f ih =>
    intro a hfuel hprev
    rw [bmLoop]
    by_cases hcond : a ≤ text.length - p.length
    · rw [if_pos hcond]
      have ham : a + p.length ≤ text.length := by omega
      cases hchk : bmCheck text p a p.length with
      | none =>
        have hocc : occursAt p text a := by
          apply occursAt_of_getD ham
          intro j hj
          exact (bmCheck_none p.length).mp hchk j hj
        exact (firstOcc_eq_some_of hocc hprev).symm
      | some jm =>
        obtain ⟨hjm_lt, hmis, hmatch⟩ := bmCheck_some p.length jm hchk
        have hbc1 : 1 ≤ (if 0 < (jm : Int) -
            (build_bad_char_table p).getD (text.getD (a + jm) 0) (-1) then
            ((jm : Int) - (build_bad_char_table p).getD
              (text.getD (a + jm) 0) (-1)).toNat
          else 1) := by
          split
          · omega
          · omega
        refine (ih _ (by omega) ?_)
        intro q hq hocc
        rcases Nat.lt_trichotomy q a with h | h | h
        · exact hprev q h hocc
        · subst h
          exact hmis (occursAt_getD hocc hjm_lt)
        · have hqa : q = a + (q - a) := by omega
          rw [hqa] at hocc
          exact bm_skip_safe htb hpb hm hmn ham hchk (by omega)
            (by omega) hocc
    · rw [if_neg hcond]
      symm
      apply firstOcc_eq_none_of
      intro q hocc
      rcases Nat.lt_or_ge q a with h | h
      · exact hprev q h hocc
      · have := occursAt_le_length hple hocc
        omega

/-- `bm_find` returns the least occurrence of the pattern (and `none`
exactly when there is none): it agrees with the naive kernel. -/
theorem bm_find_eq_firstOcc (text p : List Nat) (htb : Bytes text)
    (hpb : Bytes p) : bm_find text p = firstOcc p text := by
  unfold bm_find
  by_cases hm : p.length = 0
  · rw [if_pos hm]
    have hp : p = [] := List.length_eq_zero.mp hm
    subst hp
    exact (firstOcc_eq_some_of (occursAt_nil text 0)
      (fun q hq => absurd hq (by omega))).symm
  · rw [if_neg hm]
    have hple : p ≠ [] := fun hp => hm (by rw [hp]; rfl)
    by_cases hgt : p.length > text.length
    · rw [if_pos hgt]
      symm
      apply firstOcc_eq_none_of
      intro q hocc
      have := occursAt_le_length hple hocc
      omega
    · rw [if_neg hgt]
      exact bmLoop_spec text p htb hpb (by omega) (by omega)
        (text.length + 1) 0 (by omega) (fun q hq => absurd hq (by omega))

theorem bm_find_eq_naive (text p : List Nat) (htb : Bytes text)
    (hpb : Bytes p) : bm_find text p = naive_find_scalar text p := by
  rw [bm_find_eq_firstOcc text p htb hpb, naive_find_scalar_eq_firstOcc]

theorem bmAllLoop_spec (text p : List Nat) (htb : Bytes text)
    (hpb : Bytes p) (hm : 1 ≤ p.length) (hmn : p.length ≤ text.length) :
    ∀ (fuel a : Nat) (acc : List Nat), text.length + 1 - a ≤ fuel →
      acc = occUpto p text a →
      bmAllLoop text p (build_bad_char_table p)
        (build_good_suffix_table p) fuel a acc =
        occUpto p text (text.length - p.length + 1) := by
  have hple : p ≠ [] := by
    intro hp
    rw [hp] at hm
    simp at hm
  intro fuel
  induction fuel with
  | zero =>
    intro a acc hfuel hacc
    rw [bmAllLoop, hacc]
    apply occUpto_congr (by omega)
    intro q hq1 hq2 hocc
    have := occursAt_le_length hple hocc
    omega
  | succ f ih =>
    intro a acc hfuel hacc
    rw [bmAllLoop]
    by_cases hcond : a ≤ text.length - p.length
    · rw [if_pos hcond]
      have ham : a + p.length ≤ text.length := by omega
      cases hchk : bmCheck text p a p.length with
      | none =>
        have hocc : occursAt p text a := by
          apply occursAt_of_getD ham
          intro j hj
          exact (bmCheck_none p.length).mp hchk j hj
        have hgs1 : 1 ≤ (build_good_suffix_table p).getD 0 0 :=
          gs_pos hm (Nat.zero_le _)
        refine ih _ _ (by omega) ?_
        rw [hacc, ← occUpto_extend_one hocc]
        symm
        apply occUpto_congr (by omega)
        intro q hq1 hq2 hocc2
        have hqa : q = a + (q - a) := by omega
        rw [hqa] at hocc2
        exact bm_match_skip_safe hm hocc (by omega) (by omega) hocc2
      | some jm =>
        obtain ⟨hjm_lt, hmis, hmatch⟩ := bmCheck_some p.length jm hchk
        have hbc1 : 1 ≤ (if 0 < (jm : Int) -
            (build_bad_char_table p).getD (text.getD (a + jm) 0) (-1) then
            ((jm : Int) - (build_bad_char_table p).getD
              (text.getD (a + jm) 0) (-1)).toNat
          else 1) := by
          split
          · omega
          · omega
        refine ih _ _ (by omega) ?_
        rw [hacc]
        symm
        apply occUpto_congr (by omega)
        intro q hq1 hq2 hocc
        rcases Nat.eq_or_lt_of_le hq1 with he | hlt
        · subst he
          exact hmis (occursAt_getD hocc hjm_lt)
        · have hqa : q = a + (q - a) := by omega
          rw [hqa] at hocc
          exact bm_skip_safe htb hpb hm hmn ham hchk (by omega)
            (by omega) hocc
    · rw [if_neg hcond]
      rw [hacc]
      apply occUpto_congr (by omega)
      intro q hq1 hq2 hocc
      have := occursAt_le_length hple hocc
      omega

/-- `bm_find_all` collects exactly the occurrence list of the naive
kernel. -/
theorem bm_find_all_eq_naive (text p : List Nat) (htb : Bytes text)
    (hpb : Bytes p) : bm_find_all text p = naive_find_all_scalar text p := by
  unfold bm_find_all naive_find_all_scalar
  by_cases hm : p.length = 0
  · rw [if_pos hm, if_pos hm]
  · rw [if_neg hm, if_neg hm]
    by_cases hgt : p.length > text.length
    · rw [if_pos hgt, if_pos hgt]
    · rw [if_neg hgt, if_neg hgt]
      have := bmAllLoop_spec text p htb hpb (by omega) (by omega)
        (text.length + 1) 0 [] (by omega) (by simp [occUpto])
      rw [this]
      rfl

/-! ## The trait-default `find_all_bytes` (`algos/src/lib.rs`)

The default implementation repeatedly calls `find_bytes` on the suffix
at the cursor and advances past each reported match. -/

def findAllLoop (find : List Nat → Option Nat) (text : List Nat) :
    Nat → Nat → List Nat → List Nat
  | 0, _, acc => acc
  | fuel + 1, cursor, acc =>
    if cursor ≤ text.length then
      match find (text.drop cursor) with
      | some rel =>
        findAllLoop find text fuel (cursor + rel + 1) (acc ++ [cursor + rel])
      | none => acc
    else acc

def find_all_bytes (find : List Nat → Option Nat) (text : List Nat) :
    List Nat :=
  findAllLoop find text (text.length + 2) 0 []

theorem occursAt_drop {p text : List Nat} {c r : Nat} :
    occursAt p (text.drop c) r ↔ occursAt p text (c + r) := by
  rw [occursAt_iff, occursAt_iff, List.drop_drop]

theorem findAllLoop_spec (pattern text : List Nat) (hp : pattern ≠ [])
    (find : List Nat → Option Nat)
    (hfind : ∀ c, find (text.drop c) = firstOcc pattern (text.drop c)) :
    ∀ (fuel cursor : Nat) (acc : List Nat),
      text.length + 2 - cursor ≤ fuel →
      acc = occUpto pattern text cursor →
      findAllLoop find text fuel cursor acc =
        occUpto pattern text (text.length + 1) := by
  intro fuel
  induction fuel with
  | zero =>
    intro cursor acc hfuel hacc
    rw [findAllLoop, hacc]
    apply occUpto_congr (by omega)
    intro q hq1 hq2 hocc
    have h1 := occursAt_le_length hp hocc
    have h2 := List.length_pos.mpr hp
    omega
  | succ f ih =>
    intro cursor acc hfuel hacc
    rw [findAllLoop]
    by_cases hcur : cursor ≤ text.length
    · rw [if_pos hcur]
      rw [hfind cursor]
      cases hfo : firstOcc pattern (text.drop cursor) with
      | some rel =>
        obtain ⟨hocc, hmin⟩ := firstOcc_spec_some hfo
        have hocc' : occursAt pattern text (cursor + rel) :=
          occursAt_drop.mp hocc
        refine ih _ _ (by omega) ?_
        have hcg : occUpto pattern text (cursor + rel) =
            occUpto pattern text cursor := by
          apply occUpto_congr (by omega)
          intro q hq1 hq2 hocc2
          have hq : q = cursor + (q - cursor) := by omega
          rw [hq] at hocc2
          exact hmin (q - cursor) (by omega) (occursAt_drop.mpr hocc2)
        rw [hacc, occUpto_extend_one hocc', hcg]
      | none =>
        have hnone := firstOcc_spec_none hfo
        rw [hacc]
        symm
        apply occUpto_congr (by omega)
        intro q hq1 hq2 hocc
        have hq : q = cursor + (q - cursor) := by omega
        rw [hq] at hocc
        exact hnone (q - cursor) (occursAt_drop.mpr hocc)
    · rw [if_neg hcur]
      rw [hacc]
      apply occUpto_congr (by omega)
      intro q hq1 hq2 hocc
      have h1 := occursAt_le_length hp hocc
      have h2 := List.length_pos.mpr hp
      omega

/-- The default `find_all_bytes` built over any kernel that returns
first occurrences agrees with the naive scalar `find_all`. -/
theorem find_all_bytes_eq_naive (pattern text : List Nat)
    (hp : pattern ≠ []) (find : List Nat → Option Nat)
    (hfind : ∀ c, find (text.drop c) = firstOcc pattern (text.drop c)) :
    find_all_bytes find text = naive_find_all_scalar text pattern := by
  have hm : pattern.length ≠ 0 := fun h => hp (List.length_eq_zero.mp h)
  have h1 : find_all_bytes find text =
      occUpto pattern text (text.length + 1) :=
    findAllLoop_spec pattern text hp find hfind (text.length + 2) 0 []
      (by omega) (by simp [occUpto])
  rw [h1]
  unfold naive_find_all_scalar
  rw [if_neg hm]
  by_cases hgt : pattern.length > text.length
  · rw [if_pos hgt]
    have : occUpto pattern text (text.length + 1) =
        occUpto pattern text 0 := by
      apply occUpto_congr (by omega)
      intro q hq1 hq2 hocc
      have := occursAt_le_length hp hocc
      omega
    rw [this]
    rfl
  · rw [if_neg hgt]
    have : occUpto pattern text (text.length + 1) =
        occUpto pattern text (text.length - pattern.length + 1) := by
      apply occUpto_congr (by omega)
      intro q hq1 hq2 hocc
      have := occursAt_le_length hp hocc
      have := List.length_pos.mpr hp
      omega
    rw [this]
    rfl

/-- With the empty pattern, a kernel that always reports offset `0`
makes the default `find_all_bytes` enumerate every position
`0, …, |text|`. -/
theorem findAllLoop_empty (text : List Nat)
    (find : List Nat → Option Nat)
    (hfind : ∀ c, find (text.drop c) = some 0) :
    ∀ (fuel cursor : Nat) (acc : List Nat),
      text.length + 2 - cursor ≤ fuel → cursor ≤ text.length + 1 →
      acc = List.range cursor →
      findAllLoop find text fuel cursor acc =
        List.range (text.length + 1) := by
  intro fuel
  induction fuel with
  | zero => intro cursor acc h; omega
  | succ f ih =>
    intro cursor acc hfuel hcur hacc
    rw [findAllLoop]
    by_cases hc : cursor ≤ text.length
    · rw [if_pos hc, hfind cursor]
      refine ih _ _ (by omega) (by omega) ?_
      rw [hacc, List.range_succ, Nat.add_zero]
    · rw [if_neg hc]
      rw [hacc]
      congr 1
      omega

theorem find_all_bytes_empty (text : List Nat)
    (find : List Nat → Option Nat)
    (hfind : ∀ c, find (text.drop c) = some 0) :
    find_all_bytes find text = List.range (text.length + 1) :=
  findAllLoop_empty text find hfind (text.length + 2) 0 [] (by omega)
    (by omega) rfl

/-- Validity of an occurrence list: strictly ascending and containing
exactly the true occurrences. -/
theorem naive_find_all_valid (text pattern : List Nat)
    (hp : pattern ≠ []) :
    List.Chain' (· < ·) (naive_find_all_scalar text pattern) ∧
      ∀ i, i ∈ naive_find_all_scalar text pattern ↔
        occursAt pattern text i := by
  have hm : pattern.length ≠ 0 := fun h => hp (List.length_eq_zero.mp h)
  unfold naive_find_all_scalar
  rw [if_neg hm]
  by_cases hgt : pattern.length > text.length
  · rw [if_pos hgt]
    refine ⟨List.chain'_nil, fun i => ?_⟩
    simp only [List.not_mem_nil, false_iff]
    intro hocc
    have := occursAt_le_length hp hocc
    omega
  · rw [if_neg hgt]
    constructor
    · rw [List.chain'_iff_pairwise]
      exact (List.pairwise_lt_range _).sublist (List.filter_sublist _)
    · intro i
      rw [List.mem_filter, List.mem_range]
      constructor
      · intro ⟨_, h2⟩
        rw [occursAt_iff]
        simpa [naiveCheck] using h2
      · intro hocc
        have := occursAt_le_length hp hocc
        refine ⟨by omega, ?_⟩
        rw [occursAt_iff] at hocc
        simpa [naiveCheck] using hocc

/-! ## `KmerSearch::find_all_bytes` (`algos/src/kmer.rs`)

The per-diagonal counter and the `found_diagonals` set are modelled as
functions; `results.sort()` is `mergeSort`. -/

def kmerAllScan (min_hits text_pos : Nat) :
    (Int → Nat) → (Int → Bool) → List Nat → List Nat →
      (Int → Nat) × (Int → Bool) × List Nat
  | counts, found, results, [] => (counts, found, results)
  | counts, found, results, qp :: qps =>
    let d : Int := (text_pos : Int) - (qp : Int)
    if d < 0 then kmerAllScan min_hits text_pos counts found results qps
    else
      let c := counts d + 1
      let counts' : Int → Nat := fun x => if x = d then c else counts x
      if min_hits ≤ c then
        if found d then
          kmerAllScan min_hits text_pos counts' found results qps
        else
          kmerAllScan min_hits text_pos counts'
            (fun x => if x = d then true else found x)
            (results ++ [d.toNat]) qps
      else kmerAllScan min_hits text_pos counts' found results qps

def kmerAllOuter (map : List (List Nat × List Nat)) (kk min_hits : Nat)
    (text : List Nat) :
    Nat → Nat → (Int → Nat) → (Int → Bool) → List Nat → List Nat
  | 0, _, _, _, results => results
  | rem + 1, text_pos, counts, found, results =>
    let kmer := (text.drop text_pos).take kk
    match assocGet map kmer with
    | some qps =>
      match kmerAllScan min_hits text_pos counts found results qps with
      | (counts', found', results') =>
        kmerAllOuter map kk min_hits text rem (text_pos + 1) counts'
          found' results'
    | none =>
      kmerAllOuter map kk min_hits text rem (text_pos + 1) counts found
        results

/-- `results.sort()`: insertion sort, ascending. -/
def insertSorted (x : Nat) : List Nat → List Nat
  | [] => [x]
  | y :: ys => if x ≤ y then x :: y :: ys else y :: insertSorted x ys

def sortNat (l : List Nat) : List Nat := l.foldr insertSorted []

def kmer_find_all_bytes (state : KmerIndex) (text : List Nat) :
    List Nat :=
  if state.map = [] ∨ text.length < state.k then []
  else
    sortNat (kmerAllOuter state.map state.k state.min_hits text
      (text.length - state.k + 1) 0 (fun _ => 0) (fun _ => false) [])

/-! ## The LUT-short kernel (`algos/src/lut_short.rs`)

`find_ssse3` scans the text for candidate positions of the rarest
pattern byte with nibble lookup tables, then verifies each candidate
with `matches_at`.  The SIMD lane test (`pshufb` + `movemask`) is
rendered per byte: a lane fires when the high bit of
`lut_lo[b & 0xf] & lut_hi[b >> 4]` is set.  The four 16-lane blocks of
the 64-byte loop, the 16-byte loop and the masked tail all scan lanes
in ascending candidate order (`trailing_zeros` with `mask &= mask - 1`),
which the embedding renders as an ascending lane walk. -/

structure LutShortState where
  pattern : List Nat
  len : Nat
  sig : Nat
  sig_index : Nat
  lut_lo : List Nat
  lut_hi : List Nat
deriving Repr

def countsOf (pattern : List Nat) : List Nat :=
  pattern.foldl (fun cnts b => cnts.set b (min (cnts.getD b 0 + 1) 255))
    (List.replicate 256 0)

def rarest_byte (pattern : List Nat) : Nat × Nat :=
  match pattern with
  | [] => (0, 0)
  | p0 :: _ =>
    let counts := countsOf pattern
    let r := pattern.enum.foldl
      (fun acc ib =>
        if counts.getD ib.2 0 < acc.2.2 then (ib.2, ib.1, counts.getD ib.2 0)
        else acc)
      (p0, 0, counts.getD p0 0)
    (r.1, r.2.1)

def build_state (pattern : List Nat) : LutShortState :=
  let len := pattern.length
  let copy_len := min len 8
  let buf := pattern.take copy_len ++ List.replicate (8 - copy_len) 0
  let sr := rarest_byte pattern
  { pattern := buf, len := len, sig := sr.1, sig_index := sr.2,
    lut_lo := (List.replicate 16 0).set (sr.1 % 16) 255,
    lut_hi := (List.replicate 16 0).set (sr.1 / 16) 255 }

def lutMatchesAt (st : LutShortState) (text : List Nat) (pos : Nat) :
    Bool :=
  if text.length < pos + st.len then false
  else (text.drop pos).take st.len == st.pattern.take st.len

/-- One lane of the nibble-LUT candidate test. -/
def lutLaneHit (st : LutShortState) (b : Nat) : Bool :=
  128 ≤ Nat.land (st.lut_lo.getD (b % 16) 0)
    (st.lut_hi.getD (b / 16 % 16) 0)

/-- The `while mask != 0` candidate walk over one loaded block,
starting at lane `lane` with `count` lanes left before the block (or
tail) limit. -/
def candScan (st : LutShortState) (text : List Nat) (base : Nat) :
    Nat → Nat → Option Nat
  | 0, _ => none
  | count + 1, lane =>
    if lutLaneHit st (text.getD (base + lane) 0) then
      let cand := base + lane
      if cand < st.sig_index then candScan st text base count (lane + 1)
      else
        let start := cand - st.sig_index
        if start + st.len ≤ text.length ∧ lutMatchesAt st text start then
          some start
        else candScan st text base count (lane + 1)
    else candScan st text base count (lane + 1)

/-- The `while i + 16 <= n` loop followed by the masked tail. -/
def lut16Loop (st : LutShortState) (text : List Nat) :
    Nat → Nat → Option Nat
  | 0, _ => none
  | fuel + 1, i =>
    if i + 16 ≤ text.length then
      match candScan st text i 16 0 with
      | some r => some r
      | none => lut16Loop st text fuel (i + 16)
    else if i < text.length then candScan st text i (text.length - i) 0
    else none

/-- The `while i + 64 <= n` loop: four 16-lane blocks per iteration. -/
def lut64Loop (st : LutShortState) (text : List Nat) :
    Nat → Nat → Option Nat
  | 0, _ => none
  | fuel + 1, i =>
    if i + 64 ≤ text.length then
      match candScan st text i 16 0 with
      | some r => some r
      | none =>
        match candScan st text (i + 16) 16 0 with
        | some r => some r
        | none =>
          match candScan st text (i + 32) 16 0 with
          | some r => some r
          | none =>
            match candScan st text (i + 48) 16 0 with
            | some r => some r
            | none => lut64Loop st text fuel (i + 64)
    else lut16Loop st text (text.length + 1) i

def find_ssse3 (pattern text : List Nat) : Option Nat :=
  let st := build_state pattern
  if st.len = 0 then some 0
  else if 8 < st.len then naive_find_scalar text pattern
  else if text.length < st.len then none
  else if st.len = 1 then
    firstFrom (fun i => text.getD i 0 == st.pattern.getD 0 0)
      text.length 0
  else lut64Loop st text (text.length + 1) 0

/-! ### Correctness of the LUT-short kernel -/

theorem foldl_inv {α β : Type} (f : β → α → β) (C : β → Prop) :
    ∀ (l : List α) (b : β), C b → (∀ b a, C b → a ∈ l → C (f b a)) →
      C (l.foldl f b) := by
  intro l
  induction l with
  | nil => intro b hb _; exact hb
  | cons a as ih =>
    intro b hb hstep
    exact ih (f b a) (hstep b a hb (by simp))
      (fun b' a' hb' ha' => hstep b' a' hb' (by simp [ha']))

theorem mem_enumFrom_spec {α : Type} [Inhabited α] {l : List α} :
    ∀ {n i : Nat} {x : α}, (i, x) ∈ l.enumFrom n →
      n ≤ i ∧ i - n < l.length ∧ l.getD (i - n) default = x := by
  induction l with
  | nil => intro n i x h; simp [List.enumFrom] at h
  | cons a as ih =>
    intro n i x h
    rw [List.enumFrom] at h
    rcases List.mem_cons.mp h with h1 | h1
    · have hi : i = n := congrArg Prod.fst h1
      have hx : x = a := congrArg Prod.snd h1
      subst hi
      subst hx
      exact ⟨le_refl _, by simp, by simp⟩
    · obtain ⟨h2, h3, h4⟩ := ih h1
      refine ⟨by omega, by simp; omega, ?_⟩
      have he : i - n = (i - (n + 1)) + 1 := by omega
      rw [he]
      simpa using h4

theorem rarest_spec {pattern : List Nat} (hp : pattern ≠ []) :
    (rarest_byte pattern).2 < pattern.length ∧
      pattern.getD (rarest_byte pattern).2 0 = (rarest_byte pattern).1 := by
  cases pattern with
  | nil => exact absurd rfl hp
  | cons p0 ps =>
    unfold rarest_byte
    set counts := countsOf (p0 :: ps) with hcounts
    have H := foldl_inv
      (fun acc (ib : Nat × Nat) =>
        if counts.getD ib.2 0 < acc.2.2 then (ib.2, ib.1, counts.getD ib.2 0)
        else acc)
      (fun acc => acc.2.1 < (p0 :: ps).length ∧
        (p0 :: ps).getD acc.2.1 0 = acc.1)
      (p0 :: ps).enum (p0, 0, counts.getD p0 0)
      ⟨by simp, by simp⟩
      (fun acc ib hacc hib => by
        simp only [] at hacc ⊢
        by_cases hc : counts.getD ib.2 0 < acc.2.2
        · rw [if_pos hc]
          have hm := mem_enumFrom_spec (l := p0 :: ps) (n := 0)
            (i := ib.1) (x := ib.2) (by simpa [List.enum] using hib)
          simp only [Nat.sub_zero] at hm
          exact ⟨hm.2.1, hm.2.2⟩
        · rw [if_neg hc]
          exact hacc)
    exact ⟨H.1, H.2⟩

theorem build_state_len (pattern : List Nat) :
    (build_state pattern).len = pattern.length := rfl

theorem build_state_pattern_take {pattern : List Nat}
    (h8 : pattern.length ≤ 8) :
    (build_state pattern).pattern.take (build_state pattern).len =
      pattern := by
  show (pattern.take (min pattern.length 8) ++
      List.replicate (8 - min pattern.length 8) 0).take pattern.length =
    pattern
  rw [Nat.min_eq_left h8, List.take_append_of_le_length (by simp),
    List.take_take, Nat.min_self, List.take_length]

theorem build_state_sig {pattern : List Nat} (hp : pattern ≠ []) :
    (build_state pattern).sig_index < pattern.length ∧
      pattern.getD (build_state pattern).sig_index 0 =
        (build_state pattern).sig :=
  rarest_spec hp

theorem build_state_sig_lt {pattern : List Nat} (hp : pattern ≠ [])
    (hpb : Bytes pattern) : (build_state pattern).sig < 256 := by
  obtain ⟨h1, h2⟩ := build_state_sig hp
  rw [← h2]
  exact getD_lt_256 hpb h1

theorem lutMatchesAt_eq {pattern text : List Nat} {pos : Nat}
    (h8 : pattern.length ≤ 8) (hp : pattern ≠ []) :
    lutMatchesAt (build_state pattern) text pos =
      occursAtB pattern text pos := by
  unfold lutMatchesAt occursAtB
  rw [build_state_pattern_take h8, build_state_len]
  by_cases hb : text.length < pos + pattern.length
  · rw [if_pos hb]
    symm
    rw [beq_eq_false_iff_ne]
    intro he
    have hlen : ((text.drop pos).take pattern.length).length =
        pattern.length := by rw [he]
    rw [List.length_take, List.length_drop] at hlen
    have := List.length_pos.mpr hp
    omega
  · rw [if_neg hb]

theorem lane_hit_sig {pattern : List Nat} (hp : pattern ≠ [])
    (hpb : Bytes pattern) :
    lutLaneHit (build_state pattern) (build_state pattern).sig = true := by
  have hsig := build_state_sig_lt hp hpb
  unfold lutLaneHit
  have hlo : (build_state pattern).lut_lo.getD
      ((build_state pattern).sig % 16) 0 = 255 := by
    show ((List.replicate 16 0).set ((build_state pattern).sig % 16)
      255).getD ((build_state pattern).sig % 16) 0 = 255
    rw [getD_set_self' (by simp; omega)]
  have hhi : (build_state pattern).lut_hi.getD
      ((build_state pattern).sig / 16 % 16) 0 = 255 := by
    show ((List.replicate 16 0).set ((build_state pattern).sig / 16)
      255).getD ((build_state pattern).sig / 16 % 16) 0 = 255
    have hd : (build_state pattern).sig / 16 < 16 := by omega
    rw [Nat.mod_eq_of_lt hd, getD_set_self' (by simp; omega)]
  rw [hlo, hhi]
  decide

/-- At every occurrence the signature lane fires. -/
theorem lane_hit_of_occ {pattern text : List Nat} {s : Nat}
    (hp : pattern ≠ []) (hpb : Bytes pattern)
    (hocc : occursAt pattern text s) :
    lutLaneHit (build_state pattern)
      (text.getD (s + (build_state pattern).sig_index) 0) = true := by
  obtain ⟨hsi, hsv⟩ := build_state_sig hp
  have hchar := occursAt_getD hocc hsi
  rw [← hchar, hsv]
  exact lane_hit_sig hp hpb

theorem candScan_spec (pattern text : List Nat) (hp : pattern ≠ [])
    (h8 : pattern.length ≤ 8) (hpb : Bytes pattern) (base : Nat) :
    ∀ (count lane : Nat),
      (∀ j, candScan (build_state pattern) text base count lane = some j →
        occursAt pattern text j ∧
        base + lane ≤ j + (build_state pattern).sig_index ∧
        j + (build_state pattern).sig_index < base + lane + count ∧
        ∀ s, base + lane ≤ s + (build_state pattern).sig_index → s < j →
          ¬ occursAt pattern text s) ∧
      (candScan (build_state pattern) text base count lane = none →
        ∀ s, base + lane ≤ s + (build_state pattern).sig_index →
          s + (build_state pattern).sig_index < base + lane + count →
          ¬ occursAt pattern text s) := by
  intro count
  induction count with
  | zero =>
    intro lane
    rw [candScan]
    constructor
    · intro j h
      cases h
    · intro _ s h1 h2 _
      omega
  | succ c ih =>
    intro lane
    rw [candScan]
    -- no occurrence maps to a candidate that fails a test
    by_cases hhit : lutLaneHit (build_state pattern)
        (text.getD (base + lane) 0) = true
    · rw [if_pos hhit]
      by_cases hlt : base + lane < (build_state pattern).sig_index
      · rw [if_pos hlt]
        have hnone : ∀ s, ¬ s + (build_state pattern).sig_index =
            base + lane := by intro s; omega
        obtain ⟨ihs, ihn⟩ := ih (lane + 1)
        refine ⟨fun j h => ?_, fun h s h1 h2 hocc => ?_⟩
        · obtain ⟨o1, o2, o3, o4⟩ := ihs j h
          refine ⟨o1, by omega, by omega, fun s hs1 hs2 => ?_⟩
          rcases Nat.lt_or_ge (s + (build_state pattern).sig_index)
              (base + lane + 1) with hc | hc
          · intro hocc
            exact hnone s (by omega)
          · exact o4 s (by omega) hs2
        · rcases Nat.lt_or_ge (s + (build_state pattern).sig_index)
              (base + lane + 1) with hc | hc
          · exact hnone s (by omega)
          · exact ihn h s (by omega) (by omega) hocc
      · rw [if_neg hlt]
        by_cases hcond : base + lane - (build_state pattern).sig_index +
            (build_state pattern).len ≤ text.length ∧
            lutMatchesAt (build_state pattern) text
              (base + lane - (build_state pattern).sig_index) = true
        · rw [if_pos hcond]
          refine ⟨fun j h => ?_, fun h => by cases h⟩
          have hj : j = base + lane - (build_state pattern).sig_index := by
            cases h; rfl
          subst hj
          have hocc : occursAt pattern text
              (base + lane - (build_state pattern).sig_index) := by
            have := hcond.2
            rw [lutMatchesAt_eq h8 hp] at this
            exact this
          exact ⟨hocc, by omega, by omega, fun s hs1 hs2 => by omega⟩
        · rw [if_neg hcond]
          have hnocc : ¬ occursAt pattern text
              (base + lane - (build_state pattern).sig_index) := by
            intro hocc
            apply hcond
            constructor
            · have := occursAt_le_length hp hocc
              rw [build_state_len]
              omega
            · rw [lutMatchesAt_eq h8 hp]
              exact hocc
          obtain ⟨ihs, ihn⟩ := ih (lane + 1)
          refine ⟨fun j h => ?_, fun h s h1 h2 hocc => ?_⟩
          · obtain ⟨o1, o2, o3, o4⟩ := ihs j h
            refine ⟨o1, by omega, by omega, fun s hs1 hs2 => ?_⟩
            rcases Nat.lt_or_ge (s + (build_state pattern).sig_index)
                (base + lane + 1) with hc | hc
            · intro hocc
              have hs : s = base + lane -
                  (build_state pattern).sig_index := by omega
              rw [hs] at hocc
              exact hnocc hocc
            · exact o4 s (by omega) hs2
          · rcases Nat.lt_or_ge (s + (build_state pattern).sig_index)
                (base + lane + 1) with hc | hc
            · have hs : s = base + lane -
                  (build_state pattern).sig_index := by omega
              rw [hs] at hocc
              exact hnocc hocc
            · exact ihn h s (by omega) (by omega) hocc
    · rw [if_neg hhit]
      have hnocc : ∀ s, s + (build_state pattern).sig_index =
          base + lane → ¬ occursAt pattern text s := by
        intro s hs hocc
        apply hhit
        rw [← hs]
        exact lane_hit_of_occ hp hpb hocc
      obtain ⟨ihs, ihn⟩ := ih (lane + 1)
      refine ⟨fun j h => ?_, fun h s h1 h2 hocc => ?_⟩
      · obtain ⟨o1, o2, o3, o4⟩ := ihs j h
        refine ⟨o1, by omega, by omega, fun s hs1 hs2 => ?_⟩
        rcases Nat.lt_or_ge (s + (build_state pattern).sig_index)
            (base + lane + 1) with hc | hc
        · exact hnocc s (by omega)
        · exact o4 s (by omega) hs2
      · rcases Nat.lt_or_ge (s + (build_state pattern).sig_index)
            (base + lane + 1) with hc | hc
        · exact hnocc s (by omega) hocc
        · exact ihn h s (by omega) (by omega) hocc

/-- Occurrences never put their signature candidate past the text end. -/
theorem cand_lt_length {pattern text : List Nat} {s : Nat}
    (hp : pattern ≠ []) (hocc : occursAt pattern text s) :
    s + (build_state pattern).sig_index < text.length := by
  have h1 := occursAt_le_length hp hocc
  have h2 := (build_state_sig hp).1
  omega

theorem lut16Loop_spec (pattern text : List Nat) (hp : pattern ≠ [])
    (h8 : pattern.length ≤ 8) (hpb : Bytes pattern) :
    ∀ (fuel i : Nat), text.length - i < fuel →
      (∀ s, s + (build_state pattern).sig_index < i →
        ¬ occursAt pattern text s) →
      lut16Loop (build_state pattern) text fuel i =
        firstOcc pattern text := by
  intro fuel
  induction fuel with
  | zero => intro i h; omega
  | succ f ih =>
    intro i hfuel hpre
    rw [lut16Loop]
    by_cases h16 : i + 16 ≤ text.length
    · rw [if_pos h16]
      obtain ⟨hs, hn⟩ := candScan_spec pattern text hp h8 hpb i 16 0
      cases hcs : candScan (build_state pattern) text i 16 0 with
      | some r =>
        obtain ⟨o1, o2, o3, o4⟩ := hs r hcs
        refine (firstOcc_eq_some_of o1 ?_).symm
        intro q hq
        rcases Nat.lt_or_ge (q + (build_state pattern).sig_index) i
          with hc | hc
        · exact hpre q hc
        · exact o4 q (by omega) hq
      | none =>
        refine ih (i + 16) (by omega) ?_
        intro s hsi
        rcases Nat.lt_or_ge (s + (build_state pattern).sig_index) i
          with hc | hc
        · exact hpre s hc
        · exact hn hcs s (by omega) (by omega)
    · rw [if_neg h16]
      by_cases hrem : i < text.length
      · rw [if_pos hrem]
        obtain ⟨hs, hn⟩ := candScan_spec pattern text hp h8 hpb i
          (text.length - i) 0
        apply eq_firstOcc_of_spec
        · intro r hr
          obtain ⟨o1, o2, o3, o4⟩ := hs r hr
          refine ⟨o1, fun q hq => ?_⟩
          rcases Nat.lt_or_ge (q + (build_state pattern).sig_index) i
            with hc | hc
          · exact hpre q hc
          · exact o4 q (by omega) hq
        · intro hr q hocc
          have hlt := cand_lt_length hp hocc
          rcases Nat.lt_or_ge (q + (build_state pattern).sig_index) i
            with hc | hc
          · exact hpre q hc hocc
          · exact hn hr q (by omega) (by omega) hocc
      · rw [if_neg hrem]
        symm
        apply firstOcc_eq_none_of
        intro q hocc
        have hlt := cand_lt_length hp hocc
        exact hpre q (by omega) hocc

theorem lut64Loop_spec (pattern text : List Nat) (hp : pattern ≠ [])
    (h8 : pattern.length ≤ 8) (hpb : Bytes pattern) :
    ∀ (fuel i : Nat), text.length - i < fuel →
      (∀ s, s + (build_state pattern).sig_index < i →
        ¬ occursAt pattern text s) →
      lut64Loop (build_state pattern) text fuel i =
        firstOcc pattern text := by
  intro fuel
  induction fuel with
  | zero => intro i h; omega
  | succ f ih =>
    intro i hfuel hpre
    rw [lut64Loop]
    by_cases h64 : i + 64 ≤ text.length
    · rw [if_pos h64]
      have hblock : ∀ (b : Nat),
          (∀ s, s + (build_state pattern).sig_index < b →
            ¬ occursAt pattern text s) →
          ∀ r, candScan (build_state pattern) text b 16 0 = some r →
            firstOcc pattern text = some r := by
        intro b hpre' r hcs
        obtain ⟨o1, o2, o3, o4⟩ :=
          (candScan_spec pattern text hp h8 hpb b 16 0).1 r hcs
        refine firstOcc_eq_some_of o1 ?_
        intro q hq
        rcases Nat.lt_or_ge (q + (build_state pattern).sig_index) b
          with hc | hc
        · exact hpre' q hc
        · exact o4 q (by omega) hq
      have hnext : ∀ (b : Nat),
          (∀ s, s + (build_state pattern).sig_index < b →
            ¬ occursAt pattern text s) →
          candScan (build_state pattern) text b 16 0 = none →
          ∀ s, s + (build_state pattern).sig_index < b + 16 →
            ¬ occursAt pattern text s := by
        intro b hpre' hcs s hsb
        rcases Nat.lt_or_ge (s + (build_state pattern).sig_index) b
          with hc | hc
        · exact hpre' s hc
        · exact (candScan_spec pattern text hp h8 hpb b 16 0).2 hcs s
            (by omega) (by omega)
      cases hc1 : candScan (build_state pattern) text i 16 0 with
      | some r => exact (hblock i hpre r hc1).symm
      | none =>
        have hp1 := hnext i hpre hc1
        cases hc2 : candScan (build_state pattern) text (i + 16) 16 0 with
        | some r =>
          exact (hblock (i + 16) (fun s hs => hp1 s hs) r hc2).symm
        | none =>
          have hp2 := hnext (i + 16) (fun s hs => hp1 s hs) hc2
          cases hc3 : candScan (build_state pattern) text (i + 32) 16 0 with
          | some r =>
            exact (hblock (i + 32) (fun s hs => hp2 s (by omega)) r
              hc3).symm
          | none =>
            have hp3 := hnext (i + 32) (fun s hs => hp2 s (by omega)) hc3
            cases hc4 : candScan (build_state pattern) text (i + 48) 16 0
              with
            | some r =>
              exact (hblock (i + 48) (fun s hs => hp3 s (by omega)) r
                hc4).symm
            | none =>
              have hp4 := hnext (i + 48) (fun s hs => hp3 s (by omega))
                hc4
              exact ih (i + 64) (by omega) (fun s hs => hp4 s (by omega))
    · rw [if_neg h64]
      exact lut16Loop_spec pattern text hp h8 hpb (text.length + 1) i
        (by omega) hpre

/-- `find_ssse3` returns the least occurrence: the LUT-short kernel
agrees with the naive kernel. -/
theorem find_ssse3_eq_firstOcc (pattern text : List Nat)
    (hpb : Bytes pattern) :
    find_ssse3 pattern text = firstOcc pattern text := by
  show (if (build_state pattern).len = 0 then some 0
    else if 8 < (build_state pattern).len then
      naive_find_scalar text pattern
    else if text.length < (build_state pattern).len then none
    else if (build_state pattern).len = 1 then
      firstFrom
        (fun i => text.getD i 0 == (build_state pattern).pattern.getD 0 0)
        text.length 0
    else lut64Loop (build_state pattern) text (text.length + 1) 0) =
    firstOcc pattern text
  rw [build_state_len]
  by_cases h0 : pattern.length = 0
  · rw [if_pos h0]
    have hp : pattern = [] := List.length_eq_zero.mp h0
    subst hp
    exact (firstOcc_eq_some_of (occursAt_nil text 0)
      (fun q hq => absurd hq (by omega))).symm
  · rw [if_neg h0]
    have hp : pattern ≠ [] := fun h => h0 (by rw [h]; rfl)
    by_cases h8 : 8 < pattern.length
    · rw [if_pos h8]
      exact naive_find_scalar_eq_firstOcc text pattern
    · rw [if_neg h8]
      push_neg at h8
      by_cases hmn : text.length < pattern.length
      · rw [if_pos hmn]
        symm
        apply firstOcc_eq_none_of
        intro q hocc
        have := occursAt_le_length hp hocc
        omega
      · rw [if_neg hmn]
        by_cases h1 : pattern.length = 1
        · rw [if_pos h1]
          have hpat0 : (build_state pattern).pattern.getD 0 0 =
              pattern.getD 0 0 := by
            show (pattern.take (min pattern.length 8) ++
              List.replicate (8 - min pattern.length 8) 0).getD 0 0 =
              pattern.getD 0 0
            rw [List.getD_append _ _ _ _ (by simp; omega),
              getD_take (by omega)]
          apply eq_firstOcc_of_spec
          · intro r hr
            obtain ⟨hr1, hr2, hr3, hr4⟩ := firstFrom_eq_some hr
            have hc : text.getD r 0 = pattern.getD 0 0 := by
              have hb := eq_of_beq hr3
              rwa [hpat0] at hb
            constructor
            · apply occursAt_of_getD (by omega)
              intro j hj
              have hj0 : j = 0 := by omega
              subst hj0
              rw [Nat.add_zero]
              exact hc.symm
            · intro q hq hocc
              have hcq := occursAt_getD hocc
                (show 0 < pattern.length by omega)
              have hfalse := hr4 q (by omega) hq
              rw [beq_eq_false_iff_ne] at hfalse
              apply hfalse
              rw [hpat0]
              rw [Nat.add_zero] at hcq
              exact hcq.symm
          · intro hr q hocc
            have hle := occursAt_le_length hp hocc
            have hcq := occursAt_getD hocc
              (show 0 < pattern.length by omega)
            have hfalse := firstFrom_eq_none hr q (by omega) (by omega)
            rw [beq_eq_false_iff_ne] at hfalse
            apply hfalse
            rw [hpat0]
            rw [Nat.add_zero] at hcq
            exact hcq.symm
        · rw [if_neg h1]
          exact lut64Loop_spec pattern text hp h8 hpb (text.length + 1) 0
            (by omega) (fun s hs _ => by omega)

theorem find_ssse3_eq_naive (pattern text : List Nat)
    (hpb : Bytes pattern) :
    find_ssse3 pattern text = naive_find_scalar text pattern := by
  rw [find_ssse3_eq_firstOcc pattern text hpb,
    naive_find_scalar_eq_firstOcc]

/-! ## The FFT-convolution kernel, `FftStr1` over `Value2`
(`algos/src/fftstr.rs`)

`Value2` is arithmetic modulo the NTT prime `2013265921`; `add`/`sub`
reduce via Lemire's fastmod on `u32`/`u64` intermediates, which the
embedding renders with explicit `% 2^32` / `% 2^64`.  Build panics
(empty pattern, oversized pattern) become `none`. -/

def fftM : Nat := 2013265921

def fftFastmodM : Nat := (2 ^ 64 - 1) / fftM + 1

def fastmod_u32 (value : Nat) : Nat :=
  (fftFastmodM * value % 2 ^ 64) * fftM / 2 ^ 64

def v2add (a b : Nat) : Nat := fastmod_u32 ((a + b) % 2 ^ 32)

def v2sub (a b : Nat) : Nat :=
  fastmod_u32 ((fftM + a + (2 ^ 32 - b % 2 ^ 32)) % 2 ^ 32)

def v2mul (a b : Nat) : Nat := a * b % fftM

def fftOMEGA : Nat := 1985266761

def fftOMEGA_POWER : Nat := 2 ^ 27

def fastPowLoop : Nat → Nat → Nat → Nat → Nat
  | 0, _, res, _ => res
  | fuel + 1, base, res, pw =>
    if pw ≠ 0 then
      fastPowLoop fuel (v2mul base base)
        (if pw % 2 = 1 then v2mul base res else res) (pw / 2)
    else res

def fast_pow (base pw : Nat) : Nat := fastPowLoop 64 base (1 % fftM) pw

def twidAux (t : Nat) : Nat → Nat → List Nat
  | 0, _ => []
  | k + 1, cur => cur :: twidAux t k (v2mul cur t)

def get_twiddles (size t : Nat) : List Nat := twidAux t size (1 % fftM)

structure Fft2 where
  log2n : Nat
  n : Nat
  twiddles : List Nat
  itwiddles : List Nat
deriving Repr

def fftINV_OMEGA : Nat := 1885204058

def fft2New (log2n : Nat) : Fft2 :=
  let n := 2 ^ log2n
  let phi := fast_pow (fftOMEGA % fftM) (fftOMEGA_POWER / 2 ^ log2n)
  let iphi := fast_pow (fftINV_OMEGA % fftM) (fftOMEGA_POWER / 2 ^ log2n)
  { log2n := log2n, n := n,
    twiddles := get_twiddles n (phi % fftM),
    itwiddles := get_twiddles n (iphi % fftM) }

def dif2 (x : List Nat) (i0 i1 w : Nat) : List Nat :=
  let a := x.getD i0 0
  let b := x.getD i1 0
  (x.set i0 (v2add a b)).set i1 (v2mul (v2sub a b) w)

def dit2 (x : List Nat) (i0 i1 w : Nat) : List Nat :=
  let a := x.getD i0 0
  let b := v2mul (x.getD i1 0) w
  (x.set i0 (v2add a b)).set i1 (v2sub a b)

def fftPass (tw : List Nat) (n logn : Nat) (dif : Bool) (x : List Nat)
    (j : Nat) : List Nat :=
  let s := logn - j - 1
  let l := 2 ^ j
  (List.range (2 ^ s)).foldl
    (fun x i =>
      let base := i * 2 ^ (j + 1)
      (List.range l).foldl
        (fun x k =>
          let w := tw.getD (k * 2 ^ s % n) 0
          if dif then dif2 x (base + k) (base + k + l) w
          else dit2 x (base + k) (base + k + l) w)
        x)
    x

def fftRun (f : Fft2) (x : List Nat) : List Nat :=
  (List.range f.log2n).foldl
    (fun x jp => fftPass f.twiddles f.n f.log2n true x
      (f.log2n - jp - 1)) x

def ifftRun (f : Fft2) (x : List Nat) : List Nat :=
  (List.range f.log2n).foldl
    (fun x jp => fftPass f.itwiddles f.n f.log2n false x jp) x

structure ImplActual2 where
  pattern_size : Nat
  n : Nat
  p0 : List Nat
  p1 : List Nat
  p2 : List Nat
  fft : Fft2
deriving Repr

def implActualNew (log2n : Nat) (pattern : List Nat) (wildcard : Nat) :
    Option ImplActual2 :=
  let n := 2 ^ log2n
  let fft := fft2New log2n
  if fftOMEGA_POWER / 2 ^ log2n = 0 then none
  else if ¬ pattern.length * 3 ≤ n then none
  else
    let p0 := (List.range pattern.length).foldl
      (fun acc i =>
        let c := pattern.getD i 0
        let active : Nat := if pattern.getD i 0 ≠ wildcard then 1 else 0
        acc ++ [v2add (acc.getD i 0) (c * c * active * n % fftM)])
      [0 % fftM]
    let p1 := ((List.range pattern.length).map
      (fun i =>
        let c := pattern.getD (pattern.length - i - 1) 0
        (if c ≠ wildcard then 1 else 0) % fftM)) ++
      List.replicate (n - pattern.length) 0
    let p2 := ((List.range pattern.length).map
      (fun i =>
        let c := pattern.getD (pattern.length - i - 1) 0
        c * (if c ≠ wildcard then 1 else 0) % fftM)) ++
      List.replicate (n - pattern.length) 0
    some { pattern_size := pattern.length, n := n,
           p0 := p0 ++ List.replicate (n - (pattern.length + 1)) 0,
           p1 := fftRun fft p1, p2 := fftRun fft p2, fft := fft }

def fftCompute (st : ImplActual2) (tt : List Nat) :
    List Nat × List Nat :=
  let t1 := tt.map (fun b => b * b % fftM) ++
    List.replicate (st.n - tt.length) 0
  let t2 := tt.map (fun b => b % fftM) ++
    List.replicate (st.n - tt.length) 0
  let t1 := fftRun st.fft t1
  let t2 := fftRun st.fft t2
  let t1 := (List.range st.n).map
    (fun i => v2mul (t1.getD i 0) (st.p1.getD i 0))
  let t2 := (List.range st.n).map
    (fun i => v2mul (t2.getD i 0) (st.p2.getD i 0))
  (ifftRun st.fft t1, ifftRun st.fft t2)

/-- One window of `ImplActual::iterate`: the first reported match
offset `j < max_j`, if any. -/
def fftWindowHit (st : ImplActual2) (tt : List Nat) (max_j : Nat) :
    Option Nat :=
  match fftCompute st tt with
  | (t1, t2) =>
    firstFrom
      (fun j =>
        let idx := j + (st.pattern_size - 1)
        let t1v := t1.getD idx 0
        let t2v := t2.getD idx 0
        let lhs := (t1v + 2 * fftM +
          (2 ^ 64 - 2 * t2v % 2 ^ 64)) % 2 ^ 64 % fftM
        let p0_idx := min (tt.length - j) st.pattern_size
        let rhs := (fftM + 2 ^ 32 - st.p0.getD p0_idx 0 % 2 ^ 32) % 2 ^ 32
        lhs == rhs)
      max_j 0

def fftIterLoop (st : ImplActual2) (text : List Nat)
    (ts match_start matchable limit : Nat) : Nat → Nat → Option Nat
  | 0, _ => none
  | fuel + 1, offset =>
    if offset < limit then
      let tt := (text.drop offset).take ts
      let remaining := tt.length - st.pattern_size + 1
      let max_j := min matchable remaining
      match fftWindowHit st tt max_j with
      | some j => some (offset + j)
      | none =>
        fftIterLoop st text ts match_start matchable limit fuel
          (offset + matchable)
    else none

def fft_find_first (st : ImplActual2) (text : List Nat) : Option Nat :=
  if text.length < st.pattern_size then none
  else
    let ts := st.n + 1 - st.pattern_size
    let match_start := st.pattern_size - 1
    let matchable := ts - st.pattern_size + 1
    let limit := text.length - st.pattern_size + 1
    fftIterLoop st text ts match_start matchable limit (limit + 1) 0

/-- `64 - v.leading_zeros()`: the binary length of a `u64`. -/
def bitLenAux : Nat → Nat → Nat
  | 0, _ => 0
  | fuel + 1, v => if v = 0 then 0 else bitLenAux fuel (v / 2) + 1

def bitLen (v : Nat) : Nat := bitLenAux 64 v

def fftStr1Build (pattern : List Nat) : Option ImplActual2 :=
  let required := pattern.length * 3
  if required ≤ 1 then none
  else
    let log2n := bitLen (required - 1)
    if 27 < log2n then none
    else implActualNew log2n pattern 95

def fftStr1_find (pattern text : List Nat) : Option Nat :=
  match fftStr1Build pattern with
  | none => none
  | some st => fft_find_first st text

/-! ## Claim C1: kernel parity with the naive scalar kernel -/

/-- Counterexample to C1: the k-mer kernel reports `Some 0` for pattern
`"AAAAA"` (k = 2, min_hits = 3) on the four-byte text `"AAAA"`, where
the naive kernel finds nothing (the repository's own
`test_partial_hits_threshold` documents this); and the FFT kernel
treats `_` as a wildcard, reporting `Some 2` for `"a_c"` on
`"zzabczz"` where the naive kernel finds nothing. -/
theorem kernel_parity_counterexample :
    (kmer_find_bytes (kmer_build ⟨[65, 65, 65, 65, 65], 2, 3⟩)
        [65, 65, 65, 65] = some 0 ∧
      naive_find_scalar [65, 65, 65, 65] [65, 65, 65, 65, 65] = none) ∧
    (fftStr1_find [97, 95, 99] [122, 122, 97, 98, 99, 122, 122] =
        some 2 ∧
      naive_find_scalar [122, 122, 97, 98, 99, 122, 122]
        [97, 95, 99] = none) :=
  ⟨⟨rfl, rfl⟩, by decide, rfl⟩

/-- C1 (amended): for byte-valued pattern and text, the `find_first`
results of the exact kernels — KMP, Boyer–Moore and LUT-short — equal
the naive scalar kernel's result.  The k-mer heuristic and the
wildcard-aware FFT kernel are excluded (see the counterexample). -/
theorem kernel_parity_exact (pattern text : List Nat)
    (htb : Bytes text) (hpb : Bytes pattern) :
    kmp_find text pattern = naive_find_scalar text pattern ∧
    bm_find text pattern = naive_find_scalar text pattern ∧
    find_ssse3 pattern text = naive_find_scalar text pattern :=
  ⟨kmp_find_eq_naive text pattern, bm_find_eq_naive text pattern htb hpb,
    find_ssse3_eq_naive pattern text hpb⟩

theorem kernel_parity_exact_witness :
    Bytes [122, 97, 98, 99] ∧ Bytes [97, 98] ∧
    (kmp_find [122, 97, 98, 99] [97, 98] =
        naive_find_scalar [122, 97, 98, 99] [97, 98] ∧
      bm_find [122, 97, 98, 99] [97, 98] =
        naive_find_scalar [122, 97, 98, 99] [97, 98] ∧
      find_ssse3 [97, 98] [122, 97, 98, 99] =
        naive_find_scalar [122, 97, 98, 99] [97, 98]) :=
  ⟨by decide, by decide,
    kernel_parity_exact [97, 98] [122, 97, 98, 99] (by decide) (by decide)⟩

/-! ## Claim C5: the empty pattern -/

/-- Counterexample to C5: with the empty pattern the k-mer kernel's map
is empty and `find_bytes` returns `none`, not `Some 0`; and
`FftStr1::build` panics ("pattern size too small") instead of
producing a searchable state. -/
theorem empty_pattern_counterexample :
    kmer_find_bytes (kmer_build ⟨[], 3, 1⟩) [97, 98, 99] = none ∧
    fftStr1Build [] = none :=
  ⟨rfl, rfl⟩

/-- C5 (amended): with the empty pattern the naive, KMP, Boyer–Moore
and LUT-short kernels return `find_first = Some 0` and
`find_all = [0, 1, …, |text|]` (as does the trait-default `find_all`
over any kernel reporting offset 0 on every suffix); the k-mer kernel
instead returns `none` and the `FftStr1` build fails. -/
theorem empty_pattern_behavior (text : List Nat) :
    naive_find_scalar text [] = some 0 ∧
    kmp_find text [] = some 0 ∧
    bm_find text [] = some 0 ∧
    find_ssse3 [] text = some 0 ∧
    naive_find_all_scalar text [] = List.range (text.length + 1) ∧
    kmp_find_all text [] = List.range (text.length + 1) ∧
    bm_find_all text [] = List.range (text.length + 1) ∧
    find_all_bytes (fun t => naive_find_scalar t []) text =
      List.range (text.length + 1) ∧
    (∀ cfg : KmerConfig, cfg.pattern = [] →
      kmer_find_bytes (kmer_build cfg) text = none) ∧
    fftStr1Build [] = none := by
  refine ⟨rfl, rfl, rfl, rfl, rfl, rfl, rfl, ?_, ?_, rfl⟩
  · exact find_all_bytes_empty text _ (fun c => rfl)
  · intro cfg hcfg
    have hmap : (kmer_build cfg).map = [] := by
      unfold kmer_build
      rw [hcfg]
      simp
      intro h1 h2
      omega
    unfold kmer_find_bytes
    rw [if_pos (Or.inl hmap)]

theorem empty_pattern_behavior_witness :
    naive_find_scalar [97, 98] [] = some 0 ∧
    kmer_find_bytes (kmer_build ⟨[], 3, 1⟩) [97, 98] = none :=
  ⟨(empty_pattern_behavior [97, 98]).1,
    (empty_pattern_behavior [97, 98]).2.2.2.2.2.2.2.2.1 ⟨[], 3, 1⟩ rfl⟩

/-! ## Claim C6: validity of `find_all` output -/

/-- Counterexample to C6: for pattern `"AAAAA"` (k = 2, min_hits = 3)
on text `"AAAA"` the k-mer kernel's `find_all_bytes` returns `[0]`,
but offset 0 is not an occurrence (the pattern is longer than the
text). -/
theorem find_all_validity_counterexample :
    kmer_find_all_bytes (kmer_build ⟨[65, 65, 65, 65, 65], 2, 3⟩)
        [65, 65, 65, 65] = [0] ∧
    ¬ occursAt [65, 65, 65, 65, 65] [65, 65, 65, 65] 0 :=
  ⟨by decide, by decide⟩

/-- C6 (amended): for non-empty byte patterns, the `find_all` output of
the naive, KMP and Boyer–Moore kernels, and of the trait-default
`find_all_bytes` over any first-occurrence-correct kernel, is strictly
increasing and contains exactly the true occurrences — so each entry is
the first occurrence at or after the previous entry plus one.  The
k-mer kernel is excluded (see the counterexample). -/
theorem find_all_validity (pattern text : List Nat) (hp : pattern ≠ [])
    (htb : Bytes text) (hpb : Bytes pattern)
    (find : List Nat → Option Nat)
    (hfind : ∀ c, find (text.drop c) = firstOcc pattern (text.drop c)) :
    ∀ L, (L = naive_find_all_scalar text pattern ∨
        L = kmp_find_all text pattern ∨
        L = bm_find_all text pattern ∨
        L = find_all_bytes find text) →
      List.Chain' (· < ·) L ∧
        ∀ i, i ∈ L ↔ occursAt pattern text i := by
  intro L hL
  have hnaive := naive_find_all_valid text pattern hp
  rcases hL with h | h | h | h
  · rw [h]; exact hnaive
  · rw [h, kmp_find_all_eq_naive]; exact hnaive
  · rw [h, bm_find_all_eq_naive text pattern htb hpb]; exact hnaive
  · rw [h, find_all_bytes_eq_naive pattern text hp find hfind]
    exact hnaive

theorem find_all_validity_witness :
    List.Chain' (· < ·) (kmp_find_all [98, 97] [97]) ∧
      ∀ i, i ∈ kmp_find_all [98, 97] [97] ↔ occursAt [97] [98, 97] i :=
  find_all_validity [97] [98, 97] (by decide) (by decide) (by decide)
    (fun t => kmp_find t [97]) (fun c => kmp_find_eq_firstOcc _ _)
    (kmp_find_all [98, 97] [97]) (Or.inr (Or.inl rfl))

/-! ## The trigram index (`algos/src/trigram_index.rs`)

The `HashMap<u32, Vec<u32>>` posting-list map is modelled as a function
`Nat → List Nat` (`[]` = absent key, as every insertion pushes);
`add`'s `seen` set makes each distinct trigram of a document append the
doc id once, which the functional update renders with a membership
test.  `sort_by_key(len)` is `mergeSort`; the two-pointer
`intersect_sorted` gets fuel `|a| + |b|`. -/

def trigrams (bytes : List Nat) : List Nat :=
  if bytes.length < 3 then []
  else
    (List.range (bytes.length - 3 + 1)).map (fun i =>
      Nat.lor (Nat.lor (bytes.getD i 0 <<< 16) (bytes.getD (i + 1) 0 <<< 8))
        (bytes.getD (i + 2) 0))

structure TrigramIndex where
  index : Nat → List Nat
  documents : List (List Nat)

def trigramEmpty : TrigramIndex := ⟨fun _ => [], []⟩

def trigramAdd (idx : TrigramIndex) (text : List Nat) : TrigramIndex :=
  { index := fun t =>
      if t ∈ trigrams text then idx.index t ++ [idx.documents.length]
      else idx.index t,
    documents := idx.documents ++ [text] }

def trigramBuild (docs : List (List Nat)) : TrigramIndex :=
  docs.foldl trigramAdd trigramEmpty

def isectLoop : Nat → List Nat → List Nat → List Nat
  | fuel + 1, a :: as, b :: bs =>
    if a = b then a :: isectLoop fuel as bs
    else if a < b then isectLoop fuel as (b :: bs)
    else isectLoop fuel (a :: as) bs
  | _, _, _ => []

def intersect_sorted (a b : List Nat) : List Nat :=
  isectLoop (a.length + b.length) a b

def collectLists (idx : TrigramIndex) : List Nat → Option (List (List Nat))
  | [] => some []
  | t :: ts =>
    if idx.index t = [] then none
    else
      match collectLists idx ts with
      | none => none
      | some rest => some (idx.index t :: rest)

def search_literal (idx : TrigramIndex) (literal : List Nat) :
    Option (List Nat) :=
  if trigrams literal = [] then none
  else
    match collectLists idx (trigrams literal) with
    | none => none
    | some lists =>
      match lists.mergeSort (fun a b => decide (a.length ≤ b.length)) with
      | [] => none
      | l0 :: rest => some (rest.foldl intersect_sorted l0)

/-! ### Trigram completeness -/

theorem isectLoop_sublist :
    ∀ (fuel : Nat) (a b : List Nat), List.Sublist (isectLoop fuel a b) a := by
  intro fuel
  induction fuel with
  | zero => intro a b; exact List.nil_sublist a
  | succ f ih =>
    intro a b
    cases a with
    | nil => exact List.nil_sublist _
    | cons va as =>
      cases b with
      | nil => exact List.nil_sublist _
      | cons vb bs =>
        rw [isectLoop]
        by_cases h1 : va = vb
        · rw [if_pos h1]
          exact List.Sublist.cons₂ va (ih as bs)
        · rw [if_neg h1]
          by_cases h2 : va < vb
          · rw [if_pos h2]
            exact (ih as (vb :: bs)).trans (List.sublist_cons_self va as)
          · rw [if_neg h2]
            exact ih (va :: as) bs

theorem isect_mem :
    ∀ (fuel : Nat) (a b : List Nat), List.Pairwise (· < ·) a →
      List.Pairwise (· < ·) b → a.length + b.length ≤ fuel →
      ∀ x, x ∈ a → x ∈ b → x ∈ isectLoop fuel a b := by
  intro fuel
  induction fuel with
  | zero =>
    intro a b _ _ hlen x hxa _
    have : a = [] := by
      cases a with
      | nil => rfl
      | cons _ _ => simp at hlen
    subst this
    cases hxa
  | succ f ih =>
    intro a b hpa hpb hlen x hxa hxb
    cases a with
    | nil => cases hxa
    | cons va as =>
      cases b with
      | nil => cases hxb
      | cons vb bs =>
        rw [isectLoop]
        by_cases h1 : va = vb
        · rw [if_pos h1]
          by_cases hx : x = va
          · rw [hx]
            exact List.mem_cons_self _ _
          · have hxa' : x ∈ as := by
              rcases List.mem_cons.mp hxa with h | h
              · exact absurd h hx
              · exact h
            have hxb' : x ∈ bs := by
              rcases List.mem_cons.mp hxb with h | h
              · rw [← h1] at h
                exact absurd h hx
              · exact h
            exact List.mem_cons_of_mem _
              (ih as bs (List.Pairwise.sublist (List.sublist_cons_self _ _) hpa)
                (List.Pairwise.sublist (List.sublist_cons_self _ _) hpb)
                (by simp at hlen ⊢; omega) x hxa' hxb')
        · rw [if_neg h1]
          have hvbx : vb ≤ x := by
            rcases List.mem_cons.mp hxb with h | h
            · omega
            · have := (List.pairwise_cons.mp hpb).1 x h
              omega
          by_cases h2 : va < vb
          · rw [if_pos h2]
            have hxa' : x ∈ as := by
              rcases List.mem_cons.mp hxa with h | h
              · omega
              · exact h
            exact ih as (vb :: bs)
              (List.Pairwise.sublist (List.sublist_cons_self _ _) hpa) hpb
              (by simp at hlen ⊢; omega) x hxa' hxb
          · rw [if_neg h2]
            have hvax : va ≤ x := by
              rcases List.mem_cons.mp hxa with h | h
              · omega
              · have := (List.pairwise_cons.mp hpa).1 x h
                omega
            have hxb' : x ∈ bs := by
              rcases List.mem_cons.mp hxb with h | h
              · omega
              · exact h
            exact ih (va :: as) bs hpa
              (List.Pairwise.sublist (List.sublist_cons_self _ _) hpb)
              (by simp at hlen ⊢; omega) x hxa hxb'

/-- A document containing the literal contains all its trigrams. -/
theorem trigrams_mono {literal doc : List Nat} {s : Nat}
    (h3 : 3 ≤ literal.length) (hocc : occursAt literal doc s) :
    ∀ t ∈ trigrams literal, t ∈ trigrams doc := by
  intro t ht
  have hple : literal ≠ [] := by
    intro h
    rw [h] at h3
    simp at h3
  have hlen := occursAt_le_length hple hocc
  unfold trigrams at ht ⊢
  rw [if_neg (by omega)] at ht
  rw [if_neg (by omega)]
  obtain ⟨j, hj, hkey⟩ := List.mem_map.mp ht
  rw [List.mem_range] at hj
  refine List.mem_map.mpr ⟨s + j, List.mem_range.mpr (by omega), ?_⟩
  have e0 := occursAt_getD hocc (show j < literal.length by omega)
  have e1 := occursAt_getD hocc (show j + 1 < literal.length by omega)
  have e2 := occursAt_getD hocc (show j + 2 < literal.length by omega)
  rw [← hkey]
  rw [show s + j + 1 = s + (j + 1) by omega,
    show s + j + 2 = s + (j + 2) by omega]
  rw [← e0, ← e1, ← e2]

structure TrigInv (idx : TrigramIndex) : Prop where
  sorted : ∀ t, List.Pairwise (· < ·) (idx.index t)
  bounded : ∀ t x, x ∈ idx.index t → x < idx.documents.length
  complete : ∀ t i, i < idx.documents.length →
    t ∈ trigrams (idx.documents.getD i []) → i ∈ idx.index t

theorem trigramAdd_inv {idx : TrigramIndex} (text : List Nat)
    (h : TrigInv idx) : TrigInv (trigramAdd idx text) := by
  refine ⟨?_, ?_, ?_⟩
  · intro t
    show List.Pairwise (· < ·)
      (if t ∈ trigrams text then idx.index t ++ [idx.documents.length]
        else idx.index t)
    by_cases hmem : t ∈ trigrams text
    · rw [if_pos hmem]
      rw [List.pairwise_append]
      refine ⟨h.sorted t, by simp, ?_⟩
      intro x hx y hy
      rw [List.mem_singleton] at hy
      rw [hy]
      exact h.bounded t x hx
    · rw [if_neg hmem]
      exact h.sorted t
  · intro t x hx
    show x < (idx.documents ++ [text]).length
    rw [List.length_append]
    by_cases hmem : t ∈ trigrams text
    · rw [show (trigramAdd idx text).index t =
          idx.index t ++ [idx.documents.length] from if_pos hmem] at hx
      rcases List.mem_append.mp hx with h1 | h1
      · have := h.bounded t x h1
        simp
        omega
      · rw [List.mem_singleton] at h1
        simp
        omega
    · rw [show (trigramAdd idx text).index t = idx.index t from
        if_neg hmem] at hx
      have := h.bounded t x hx
      simp
      omega
  · intro t i hi hmem
    have hlen : (trigramAdd idx text).documents.length =
        idx.documents.length + 1 := by
      show (idx.documents ++ [text]).length = _
      simp
    rw [hlen] at hi
    show i ∈ (if t ∈ trigrams text then
      idx.index t ++ [idx.documents.length] else idx.index t)
    by_cases hio : i < idx.documents.length
    · have hdoc : (trigramAdd idx text).documents.getD i [] =
          idx.documents.getD i [] := by
        show (idx.documents ++ [text]).getD i [] = _
        exact List.getD_append _ _ _ _ hio
      rw [hdoc] at hmem
      have hold := h.complete t i hio hmem
      by_cases ht : t ∈ trigrams text
      · rw [if_pos ht]
        exact List.mem_append_left _ hold
      · rw [if_neg ht]
        exact hold
    · have hie : i = idx.documents.length := by omega
      have hdoc : (trigramAdd idx text).documents.getD i [] = text := by
        show (idx.documents ++ [text]).getD i [] = text
        rw [List.getD_append_right _ _ _ _ (by omega), hie]
        simp
      rw [hdoc] at hmem
      rw [if_pos hmem, hie]
      exact List.mem_append_right _ (List.mem_singleton.mpr rfl)

theorem trigramBuild_inv (docs : List (List Nat)) :
    TrigInv (trigramBuild docs) ∧
      (trigramBuild docs).documents = docs := by
  have hgen : ∀ (ds : List (List Nat)) (idx : TrigramIndex),
      TrigInv idx → TrigInv (ds.foldl trigramAdd idx) ∧
        (ds.foldl trigramAdd idx).documents = idx.documents ++ ds := by
    intro ds
    induction ds with
    | nil => intro idx hidx; exact ⟨hidx, by simp⟩
    | cons d ds ih =>
      intro idx hidx
      have h2 := ih (trigramAdd idx d) (trigramAdd_inv d hidx)
      refine ⟨h2.1, ?_⟩
      rw [List.foldl_cons, h2.2]
      show (idx.documents ++ [d]) ++ ds = idx.documents ++ d :: ds
      simp
  have hempty : TrigInv trigramEmpty := by
    refine ⟨?_, ?_, ?_⟩
    · intro t
      exact List.Pairwise.nil
    · intro t x hx
      cases hx
    · intro t i hi _
      simp [trigramEmpty] at hi
  have hres := hgen docs trigramEmpty hempty
  exact ⟨hres.1, by simpa using hres.2⟩

theorem collectLists_some {idx : TrigramIndex} :
    ∀ ts : List Nat, (∀ t ∈ ts, idx.index t ≠ []) →
      collectLists idx ts = some (ts.map idx.index) := by
  intro ts
  induction ts with
  | nil => intro _; rfl
  | cons t ts ih =>
    intro h
    rw [collectLists]
    rw [if_neg (h t (by simp))]
    rw [ih (fun t' ht' => h t' (by simp [ht']))]
    rfl

/-- C7: every document that contains a literal of length ≥ 3 has its
doc id in the result of `search_literal`, which in particular returns
`Some`. -/
theorem trigram_completeness (docs : List (List Nat))
    (literal : List Nat) (h3 : 3 ≤ literal.length) (i : Nat)
    (hi : i < docs.length)
    (hcont : ∃ s, occursAt literal (docs.getD i []) s) :
    ∃ res, search_literal (trigramBuild docs) literal = some res ∧
      i ∈ res := by
  obtain ⟨s, hocc⟩ := hcont
  obtain ⟨hinv, hdocs⟩ := trigramBuild_inv docs
  have hmem : ∀ t ∈ trigrams literal,
      i ∈ (trigramBuild docs).index t := by
    intro t ht
    refine hinv.complete t i (by rw [hdocs]; exact hi) ?_
    rw [hdocs]
    exact trigrams_mono h3 hocc t ht
  have hg : trigrams literal ≠ [] := by
    unfold trigrams
    rw [if_neg (by omega)]
    simp
  unfold search_literal
  rw [if_neg hg]
  rw [collectLists_some (trigrams literal)
    (fun t ht he => by
      have := hmem t ht
      rw [he] at this
      cases this)]
  simp only []
  have hperm := List.mergeSort_perm
    ((trigrams literal).map (trigramBuild docs).index)
    (fun a b => decide (a.length ≤ b.length))
  have hprops : ∀ l ∈ ((trigrams literal).map
      (trigramBuild docs).index).mergeSort
        (fun a b => decide (a.length ≤ b.length)),
      i ∈ l ∧ List.Pairwise (· < ·) l := by
    intro l hl
    have hl' := hperm.mem_iff.mp hl
    obtain ⟨t, ht, hlt⟩ := List.mem_map.mp hl'
    rw [← hlt]
    exact ⟨hmem t ht, hinv.sorted t⟩
  cases hms : ((trigrams literal).map (trigramBuild docs).index).mergeSort
      (fun a b => decide (a.length ≤ b.length)) with
  | nil =>
    exfalso
    have hlen := hperm.length_eq
    rw [hms] at hlen
    simp only [List.length_nil, List.length_map] at hlen
    exact hg (List.length_eq_zero.mp hlen.symm)
  | cons l0 rest =>
    refine ⟨rest.foldl intersect_sorted l0, rfl, ?_⟩
    have hstep := foldl_inv intersect_sorted
      (fun r => i ∈ r ∧ List.Pairwise (· < ·) r) rest l0
      (hprops l0 (hms ▸ List.mem_cons_self _ _))
      (fun r l hr hl => by
        obtain ⟨hil, hpl⟩ := hprops l (hms ▸ List.mem_cons_of_mem _ hl)
        constructor
        · exact isect_mem _ r l hr.2 hpl (le_refl _) i hr.1 hil
        · exact List.Pairwise.sublist (isectLoop_sublist _ r l) hr.2)
    exact hstep.1

theorem trigram_completeness_witness :
    ∃ res, search_literal (trigramBuild
      [[97, 112, 112, 108, 101],
       [97, 112, 112, 108, 101, 116],
       [112, 105, 110, 101, 97, 112, 112, 108, 101],
       [97, 112, 112, 108, 105, 99, 97, 116, 105, 111, 110],
       [98, 97, 110, 97, 110, 97],
       [98, 97, 110, 100, 97, 110, 97]])
      [97, 112, 112, 108] = some res ∧ 2 ∈ res :=
  trigram_completeness
    [[97, 112, 112, 108, 101],
     [97, 112, 112, 108, 101, 116],
     [112, 105, 110, 101, 97, 112, 112, 108, 101],
     [97, 112, 112, 108, 105, 99, 97, 116, 105, 111, 110],
     [98, 97, 110, 97, 110, 97],
     [98, 97, 110, 100, 97, 110, 97]]
    [97, 112, 112, 108] (by decide) 2 (by decide) ⟨4, by decide⟩

/-! ## The FM-index (`algos/src/fm_index.rs`)

The corpus gets a sentinel byte appended; the suffix array is the
naive sort of all suffix start offsets by byte-slice order (`lexLe`
renders `<[u8]>::cmp`), and `backward_search` narrows an interval of
suffix-array positions with the `C` array and checkpointed `Occ`
counts.  `new`'s panics (separator equal to the sentinel, sentinel
occurring in the text, a missing rank) become `none`.  The `u32`
occurrence counters reduce modulo `2^32`. -/

def lexLe : List Nat → List Nat → Bool
  | [], _ => true
  | _ :: _, [] => false
  | a :: as, b :: bs =>
    if a < b then true else if b < a then false else lexLe as bs

def lexLt : List Nat → List Nat → Bool
  | [], [] => false
  | [], _ :: _ => true
  | _ :: _, [] => false
  | a :: as, b :: bs =>
    if a < b then true else if b < a then false else lexLt as bs

def build_suffix_array (text : List Nat) : List Nat :=
  (List.range text.length).mergeSort
    (fun a b => lexLe (text.drop a) (text.drop b))

def build_bwt (text : List Nat) (sa : List Nat) (sentinel : Nat) :
    List Nat :=
  sa.map (fun pos => if pos = 0 then sentinel else text.getD (pos - 1) 0)

def counts_by_byte (text : List Nat) : List Nat :=
  text.foldl (fun cbb b => cbb.set b (cbb.getD b 0 + 1))
    (List.replicate 256 0)

def build_alphabet (text : List Nat) :
    List Int × List Nat × List Nat :=
  let cbb := counts_by_byte text
  (List.range 256).foldl
    (fun st b =>
      let count := cbb.getD b 0
      if count = 0 then st
      else (st.1.set b (st.2.1.length : Int), st.2.1 ++ [b],
        st.2.2 ++ [count]))
    (List.replicate 256 (-1), [], [])

def build_c (counts : List Nat) : List Nat :=
  (counts.foldl (fun (acc : List Nat × Nat) count =>
    (acc.1 ++ [acc.2], acc.2 + count)) ([], 0)).1

def remap_bwt (byte_to_rank : List Int) : List Nat → Option (List Nat)
  | [] => some []
  | b :: rest =>
    let rank := byte_to_rank.getD b (-1)
    if rank < 0 then none
    else
      match remap_bwt byte_to_rank rest with
      | none => none
      | some out => some (rank.toNat :: out)

def buildOccLoop (cp : Nat) :
    List Nat → Nat → List Nat → List (List Nat) →
      List (List Nat) × List Nat
  | [], _, counts, occ => (occ, counts)
  | r :: rest, idx, counts, occ =>
    let counts' := counts.set r ((counts.getD r 0 + 1) % 2 ^ 32)
    let occ' := if (idx + 1) % cp = 0 then occ ++ [counts'] else occ
    buildOccLoop cp rest (idx + 1) counts' occ'

def build_occ (bwt : List Nat) (sigma cp : Nat) : List (List Nat) :=
  match buildOccLoop cp bwt 0 (List.replicate sigma 0)
      [List.replicate sigma 0] with
  | (occ, counts) =>
    if bwt.length % cp ≠ 0 then occ ++ [counts] else occ

structure FMIndexL where
  text : List Nat
  sa : List Nat
  bwt : List Nat
  c : List Nat
  counts : List Nat
  occ : List (List Nat)
  checkpoint : Nat
  byte_to_rank : List Int
  rank_to_byte : List Nat
deriving Repr

def fmIndexNew (text0 : List Nat) (sentinel : Nat)
    (separator : Option Nat) : Option FMIndexL :=
  if separator = some sentinel then none
  else if sentinel ∈ text0 then none
  else
    let text := text0 ++ [sentinel]
    let sa := build_suffix_array text
    let bwt0 := build_bwt text sa sentinel
    match build_alphabet text with
    | (byte_to_rank, rank_to_byte, counts) =>
      if byte_to_rank.getD sentinel (-1) < 0 then none
      else
        match remap_bwt byte_to_rank bwt0 with
        | none => none
        | some bwt =>
          some { text := text, sa := sa, bwt := bwt,
                 c := build_c counts, counts := counts,
                 occ := build_occ bwt counts.length 128,
                 checkpoint := 128, byte_to_rank := byte_to_rank,
                 rank_to_byte := rank_to_byte }

def rank_for_byte (fm : FMIndexL) (ch : Nat) : Option Nat :=
  let rank := fm.byte_to_rank.getD ch (-1)
  if rank < 0 then none else some rank.toNat

def occ_at (fm : FMIndexL) (rank index : Nat) : Nat :=
  let capped := min index fm.text.length
  let base_idx := capped / fm.checkpoint
  let base_pos := base_idx * fm.checkpoint
  (fm.occ.getD base_idx []).getD rank 0 +
    (((fm.bwt.drop base_pos).take (capped - base_pos)).filter
      (fun r => r == rank)).length

def bsLoop (fm : FMIndexL) : List Nat → Nat → Nat → Option (Nat × Nat)
  | [], top, bottom => some (top, bottom)
  | ch :: rest, top, bottom =>
    match rank_for_byte fm ch with
    | none => none
    | some rank =>
      if fm.counts.getD rank 0 = 0 then none
      else
        let top' := fm.c.getD rank 0 + occ_at fm rank top
        let bottom' := fm.c.getD rank 0 + occ_at fm rank bottom
        if bottom' ≤ top' then none
        else bsLoop fm rest top' bottom'

def backward_search (fm : FMIndexL) (pattern : List Nat) :
    Option (Nat × Nat) :=
  if pattern = [] then some (0, fm.text.length)
  else bsLoop fm pattern.reverse 0 fm.text.length

def fm_search (fm : FMIndexL) (pattern : List Nat) : List Nat :=
  match backward_search fm pattern with
  | some (top, bottom) => sortNat ((fm.sa.drop top).take (bottom - top))
  | none => []

/-! ### Byte-slice order: basic laws -/

theorem lexLe_eq_not_lexLt : ∀ u v : List Nat, lexLe u v = !lexLt v u := by
  intro u
  induction u with
  | nil =>
    intro v
    cases v with
    | nil => rfl
    | cons b bs => rfl
  | cons a as ih =>
    intro v
    cases v with
    | nil => rfl
    | cons b bs =>
      rw [lexLe, lexLt]
      by_cases h1 : a < b
      · rw [if_pos h1, if_neg (show ¬ b < a by omega), if_pos h1]
        rfl
      · rw [if_neg h1]
        by_cases h2 : b < a
        · rw [if_pos h2, if_pos h2]
          rfl
        · rw [if_neg h2, if_neg h2, if_neg h1]
          exact ih bs

theorem lexLt_irrefl : ∀ u : List Nat, lexLt u u = false := by
  intro u
  induction u with
  | nil => rfl
  | cons a as ih =>
    rw [lexLt, if_neg (by omega), if_neg (by omega)]
    exact ih

theorem lexLt_trans : ∀ u v w : List Nat, lexLt u v = true →
    lexLt v w = true → lexLt u w = true := by
  intro u
  induction u with
  | nil =>
    intro v w h1 h2
    cases v with
    | nil => cases h1
    | cons b bs =>
      cases w with
      | nil => cases h2
      | cons c cs => rfl
  | cons a as ih =>
    intro v w h1 h2
    cases v with
    | nil => cases h1
    | cons b bs =>
      cases w with
      | nil => cases h2
      | cons c cs =>
        rw [lexLt] at h1 h2 ⊢
        by_cases hab : a < b
        · rw [if_pos hab] at h1
          by_cases hbc : b < c
          · rw [if_pos hbc] at h2
            rw [if_pos (by omega)]
          · rw [if_neg hbc] at h2
            by_cases hcb : c < b
            · rw [if_pos hcb] at h2
              cases h2
            · rw [if_neg hcb] at h2
              rw [if_pos (by omega)]
        · rw [if_neg hab] at h1
          by_cases hba : b < a
          · rw [if_pos hba] at h1
            cases h1
          · rw [if_neg hba] at h1
            by_cases hbc : b < c
            · rw [if_pos hbc] at h2
              rw [if_pos (by omega)]
            · rw [if_neg hbc] at h2
              by_cases hcb : c < b
              · rw [if_pos hcb] at h2
                cases h2
              · rw [if_neg hcb] at h2
                rw [if_neg (by omega), if_neg (by omega)]
                exact ih bs cs h1 h2

theorem lexLt_trichotomy : ∀ u v : List Nat,
    lexLt u v = true ∨ u = v ∨ lexLt v u = true := by
  intro u
  induction u with
  | nil =>
    intro v
    cases v with
    | nil => right; left; rfl
    | cons b bs => left; rfl
  | cons a as ih =>
    intro v
    cases v with
    | nil => right; right; rfl
    | cons b bs =>
      by_cases hab : a < b
      · left
        rw [lexLt, if_pos hab]
      · by_cases hba : b < a
        · right; right
          rw [lexLt, if_pos hba]
        · have he : a = b := by omega
          subst he
          rcases ih bs with h | h | h
          · left
            rw [lexLt, if_neg (by omega), if_neg (by omega)]
            exact h
          · right; left
            rw [h]
          · right; right
            rw [lexLt, if_neg (by omega), if_neg (by omega)]
            exact h

theorem lexLt_asymm {u v : List Nat} (h : lexLt u v = true) :
    lexLt v u = false := by
  by_contra hc
  rw [Bool.not_eq_false] at hc
  have := lexLt_trans u v u h hc
  rw [lexLt_irrefl] at this
  cases this

theorem lexLe_trans' : ∀ (a b c : List Nat), lexLe a b → lexLe b c →
    lexLe a c := by
  intro a b c h1 h2
  rw [lexLe_eq_not_lexLt, Bool.not_eq_true'] at h1 h2 ⊢
  by_contra hc
  rw [Bool.not_eq_false] at hc
  rcases lexLt_trichotomy a b with h | h | h
  · have := lexLt_trans c a b hc h
    rw [h2] at this
    cases this
  · subst h
    rw [h2] at hc
    cases hc
  · rw [h1] at h
    cases h

theorem lexLe_total' : ∀ (a b : List Nat), lexLe a b || lexLe b a := by
  intro a b
  rw [lexLe_eq_not_lexLt, lexLe_eq_not_lexLt]
  rcases lexLt_trichotomy a b with h | h | h
  · rw [lexLt_asymm h]
    simp
  · subst h
    rw [lexLt_irrefl]
    simp
  · rw [lexLt_asymm h]
    simp

theorem lexLt_of_lexLe_ne {u v : List Nat} (h1 : lexLe u v = true)
    (h2 : u ≠ v) : lexLt u v = true := by
  rw [lexLe_eq_not_lexLt, Bool.not_eq_true'] at h1
  rcases lexLt_trichotomy u v with h | h | h
  · exact h
  · exact absurd h h2
  · rw [h1] at h
    cases h

theorem lexLt_prefix_false : ∀ q u : List Nat, q <+: u →
    lexLt u q = false := by
  intro q
  induction q with
  | nil =>
    intro u _
    cases u with
    | nil => rfl
    | cons a as => rfl
  | cons c q' ih =>
    intro u hpre
    obtain ⟨rest, hrest⟩ := hpre
    subst hrest
    rw [List.cons_append, lexLt, if_neg (by omega), if_neg (by omega)]
    exact ih (q' ++ rest) ⟨rest, rfl⟩

theorem not_prefix_of_lexLt {q u : List Nat} (h : lexLt u q = true) :
    ¬ q <+: u := by
  intro hp
  rw [lexLt_prefix_false q u hp] at h
  cases h

/-- Outside the `q`-prefixed block, comparison against any `q`-prefixed
string is comparison against `q` itself. -/
theorem lexLt_iff_of_not_prefixed :
    ∀ q u w : List Nat, ¬ q <+: u → q <+: w →
      (lexLt u w = true ↔ lexLt u q = true) := by
  intro q
  induction q with
  | nil => intro u w h _; exact absurd List.nil_prefix h
  | cons c q' ih =>
    intro u w hnp hpw
    obtain ⟨rest, hrest⟩ := hpw
    subst hrest
    cases u with
    | nil => constructor <;> intro _ <;> rfl
    | cons a as =>
      rw [List.cons_append, lexLt, lexLt]
      by_cases hac : a < c
      · rw [if_pos hac, if_pos hac]
      · rw [if_neg hac, if_neg hac]
        by_cases hca : c < a
        · rw [if_pos hca, if_pos hca]
        · rw [if_neg hca, if_neg hca]
          have hae : a = c := by omega
          subst hae
          refine ih as (q' ++ rest) ?_ ⟨rest, rfl⟩
          intro hp
          exact hnp (List.cons_prefix_cons.mpr ⟨rfl, hp⟩)

theorem lexLt_cons_cons {a c : Nat} {u q : List Nat} :
    lexLt (a :: u) (c :: q) = true ↔
      a < c ∨ (a = c ∧ lexLt u q = true) := by
  rw [lexLt]
  by_cases h1 : a < c
  · rw [if_pos h1]
    simp [h1]
  · rw [if_neg h1]
    by_cases h2 : c < a
    · rw [if_pos h2]
      constructor
      · intro h; cases h
      · intro h
        rcases h with h | ⟨h, _⟩ <;> omega
    · rw [if_neg h2]
      have he : a = c := by omega
      subst he
      simp

/-! ### Sorted three-block decomposition

In a strictly sorted list whose elements fall into three classes that
are themselves ordered (`A` before `B` before the rest), the list is
its `A`-part, then its `B`-part, then the rest. -/

theorem sorted_three_blocks {S : Nat → Nat → Prop} {A B : Nat → Bool}
    (hasym : ∀ x y, S x y → ¬ S y x)
    (hAB : ∀ x y, A x = true → B y = true → S x y)
    (hAC : ∀ x y, A x = true → A y = false → B y = false → S x y)
    (hBC : ∀ x y, B x = true → A y = false → B y = false → S x y)
    (hdisj : ∀ x, A x = true → B x = true → False) :
    ∀ xs : List Nat, List.Pairwise S xs →
      xs = xs.filter A ++ xs.filter B ++
        xs.filter (fun x => !A x && !B x) := by
  intro xs
  induction xs with
  | nil => intro _; rfl
  | cons x rest ih =>
    intro hp
    obtain ⟨hhead, htail⟩ := List.pairwise_cons.mp hp
    have hrest := ih htail
    by_cases hA : A x = true
    · rw [List.filter_cons_of_pos hA,
        List.filter_cons_of_neg (by
          intro hB
          exact hdisj x hA hB),
        List.filter_cons_of_neg (by rw [hA]; simp)]
      rw [List.cons_append, List.cons_append]
      rw [← hrest]
    · have hA' : A x = false := by
        rw [Bool.not_eq_true] at hA
        exact hA
      by_cases hB : B x = true
      · have hfA : rest.filter A = [] := by
          rw [List.filter_eq_nil]
          intro a ha hAa
          exact hasym a x (hAB a x hAa hB) (hhead a ha)
        rw [List.filter_cons_of_neg (by rw [hA']; simp),
          List.filter_cons_of_pos hB,
          List.filter_cons_of_neg (by rw [hB]; simp), hfA]
        conv_lhs => rw [hrest]
        rw [hfA]
        rfl
      · have hB' : B x = false := by
          rw [Bool.not_eq_true] at hB
          exact hB
        have hfA : rest.filter A = [] := by
          rw [List.filter_eq_nil]
          intro a ha hAa
          exact hasym a x (hAC a x hAa hA' hB') (hhead a ha)
        have hfB : rest.filter B = [] := by
          rw [List.filter_eq_nil]
          intro a ha hBa
          exact hasym a x (hBC a x hBa hA' hB') (hhead a ha)
        rw [List.filter_cons_of_neg (by rw [hA']; simp),
          List.filter_cons_of_neg (by rw [hB']; simp),
          List.filter_cons_of_pos (by rw [hA', hB']; rfl), hfA, hfB]
        conv_lhs => rw [hrest]
        rw [hfA, hfB]
        rfl

theorem getD_mem {l : List Nat} {k : Nat} (h : k < l.length) (d : Nat) :
    l.getD k d ∈ l := by
  rw [List.getD_eq_getElem?_getD, List.getElem?_eq_getElem h]
  exact List.getElem_mem h

/-- Position characterization for a three-block list. -/
theorem three_blocks_getD {XA XB XC : List Nat} {A B : Nat → Bool}
    (hA : ∀ x ∈ XA, A x = true) (hB : ∀ x ∈ XB, B x = true)
    (hC : ∀ x ∈ XC, A x = false ∧ B x = false)
    (hdisj : ∀ x, A x = true → B x = true → False) :
    ∀ k, k < (XA ++ XB ++ XC).length →
      (A ((XA ++ XB ++ XC).getD k 0) = true ↔ k < XA.length) ∧
      ((A ((XA ++ XB ++ XC).getD k 0) = true ∨
        B ((XA ++ XB ++ XC).getD k 0) = true) ↔
        k < XA.length + XB.length) := by
  intro k hk
  rw [List.length_append, List.length_append] at hk
  rcases Nat.lt_or_ge k XA.length with h1 | h1
  · have hget : (XA ++ XB ++ XC).getD k 0 = XA.getD k 0 := by
      rw [List.getD_append _ _ _ _ (by rw [List.length_append]; omega),
        List.getD_append _ _ _ _ h1]
    rw [hget]
    have hx := hA _ (getD_mem h1 0)
    constructor
    · constructor
      · intro _; exact h1
      · intro _; exact hx
    · constructor
      · intro _; omega
      · intro _; exact Or.inl hx
  · rcases Nat.lt_or_ge k (XA.length + XB.length) with h2 | h2
    · have hget : (XA ++ XB ++ XC).getD k 0 =
          XB.getD (k - XA.length) 0 := by
        rw [List.getD_append _ _ _ _ (by rw [List.length_append]; omega),
          List.getD_append_right _ _ _ _ h1]
      rw [hget]
      have hx := hB _ (getD_mem (show k - XA.length < XB.length by omega) 0)
      constructor
      · constructor
        · intro hAx
          exact absurd hx (fun hBx => hdisj _ hAx hBx)
        · intro h; omega
      · constructor
        · intro _; exact h2
        · intro _; exact Or.inr hx
    · have hget : (XA ++ XB ++ XC).getD k 0 =
          XC.getD (k - (XA.length + XB.length)) 0 := by
        rw [List.getD_append_right _ _ _ _
            (by rw [List.length_append]; omega)]
        rw [List.length_append]
      rw [hget]
      have hx := hC _ (getD_mem
        (show k - (XA.length + XB.length) < XC.length by omega) 0)
      constructor
      · constructor
        · intro hAx
          rw [hx.1] at hAx
          cases hAx
        · intro h; omega
      · constructor
        · intro hor
          rcases hor with h | h
          · rw [hx.1] at h; cases h
          · rw [hx.2] at h; cases h
        · intro h; omega

/-! ### Suffix-array facts -/

def cntL (t q : List Nat) : Nat :=
  ((List.range t.length).filter (fun j => lexLt (t.drop j) q)).length

def cntP (t q : List Nat) : Nat :=
  ((List.range t.length).filter (fun j => q.isPrefixOf (t.drop j))).length

theorem sa_perm (t : List Nat) :
    List.Perm (build_suffix_array t) (List.range t.length) :=
  List.mergeSort_perm _ _

theorem sa_length (t : List Nat) :
    (build_suffix_array t).length = t.length := by
  rw [(sa_perm t).length_eq, List.length_range]

theorem sa_mem {t : List Nat} {j : Nat} :
    j ∈ build_suffix_array t ↔ j < t.length := by
  rw [(sa_perm t).mem_iff, List.mem_range]

theorem sa_nodup (t : List Nat) : (build_suffix_array t).Nodup :=
  ((sa_perm t).nodup_iff).mpr (List.nodup_range _)

theorem drop_injective {t : List Nat} {a b : Nat} (ha : a < t.length)
    (hb : b < t.length) (h : t.drop a = t.drop b) : a = b := by
  have := congrArg List.length h
  rw [List.length_drop, List.length_drop] at this
  omega

theorem sa_sorted_lt (t : List Nat) :
    List.Pairwise (fun a b => lexLt (t.drop a) (t.drop b) = true)
      (build_suffix_array t) := by
  have hle : List.Pairwise
      (fun a b => lexLe (t.drop a) (t.drop b) = true)
      (build_suffix_array t) :=
    @List.sorted_mergeSort Nat
      (fun a b => lexLe (t.drop a) (t.drop b))
      (fun a b c h1 h2 => lexLe_trans' _ _ _ h1 h2)
      (fun a b => lexLe_total' _ _) (List.range t.length)
  have hne : List.Pairwise (· ≠ ·) (build_suffix_array t) := sa_nodup t
  refine (hle.and hne).imp_of_mem ?_
  intro a b ha hb hab
  refine lexLt_of_lexLe_ne hab.1 ?_
  intro he
  exact hab.2 (drop_injective (sa_mem.mp ha) (sa_mem.mp hb) he)

/-- The suffix array decomposed into the suffixes below `q`, the
`q`-prefixed suffixes, and the rest, in order. -/
theorem sa_decomp (t q : List Nat) :
    build_suffix_array t =
      (build_suffix_array t).filter (fun j => lexLt (t.drop j) q) ++
        (build_suffix_array t).filter
          (fun j => q.isPrefixOf (t.drop j)) ++
        (build_suffix_array t).filter (fun x => !lexLt (t.drop x) q &&
          !q.isPrefixOf (t.drop x)) := by
  have hdisj : ∀ x, lexLt (t.drop x) q = true →
      q.isPrefixOf (t.drop x) = true → False := by
    intro x h1 h2
    exact not_prefix_of_lexLt h1 (List.isPrefixOf_iff_prefix.mp h2)
  exact sorted_three_blocks
    (S := fun a b => lexLt (t.drop a) (t.drop b) = true)
    (A := fun j => lexLt (t.drop j) q)
    (B := fun j => q.isPrefixOf (t.drop j))
    (fun x y h => by
      simp only [] at h ⊢
      rw [lexLt_asymm h]
      simp)
    (fun x y hx hy => by
      simp only [] at hx hy ⊢
      rw [lexLt_iff_of_not_prefixed q (t.drop x) (t.drop y)
        (not_prefix_of_lexLt hx) (List.isPrefixOf_iff_prefix.mp hy)]
      exact hx)
    (fun x y hx hy1 hy2 => by
      simp only [] at hx hy1 hy2 ⊢
      rcases lexLt_trichotomy (t.drop y) q with h | h | h
      · rw [h] at hy1; cases hy1
      · exfalso
        rw [Bool.eq_false_iff] at hy2
        apply hy2
        rw [List.isPrefixOf_iff_prefix, h]
      · exact lexLt_trans _ _ _ hx h)
    (fun x y hx hy1 hy2 => by
      simp only [] at hx hy1 hy2 ⊢
      have hnp : ¬ q <+: t.drop y := by
        intro hp
        rw [Bool.eq_false_iff] at hy2
        exact hy2 (List.isPrefixOf_iff_prefix.mpr hp)
      have hiff := lexLt_iff_of_not_prefixed q (t.drop y) (t.drop x) hnp
        (List.isPrefixOf_iff_prefix.mp hx)
      have hne : t.drop y ≠ t.drop x := by
        intro he
        rw [← he] at hx
        exact hnp (List.isPrefixOf_iff_prefix.mp hx)
      rcases lexLt_trichotomy (t.drop y) (t.drop x) with h | h | h
      · rw [hiff] at h
        rw [h] at hy1
        cases hy1
      · exact absurd h hne
      · exact h)
    hdisj (build_suffix_array t) (sa_sorted_lt t)

/-- The sorted position of a suffix against query `q`: positions below
`cntL` are exactly the lexicographically smaller suffixes, positions
below `cntL + cntP` additionally the `q`-prefixed ones. -/
theorem sa_pos (t q : List Nat) :
    ∀ k, k < t.length →
      (lexLt (t.drop ((build_suffix_array t).getD k 0)) q = true ↔
        k < cntL t q) ∧
      ((lexLt (t.drop ((build_suffix_array t).getD k 0)) q = true ∨
        q.isPrefixOf (t.drop ((build_suffix_array t).getD k 0)) = true) ↔
        k < cntL t q + cntP t q) := by
  have hdisj : ∀ x, lexLt (t.drop x) q = true →
      q.isPrefixOf (t.drop x) = true → False := by
    intro x h1 h2
    exact not_prefix_of_lexLt h1 (List.isPrefixOf_iff_prefix.mp h2)
  have hdec := sa_decomp t q
  have hlenA : ((build_suffix_array t).filter
      (fun j => lexLt (t.drop j) q)).length = cntL t q :=
    ((sa_perm t).filter _).length_eq
  have hlenB : ((build_suffix_array t).filter
      (fun j => q.isPrefixOf (t.drop j))).length = cntP t q :=
    ((sa_perm t).filter _).length_eq
  intro k hk
  have hklen : k < ((build_suffix_array t).filter
      (fun j => lexLt (t.drop j) q) ++
      (build_suffix_array t).filter (fun j => q.isPrefixOf (t.drop j)) ++
      (build_suffix_array t).filter
        (fun x => !lexLt (t.drop x) q &&
          !q.isPrefixOf (t.drop x))).length := by
    rw [← hdec, sa_length]
    exact hk
  have H := three_blocks_getD
    (A := fun j => lexLt (t.drop j) q)
    (B := fun j => q.isPrefixOf (t.drop j))
    (fun x hx =>
      List.of_mem_filter (p := fun j => lexLt (t.drop j) q) hx)
    (fun x hx =>
      List.of_mem_filter (p := fun j => q.isPrefixOf (t.drop j)) hx)
    (fun x hx => by
      have := List.of_mem_filter hx
      rw [Bool.and_eq_true, Bool.not_eq_true', Bool.not_eq_true'] at this
      exact this)
    hdisj k hklen
  rw [← hdec] at H
  rw [hlenA, hlenB] at H
  exact H

/-! ### Alphabet and C-array facts -/

theorem getD_replicate {α : Type} (a d : α) (n i : Nat) :
    (List.replicate n a).getD i d = if i < n then a else d := by
  rw [List.getD_eq_getElem?_getD, List.getElem?_replicate]
  by_cases h : i < n <;> simp [h]

theorem cbb_loop : ∀ (t acc : List Nat), (∀ x ∈ t, x < 256) →
    acc.length = 256 →
    (t.foldl (fun cbb b => cbb.set b (cbb.getD b 0 + 1)) acc).length = 256 ∧
    ∀ b, (t.foldl (fun cbb b => cbb.set b (cbb.getD b 0 + 1)) acc).getD b 0 =
      acc.getD b 0 + t.count b := by
  intro t
  induction t with
  | nil =>
    intro acc _ hlen
    exact ⟨hlen, fun b => by simp⟩
  | cons a l ih =>
    intro acc ht hlen
    have ha : a < 256 := ht a (by simp)
    have hl : ∀ x ∈ l, x < 256 := fun x hx => ht x (by simp [hx])
    rw [List.foldl_cons]
    have hlen' : (acc.set a (acc.getD a 0 + 1)).length = 256 := by
      rw [List.length_set]; exact hlen
    obtain ⟨h1, h2⟩ := ih (acc.set a (acc.getD a 0 + 1)) hl hlen'
    refine ⟨h1, fun b => ?_⟩
    rw [h2 b, List.count_cons]
    by_cases hb : a = b
    · subst hb
      rw [getD_set_self' (by omega)]
      simp
      omega
    · rw [getD_set_ne' hb]
      simp [hb]

theorem cbb_spec (t : List Nat) (ht : ∀ x ∈ t, x < 256) (b : Nat) :
    (counts_by_byte t).getD b 0 = t.count b := by
  have h := (cbb_loop t (List.replicate 256 0) ht (by simp)).2 b
  rw [counts_by_byte, h, getD_replicate]
  by_cases hb : b < 256 <;> simp [hb]

theorem cbb_length (t : List Nat) (ht : ∀ x ∈ t, x < 256) :
    (counts_by_byte t).length = 256 :=
  (cbb_loop t (List.replicate 256 0) ht (by simp)).1

def presentB (t : List Nat) (b : Nat) : Bool := t.count b != 0

def rankOf (t : List Nat) (b : Nat) : Nat :=
  ((List.range b).filter (presentB t)).length

theorem filter_range_prefix_len {p : Nat → Bool} {c N : Nat} (hc : c < N)
    (hpc : p c = true) :
    ((List.range c).filter p).length < ((List.range N).filter p).length := by
  conv_rhs => rw [show N = (c + 1) + (N - (c + 1)) by omega]
  rw [List.range_add, List.filter_append, List.length_append,
    List.range_succ, List.filter_append, List.length_append]
  simp [hpc]
  omega

def alphaLoop (t : List Nat) (N : Nat) : List Int × List Nat × List Nat :=
  (List.range N).foldl
    (fun st b =>
      let count := (counts_by_byte t).getD b 0
      if count = 0 then st
      else (st.1.set b (st.2.1.length : Int), st.2.1 ++ [b],
        st.2.2 ++ [count]))
    (List.replicate 256 (-1), [], [])

theorem build_alphabet_eq (t : List Nat) :
    build_alphabet t = alphaLoop t 256 := rfl

theorem alphaLoop_succ (t : List Nat) (N : Nat) :
    alphaLoop t (N + 1) =
      (if (counts_by_byte t).getD N 0 = 0 then alphaLoop t N
       else ((alphaLoop t N).1.set N ((alphaLoop t N).2.1.length : Int),
          (alphaLoop t N).2.1 ++ [N],
          (alphaLoop t N).2.2 ++ [(counts_by_byte t).getD N 0])) := by
  rw [alphaLoop, List.range_succ, List.foldl_append, List.foldl_cons,
    List.foldl_nil]
  rfl

theorem alphaLoop_spec (t : List Nat) (ht : ∀ x ∈ t, x < 256) :
    ∀ N, N ≤ 256 →
      (alphaLoop t N).1.length = 256 ∧
      (∀ b, b < N → t.count b ≠ 0 →
        (alphaLoop t N).1.getD b (-1) = (rankOf t b : Int)) ∧
      (∀ b, N ≤ b ∨ t.count b = 0 →
        (alphaLoop t N).1.getD b (-1) = -1) ∧
      (alphaLoop t N).2.1 = (List.range N).filter (presentB t) ∧
      (alphaLoop t N).2.2 =
        ((List.range N).filter (presentB t)).map (fun b => t.count b) := by
  intro N
  induction N with
  | zero =>
    intro _
    refine ⟨by simp [alphaLoop], fun b hb => by omega, fun b hb => ?_,
      by simp [alphaLoop], by simp [alphaLoop]⟩
    show (List.replicate 256 (-1 : Int)).getD b (-1) = -1
    rw [getD_replicate]
    by_cases h : b < 256 <;> simp [h]
  | succ N ih =>
    intro hN
    obtain ⟨h1, h2, h3, h4, h5⟩ := ih (by omega)
    rw [alphaLoop_succ]
    by_cases hz : (counts_by_byte t).getD N 0 = 0
    · rw [if_pos hz]
      have hcN : t.count N = 0 := by rw [← cbb_spec t ht N]; exact hz
      have hpN : presentB t N = false := by simp [presentB, hcN]
      have hfil : (List.range (N + 1)).filter (presentB t) =
          (List.range N).filter (presentB t) := by
        rw [List.range_succ, List.filter_append]
        simp [hpN]
      refine ⟨h1, fun b hb hcb => ?_, fun b hb => ?_, by rw [hfil]; exact h4,
        by rw [hfil]; exact h5⟩
      · rcases Nat.lt_or_ge b N with h | h
        · exact h2 b h hcb
        · have : b = N := by omega
          rw [this] at hcb
          exact absurd hcN hcb
      · refine h3 b ?_
        omega
    · rw [if_neg hz]
      have hcN : t.count N ≠ 0 := by rw [← cbb_spec t ht N]; exact hz
      have hpN : presentB t N = true := by simp [presentB, hcN]
      have hfil : (List.range (N + 1)).filter (presentB t) =
          (List.range N).filter (presentB t) ++ [N] := by
        rw [List.range_succ, List.filter_append]
        simp [hpN]
      have hrank : (alphaLoop t N).2.1.length = rankOf t N := by
        rw [h4, rankOf]
      refine ⟨by rw [List.length_set]; exact h1, fun b hb hcb => ?_,
        fun b hb => ?_, ?_, ?_⟩
      · rcases Nat.lt_or_ge b N with h | h
        · rw [getD_set_ne' (by omega)]
          exact h2 b h hcb
        · have hbN : b = N := by omega
          subst hbN
          rw [getD_set_self' (by rw [h1]; omega), hrank]
      · have hbN : b ≠ N := by
          intro he
          rcases hb with h | h
          · omega
          · rw [he] at h; exact hcN h
        rw [getD_set_ne' (fun he => hbN he.symm)]
        refine h3 b ?_
        rcases hb with h | h
        · left; omega
        · right; exact h
      · show (alphaLoop t N).2.1 ++ [N] = _
        rw [hfil, h4]
      · show (alphaLoop t N).2.2 ++ [(counts_by_byte t).getD N 0] = _
        rw [hfil, List.map_append, h5, cbb_spec t ht N]
        rfl

theorem alphabet_spec (t : List Nat) (ht : ∀ x ∈ t, x < 256) :
    (build_alphabet t).1.length = 256 ∧
    (∀ b, t.count b ≠ 0 →
      (build_alphabet t).1.getD b (-1) = (rankOf t b : Int)) ∧
    (∀ b, t.count b = 0 → (build_alphabet t).1.getD b (-1) = -1) ∧
    (build_alphabet t).2.1 = (List.range 256).filter (presentB t) ∧
    (build_alphabet t).2.2 =
      ((List.range 256).filter (presentB t)).map (fun b => t.count b) := by
  obtain ⟨h1, h2, h3, h4, h5⟩ := alphaLoop_spec t ht 256 (by omega)
  rw [build_alphabet_eq]
  refine ⟨h1, fun b hcb => ?_, fun b hcb => h3 b (Or.inr hcb), h4, h5⟩
  have hb : b < 256 := by
    have hmem : b ∈ t := List.count_pos_iff_mem.mp (by omega)
    exact ht b hmem
  exact h2 b hb hcb

def prefixSums : List Nat → Nat → List Nat
  | [], _ => []
  | c :: rest, tot => tot :: prefixSums rest (tot + c)

theorem build_c_loop (l : List Nat) :
    ∀ out tot, (l.foldl (fun (acc : List Nat × Nat) count =>
      (acc.1 ++ [acc.2], acc.2 + count)) (out, tot)).1 =
        out ++ prefixSums l tot := by
  induction l with
  | nil => intro out tot; simp [prefixSums]
  | cons c rest ih =>
    intro out tot
    rw [List.foldl_cons]
    rw [ih (out ++ [tot]) (tot + c)]
    simp [prefixSums]

theorem build_c_eq (counts : List Nat) :
    build_c counts = prefixSums counts 0 := by
  rw [build_c]
  have h := build_c_loop counts [] 0
  simpa using h

theorem prefixSums_getD : ∀ (l : List Nat) (tot i : Nat), i < l.length →
    (prefixSums l tot).getD i 0 = tot + (l.take i).sum := by
  intro l
  induction l with
  | nil => intro tot i h; simp at h
  | cons c rest ih =>
    intro tot i h
    cases i with
    | zero => simp [prefixSums]
    | succ i =>
      rw [prefixSums, List.getD_cons_succ, ih (tot + c) i (by simp at h; omega)]
      simp [Nat.add_assoc]

theorem prefixSums_length : ∀ (l : List Nat) (tot : Nat),
    (prefixSums l tot).length = l.length := by
  intro l
  induction l with
  | nil => intro tot; rfl
  | cons c rest ih => intro tot; simp [prefixSums, ih]

theorem sum_filter_count (t : List Nat) :
    ∀ c, (((List.range c).filter (presentB t)).map
        (fun b => t.count b)).sum =
      ((List.range c).map (fun b => t.count b)).sum := by
  intro c
  induction c with
  | zero => rfl
  | succ c ih =>
    rw [List.range_succ, List.filter_append, List.map_append,
      List.sum_append, List.map_append, List.sum_append, ih]
    by_cases h : presentB t c
    · simp [h]
    · have hc : t.count c = 0 := by
        rw [presentB, bne_iff_ne] at h
        simpa using h
      simp [h, hc]

theorem countP_lt_succ (t : List Nat) (c : Nat) :
    t.countP (fun x => decide (x < c + 1)) =
      t.countP (fun x => decide (x < c)) + t.count c := by
  induction t with
  | nil => simp
  | cons a l ih =>
    rw [List.countP_cons, List.countP_cons, List.count_cons, ih]
    by_cases h1 : a < c
    · have h2 : a < c + 1 := by omega
      have h3 : (a == c) = false := by simp; omega
      simp [h1, h2, h3]
      omega
    · by_cases h2 : a = c
      · subst h2
        simp [h1]
        omega
      · have h3 : ¬ a < c + 1 := by omega
        have h4 : (a == c) = false := by simp [h2]
        simp [h1, h3, h4]

theorem sum_range_count (t : List Nat) :
    ∀ c, ((List.range c).map (fun b => t.count b)).sum =
      t.countP (fun x => decide (x < c)) := by
  intro c
  induction c with
  | zero => simp
  | succ c ih =>
    rw [List.range_succ, List.map_append, List.sum_append, ih,
      countP_lt_succ]
    simp

theorem countP_eq_range_filter (t : List Nat) (p : Nat → Bool) :
    t.countP p =
      ((List.range t.length).filter (fun m => p (t.getD m 0))).length := by
  induction t with
  | nil => simp
  | cons a l ih =>
    rw [List.countP_cons, List.length_cons, List.range_succ_eq_map,
      List.filter_cons]
    have hmap : (List.filter (fun m => p ((a :: l).getD m 0))
        ((List.range l.length).map Nat.succ)) =
      ((List.range l.length).filter
        (fun m => p (l.getD m 0))).map Nat.succ := by
      rw [List.filter_map]
      congr 1
    by_cases hpa : p a
    · have h0 : p ((a :: l).getD 0 0) = true := hpa
      rw [if_pos h0, List.length_cons, hmap, List.length_map, ih,
        if_pos hpa]
    · have : ¬ p ((a :: l).getD 0 0) = true := by
        simpa using hpa
      rw [if_neg this, hmap, List.length_map, ih]
      simp [hpa]

theorem range256_filter_split (t : List Nat) {c : Nat} (hc256 : c < 256)
    (hpc : presentB t c = true) :
    (List.range 256).filter (presentB t) =
      ((List.range c).filter (presentB t)) ++ c ::
        (((List.range (256 - (c + 1))).map (fun x => c + 1 + x)).filter
          (presentB t)) := by
  conv_lhs => rw [show (256 : Nat) = (c + 1) + (256 - (c + 1)) by omega]
  rw [List.range_add, List.filter_append, List.range_succ,
    List.filter_append]
  simp [hpc]

theorem c_key (t : List Nat) (ht : ∀ x ∈ t, x < 256) (c : Nat)
    (hc : t.count c ≠ 0) :
    (build_c (build_alphabet t).2.2).getD (rankOf t c) 0 =
      t.countP (fun x => decide (x < c)) := by
  have hc256 : c < 256 := ht c (List.count_pos_iff.mp (by omega))
  have hpc : presentB t c = true := by simp [presentB, hc]
  obtain ⟨_, _, _, _, h5⟩ := alphabet_spec t ht
  have hsplit := range256_filter_split t hc256 hpc
  have hlen : rankOf t c < ((build_alphabet t).2.2).length := by
    rw [h5, List.length_map]
    exact filter_range_prefix_len hc256 hpc
  rw [build_c_eq, prefixSums_getD _ _ _ hlen]
  have htake : ((build_alphabet t).2.2).take (rankOf t c) =
      ((List.range c).filter (presentB t)).map (fun b => t.count b) := by
    rw [h5, hsplit, List.map_append, rankOf,
      ← List.length_map ((List.range c).filter (presentB t))
        (fun b => t.count b)]
    exact List.take_left _ _
  rw [htake, Nat.zero_add, sum_filter_count, sum_range_count]

/-! ### BWT remap and occ-table facts -/

theorem remap_bwt_eq (b2r : List Int) :
    ∀ l : List Nat, (∀ b ∈ l, 0 ≤ b2r.getD b (-1)) →
      remap_bwt b2r l =
        some (l.map (fun b => (b2r.getD b (-1)).toNat)) := by
  intro l
  induction l with
  | nil => intro _; rfl
  | cons b rest ih =>
    intro h
    have hb : 0 ≤ b2r.getD b (-1) := h b (by simp)
    rw [remap_bwt]
    rw [if_neg (by omega), ih (fun x hx => h x (by simp [hx]))]
    rfl

theorem getD_append_mid {α : Type} (A : List α) (x : α) (B : List α)
    (d : α) : (A ++ x :: B).getD A.length d = x := by
  induction A with
  | nil => rfl
  | cons a A ih =>
    rw [List.cons_append, List.length_cons, List.getD_cons_succ]
    exact ih

theorem getD_append_left {α : Type} (A B : List α) (k : Nat) (d : α)
    (h : k < A.length) : (A ++ B).getD k d = A.getD k d := by
  rw [List.getD_eq_getElem?_getD, List.getElem?_append_left h,
    ← List.getD_eq_getElem?_getD]

theorem buildOccLoop_spec :
    ∀ (rest processed counts : List Nat) (occ : List (List Nat)),
      processed.length + rest.length < 2 ^ 32 →
      (∀ x ∈ rest, x < counts.length) →
      (∀ r, counts.getD r 0 =
        (processed.filter (fun x => x == r)).length) →
      occ.length = processed.length / 128 + 1 →
      (∀ k, k ≤ processed.length / 128 → ∀ r,
        ((occ.getD k []).getD r 0 =
          ((processed.take (k * 128)).filter (fun x => x == r)).length)) →
      (buildOccLoop 128 rest processed.length counts occ).1.length =
          (processed.length + rest.length) / 128 + 1 ∧
        (∀ k, k ≤ (processed.length + rest.length) / 128 → ∀ r,
          (((buildOccLoop 128 rest processed.length counts occ).1.getD
              k []).getD r 0 =
            (((processed ++ rest).take (k * 128)).filter
              (fun x => x == r)).length)) ∧
        (∀ r, (buildOccLoop 128 rest processed.length counts occ).2.getD
            r 0 =
          ((processed ++ rest).filter (fun x => x == r)).length) ∧
        (buildOccLoop 128 rest processed.length counts occ).2.length =
          counts.length := by
  intro rest
  induction rest with
  | nil =>
    intro processed counts occ hbound hmem hcounts holen hocc
    rw [buildOccLoop]
    refine ⟨by simpa using holen, fun k hk r => ?_, fun r => ?_, rfl⟩
    · simp only [List.append_nil]
      exact hocc k (by simpa using hk) r
    · simpa using hcounts r
  | cons r0 rest' ih =>
    intro processed counts occ hbound hmem hcounts holen hocc
    rw [buildOccLoop]
    have hr0 : r0 < counts.length := hmem r0 (by simp)
    have hcnt_le : (processed.filter (fun x => x == r0)).length ≤
        processed.length := List.length_filter_le _ _
    have hnowrap : (counts.getD r0 0 + 1) % 2 ^ 32 =
        counts.getD r0 0 + 1 := by
      rw [hcounts r0]
      have : processed.length + 1 < 2 ^ 32 := by simp at hbound; omega
      exact Nat.mod_eq_of_lt (by omega)
    have hcounts' : ∀ r,
        (counts.set r0 ((counts.getD r0 0 + 1) % 2 ^ 32)).getD r 0 =
          ((processed ++ [r0]).filter (fun x => x == r)).length := by
      intro r
      rw [List.filter_append, List.length_append]
      by_cases hrr : r0 = r
      · subst hrr
        rw [getD_set_self' hr0, hnowrap, hcounts r0]
        simp
      · rw [getD_set_ne' (fun h => hrr h)]
        rw [hcounts r]
        have : List.filter (fun x => x == r) [r0] = [] := by
          simp [hrr]
        rw [this]
        simp
    have hstep : ∀ (occ' : List (List Nat)),
        occ'.length = (processed.length + 1) / 128 + 1 →
        (∀ k, k ≤ (processed.length + 1) / 128 → ∀ r,
          ((occ'.getD k []).getD r 0 =
            (((processed ++ [r0]).take (k * 128)).filter
              (fun x => x == r)).length)) →
        (buildOccLoop 128 rest' (processed.length + 1)
            (counts.set r0 ((counts.getD r0 0 + 1) % 2 ^ 32)) occ').1.length =
            (processed.length + (rest'.length + 1)) / 128 + 1 ∧
          (∀ k, k ≤ (processed.length + (rest'.length + 1)) / 128 → ∀ r,
            (((buildOccLoop 128 rest' (processed.length + 1)
                (counts.set r0 ((counts.getD r0 0 + 1) % 2 ^ 32))
                occ').1.getD k []).getD r 0 =
              (((processed ++ r0 :: rest').take (k * 128)).filter
                (fun x => x == r)).length)) ∧
          (∀ r, (buildOccLoop 128 rest' (processed.length + 1)
              (counts.set r0 ((counts.getD r0 0 + 1) % 2 ^ 32))
              occ').2.getD r 0 =
            ((processed ++ r0 :: rest').filter (fun x => x == r)).length) ∧
          (buildOccLoop 128 rest' (processed.length + 1)
              (counts.set r0 ((counts.getD r0 0 + 1) % 2 ^ 32))
              occ').2.length = counts.length := by
      intro occ' holen' hocc'
      have hplen : (processed ++ [r0]).length = processed.length + 1 := by
        simp
      have H := ih (processed ++ [r0])
        (counts.set r0 ((counts.getD r0 0 + 1) % 2 ^ 32)) occ'
        (by rw [hplen]; simp at hbound ⊢; omega)
        (fun x hx => by
          rw [List.length_set]
          exact hmem x (by simp [hx]))
        hcounts'
        (by rw [hplen]; exact holen')
        (by rw [hplen]; exact hocc')
      rw [hplen] at H
      have happ : processed ++ [r0] ++ rest' = processed ++ r0 :: rest' := by
        simp
      rw [happ] at H
      obtain ⟨H1, H2, H3, H4⟩ := H
      refine ⟨by rw [H1]; congr 1; omega, fun k hk r => ?_, fun r => H3 r,
        by rw [H4, List.length_set]⟩
      refine H2 k ?_ r
      simp at hk ⊢
      omega
    by_cases hmod : (processed.length + 1) % 128 = 0
    · rw [if_pos hmod]
      refine hstep (occ ++ [counts.set r0 ((counts.getD r0 0 + 1) % 2 ^ 32)])
        ?_ ?_
      · rw [List.length_append, holen]
        simp
        omega
      · intro k hk r
        rcases Nat.lt_or_ge k ((processed.length + 1) / 128) with hlt | hge
        · have hk' : k ≤ processed.length / 128 := by omega
          rw [getD_append_left _ _ _ _ (by rw [holen]; omega), hocc k hk' r]
          have : (processed ++ [r0]).take (k * 128) =
              processed.take (k * 128) := by
            refine List.take_append_of_le_length ?_
            have := Nat.div_mul_le_self processed.length 128
            have hmul : k * 128 ≤ (processed.length / 128) * 128 :=
              Nat.mul_le_mul_right _ hk'
            omega
          rw [this]
        · have hkeq : k = (processed.length + 1) / 128 := by omega
          have hkval : k * 128 = processed.length + 1 := by
            subst hkeq
            omega
          subst hkeq
          have hocceq : (occ ++
              [counts.set r0 ((counts.getD r0 0 + 1) % 2 ^ 32)]).getD
                ((processed.length + 1) / 128) [] =
              counts.set r0 ((counts.getD r0 0 + 1) % 2 ^ 32) := by
            have : (processed.length + 1) / 128 = occ.length := by
              rw [holen]; omega
            rw [this, List.getD_eq_getElem?_getD,
              List.getElem?_concat_length]
            rfl
          rw [hocceq]
          have htake : (processed ++ [r0]).take
              (((processed.length + 1) / 128) * 128) = processed ++ [r0] := by
            refine List.take_of_length_le ?_
            simp
            omega
          rw [htake]
          exact hcounts' r
    · rw [if_neg hmod]
      refine hstep occ ?_ ?_
      · rw [holen]
        omega
      · intro k hk r
        have hk' : k ≤ processed.length / 128 := by omega
        rw [hocc k hk' r]
        have : (processed ++ [r0]).take (k * 128) =
            processed.take (k * 128) := by
          refine List.take_append_of_le_length ?_
          have := Nat.div_mul_le_self processed.length 128
          have hmul : k * 128 ≤ (processed.length / 128) * 128 :=
            Nat.mul_le_mul_right _ hk'
          omega
        rw [this]

theorem build_occ_spec (bwt : List Nat) (sigma : Nat)
    (hsig : ∀ x ∈ bwt, x < sigma) (hb : bwt.length < 2 ^ 32) :
    ∀ k, k ≤ bwt.length / 128 → ∀ r,
      ((build_occ bwt sigma 128).getD k []).getD r 0 =
        ((bwt.take (k * 128)).filter (fun x => x == r)).length := by
  have hrep : ∀ r, (List.replicate sigma 0).getD r 0 =
      (([] : List Nat).filter (fun x => x == r)).length := by
    intro r
    rw [getD_replicate]
    by_cases h : r < sigma <;> simp [h]
  have H := buildOccLoop_spec bwt [] (List.replicate sigma 0)
    [List.replicate sigma 0] (by simpa using hb)
    (fun x hx => by rw [List.length_replicate]; exact hsig x hx)
    hrep (by simp) (by
      intro k hk r
      have hk0 : k = 0 := by simp at hk; omega
      subst hk0
      simpa using hrep r)
  simp only [List.length_nil, List.nil_append] at H
  obtain ⟨H1, H2, H3, H4⟩ := H
  intro k hk r
  rw [build_occ]
  rcases hloop : buildOccLoop 128 bwt 0 (List.replicate sigma 0)
      [List.replicate sigma 0] with ⟨occ, counts⟩
  rw [hloop] at H1 H2 H3 H4
  simp only []
  by_cases hmod : bwt.length % 128 = 0
  · rw [if_neg (by omega)]
    exact H2 k (by omega) r
  · rw [if_pos (by omega)]
    rw [getD_append_left _ _ _ _ (by rw [H1]; omega)]
    exact H2 k (by omega) r

theorem occ_at_spec (fm : FMIndexL) (sigma : Nat)
    (hocc : fm.occ = build_occ fm.bwt sigma 128)
    (hcp : fm.checkpoint = 128)
    (hlen : fm.bwt.length = fm.text.length)
    (hsig : ∀ x ∈ fm.bwt, x < sigma)
    (hb : fm.bwt.length < 2 ^ 32) (r idx : Nat) :
    occ_at fm r idx =
      ((fm.bwt.take (min idx fm.text.length)).filter
        (fun x => x == r)).length := by
  rw [occ_at, hcp, hocc]
  have hcap : min idx fm.text.length ≤ fm.bwt.length := by
    rw [hlen]; omega
  have hbase : (min idx fm.text.length / 128) * 128 ≤
      min idx fm.text.length := Nat.div_mul_le_self _ _
  rw [build_occ_spec fm.bwt sigma hsig hb (min idx fm.text.length / 128)
    (Nat.div_le_div_right hcap) r]
  have hsplit : fm.bwt.take (min idx fm.text.length) =
      fm.bwt.take ((min idx fm.text.length / 128) * 128) ++
        ((fm.bwt.drop ((min idx fm.text.length / 128) * 128)).take
          (min idx fm.text.length -
            (min idx fm.text.length / 128) * 128)) := by
    rw [← List.take_add]
    congr 1
    omega
  rw [hsplit, List.filter_append, List.length_append]

/-! ### Rank facts and the BWT column in closed form -/

theorem rankOf_lt_rankOf (t : List Nat) {b b' : Nat}
    (hb : presentB t b = true) (hbb : b < b') :
    rankOf t b < rankOf t b' :=
  filter_range_prefix_len hbb hb

theorem rankOf_inj (t : List Nat) {b b' : Nat}
    (hb : presentB t b = true) (hb' : presentB t b' = true)
    (h : rankOf t b = rankOf t b') : b = b' := by
  rcases Nat.lt_trichotomy b b' with hl | he | hg
  · have := rankOf_lt_rankOf t hb hl; omega
  · exact he
  · have := rankOf_lt_rankOf t hb' hg; omega

theorem mem_take_iff {l : List Nat} {k x : Nat} (hk : k ≤ l.length) :
    x ∈ l.take k ↔ ∃ j, j < k ∧ l.getD j 0 = x := by
  constructor
  · intro h
    obtain ⟨i, hi, he⟩ := List.mem_iff_getElem.mp h
    have hik : i < k := by
      rw [List.length_take] at hi; omega
    have hil : i < l.length := by
      rw [List.length_take] at hi; omega
    refine ⟨i, hik, ?_⟩
    rw [List.getD_eq_getElem l 0 hil, ← he]
    exact (List.getElem_take l).symm
  · rintro ⟨j, hjk, hje⟩
    have hjt : j < (l.take k).length := by
      rw [List.length_take]; omega
    rw [← hje, ← getD_take hjk 0]
    exact getD_mem hjt 0

theorem length_filter_or_disj {l : List Nat} {p r : Nat → Bool}
    (h : ∀ x ∈ l, ¬(p x = true ∧ r x = true)) :
    (l.filter (fun x => p x || r x)).length =
      (l.filter p).length + (l.filter r).length := by
  induction l with
  | nil => rfl
  | cons a l ih =>
    have ha := h a (by simp)
    have ih' := ih (fun x hx => h x (by simp [hx]))
    rw [List.filter_cons, List.filter_cons, List.filter_cons]
    cases hp : p a <;> cases hr : r a
    · simp [ih']
    · simp [ih']
      omega
    · simp [ih']
      omega
    · exact absurd ⟨hp, hr⟩ ha

theorem filter_range_shift (n : Nat) (p : Nat → Bool) :
    ((List.range n).filter (fun m => decide (1 ≤ m) && p m)).length =
      ((List.range (n - 1)).filter (fun j => p (j + 1))).length := by
  cases n with
  | zero => rfl
  | succ m =>
    rw [List.range_succ_eq_map, List.filter_cons]
    rw [if_neg (by simp)]
    rw [List.filter_map, List.length_map]
    have hc : ∀ j ∈ List.range m,
        ((fun x => decide (1 ≤ x) && p x) ∘ Nat.succ) j =
          (fun j => p (j + 1)) j := by
      intro j _
      simp [Function.comp]
    rw [List.filter_congr hc]
    simp

theorem filter_range_drop_last {n : Nat} {p : Nat → Bool} (hn : 0 < n)
    (hp : p (n - 1) = false) :
    ((List.range n).filter p).length =
      ((List.range (n - 1)).filter p).length := by
  conv_lhs => rw [show n = (n - 1) + 1 by omega]
  rw [List.range_succ, List.filter_append]
  simp [hp]

theorem lexLt_head_split {t : List Nat} {m : Nat} (hm : m < t.length)
    (c : Nat) (q : List Nat) :
    lexLt (t.drop m) (c :: q) =
      (decide (t.getD m 0 < c) ||
        (decide (t.getD m 0 = c) && lexLt (t.drop (m + 1)) q)) := by
  rw [drop_eq_getD_cons hm, lexLt]
  generalize t.getD m 0 = a
  rcases Nat.lt_trichotomy a c with h | h | h
  · rw [if_pos h]
    simp [h]
  · rw [if_neg (by omega), if_neg (by omega)]
    simp [h]
  · rw [if_neg (by omega), if_pos h]
    have h1 : ¬ a < c := by omega
    have h2 : ¬ a = c := by omega
    simp [h1, h2]

theorem prefix_head_split {t : List Nat} {m : Nat} (hm : m < t.length)
    (c : Nat) (q : List Nat) :
    (c :: q).isPrefixOf (t.drop m) =
      (decide (t.getD m 0 = c) && q.isPrefixOf (t.drop (m + 1))) := by
  rw [drop_eq_getD_cons hm]
  show (c == t.getD m 0 && q.isPrefixOf (t.drop (m + 1))) = _
  generalize t.getD m 0 = a
  by_cases h : a = c
  · simp [h]
  · have h1 : (c == a) = false := by
      rw [beq_eq_false_iff_ne]
      exact fun he => h he.symm
    simp [h1, h]

theorem both_head_split {t : List Nat} {m : Nat} (hm : m < t.length)
    (c : Nat) (q : List Nat) :
    (lexLt (t.drop m) (c :: q) || (c :: q).isPrefixOf (t.drop m)) =
      (decide (t.getD m 0 < c) ||
        (decide (t.getD m 0 = c) &&
          (lexLt (t.drop (m + 1)) q ||
            q.isPrefixOf (t.drop (m + 1))))) := by
  rw [lexLt_head_split hm, prefix_head_split hm]
  generalize t.getD m 0 = a
  rcases Nat.lt_trichotomy a c with h | h | h
  · simp [h]
  · have h1 : ¬ a < c := by omega
    simp [h, h1]
  · have h1 : ¬ a < c := by omega
    have h2 : ¬ a = c := by omega
    simp [h1, h2]

/-- The rank-remapped Burrows-Wheeler column in closed form: the result
of `build_bwt` followed by the alphabet remap (see `remap_bwt_eq` and
`alphabet_spec`). -/
def bwtRanks (t : List Nat) (sentinel : Nat) : List Nat :=
  (build_suffix_array t).map (fun pos =>
    rankOf t (if pos = 0 then sentinel else t.getD (pos - 1) 0))

theorem cnt_bwt_take
    (t : List Nat) (sentinel : Nat)
    (hsent : presentB t sentinel = true)
    (c : Nat) (hcpres : presentB t c = true) (hcs : c ≠ sentinel)
    (QB : Nat → Bool) (k : Nat) (hk : k ≤ t.length)
    (hpos : ∀ j, j < t.length →
      (QB ((build_suffix_array t).getD j 0) = true ↔ j < k)) :
    (((bwtRanks t sentinel).take k).filter
        (fun x => x == rankOf t c)).length =
      ((List.range t.length).filter (fun m =>
        (decide (1 ≤ m) && decide (t.getD (m - 1) 0 = c)) &&
          QB m)).length := by
  rw [bwtRanks, ← List.map_take, List.filter_map, List.length_map]
  have hsa_len : (build_suffix_array t).length = t.length := sa_length t
  have hmem_pred : ∀ pos ∈ (build_suffix_array t).take k,
      ((fun x => x == rankOf t c) ∘ (fun pos =>
        rankOf t (if pos = 0 then sentinel else t.getD (pos - 1) 0)))
          pos =
        (decide (1 ≤ pos) && decide (t.getD (pos - 1) 0 = c)) := by
    intro pos hpostake
    have hpossa : pos ∈ build_suffix_array t :=
      List.mem_of_mem_take hpostake
    have hposn : pos < t.length := sa_mem.mp hpossa
    simp only [Function.comp]
    by_cases h0 : pos = 0
    · subst h0
      rw [if_pos rfl]
      have hne : (rankOf t sentinel == rankOf t c) = false := by
        rw [beq_eq_false_iff_ne]
        intro he
        exact hcs (rankOf_inj t hcpres hsent he.symm)
      rw [hne]
      simp
    · rw [if_neg h0]
      have hbmem : t.getD (pos - 1) 0 ∈ t := getD_mem (by omega) 0
      have hbpres : presentB t (t.getD (pos - 1) 0) = true := by
        rw [presentB, bne_iff_ne]
        have := List.count_pos_iff.mpr hbmem
        omega
      by_cases hbc : t.getD (pos - 1) 0 = c
      · rw [hbc]
        simp
        omega
      · have hne : (rankOf t (t.getD (pos - 1) 0) ==
            rankOf t c) = false := by
          rw [beq_eq_false_iff_ne]
          intro he
          exact hbc (rankOf_inj t hbpres hcpres he)
        rw [hne]
        have h2 : decide (t.getD (pos - 1) 0 = c) = false := by
          simp only [decide_eq_false_iff_not]
          exact hbc
        rw [h2]
        simp
  rw [List.filter_congr hmem_pred]
  have hnodup_take : ((build_suffix_array t).take k).Nodup :=
    (sa_nodup t).sublist (List.take_sublist _ _)
  have hperm : List.Perm ((build_suffix_array t).take k)
      ((List.range t.length).filter QB) := by
    rw [List.perm_ext_iff_of_nodup hnodup_take
      ((List.nodup_range _).filter _)]
    intro m
    rw [List.mem_filter, List.mem_range]
    constructor
    · intro hm
      obtain ⟨j, hjk, hje⟩ :=
        (mem_take_iff (by rw [hsa_len]; exact hk)).mp hm
      have hjn : j < t.length := by omega
      have hmn : m < t.length := by
        rw [← hje]
        exact sa_mem.mp (getD_mem (by rw [hsa_len]; omega) 0)
      refine ⟨hmn, ?_⟩
      have hq := (hpos j hjn).mpr hjk
      rw [hje] at hq
      exact hq
    · rintro ⟨hmn, hQB⟩
      have hmsa : m ∈ build_suffix_array t := sa_mem.mpr hmn
      obtain ⟨j, hjlen, hje⟩ := List.mem_iff_getElem.mp hmsa
      have hjn : j < t.length := by rw [hsa_len] at hjlen; exact hjlen
      have hgd : (build_suffix_array t).getD j 0 = m := by
        rw [List.getD_eq_getElem _ 0 hjlen]; exact hje
      have hjk : j < k := (hpos j hjn).mp (by rw [hgd]; exact hQB)
      exact (mem_take_iff (by rw [hsa_len]; exact hk)).mpr ⟨j, hjk, hgd⟩
  rw [(hperm.filter _).length_eq, List.filter_filter]

/-! ### The backward-search step identities -/

theorem cntL_le (t q : List Nat) : cntL t q ≤ t.length := by
  rw [cntL]
  have := List.length_filter_le (fun j => lexLt (t.drop j) q)
    (List.range t.length)
  rw [List.length_range] at this
  exact this

theorem cntLP_or (t q : List Nat) :
    cntL t q + cntP t q =
      ((List.range t.length).filter (fun m =>
        lexLt (t.drop m) q || q.isPrefixOf (t.drop m))).length := by
  rw [cntL, cntP]
  symm
  refine length_filter_or_disj ?_
  rintro x _ ⟨h1, h2⟩
  exact not_prefix_of_lexLt h1 (List.isPrefixOf_iff_prefix.mp h2)

theorem cntLP_le (t q : List Nat) : cntL t q + cntP t q ≤ t.length := by
  rw [cntLP_or]
  have := List.length_filter_le (fun m =>
    lexLt (t.drop m) q || q.isPrefixOf (t.drop m)) (List.range t.length)
  rw [List.length_range] at this
  exact this

theorem step_top (t : List Nat) (sentinel : Nat)
    (hn : 0 < t.length)
    (hlast : t.getD (t.length - 1) 0 = sentinel)
    (hsent : presentB t sentinel = true)
    (c : Nat) (hcpres : presentB t c = true) (hcs : c ≠ sentinel)
    (q : List Nat) :
    cntL t (c :: q) =
      t.countP (fun x => decide (x < c)) +
        (((bwtRanks t sentinel).take (cntL t q)).filter
          (fun x => x == rankOf t c)).length := by
  have hocc := cnt_bwt_take t sentinel hsent c hcpres hcs
    (fun m => lexLt (t.drop m) q) (cntL t q) (cntL_le t q)
    (fun j hj => (sa_pos t q j hj).1)
  rw [hocc]
  have hsplitL : ∀ m ∈ List.range t.length,
      lexLt (t.drop m) (c :: q) =
        ((fun x => decide (t.getD x 0 < c)) m ||
          (fun x => decide (t.getD x 0 = c) &&
            lexLt (t.drop (x + 1)) q) m) := by
    intro m hm
    exact lexLt_head_split (List.mem_range.mp hm) c q
  rw [cntL, List.filter_congr hsplitL, length_filter_or_disj (by
    rintro x _ ⟨h1, h2⟩
    simp only [decide_eq_true_eq, Bool.and_eq_true] at h1 h2
    omega)]
  have hA : ((List.range t.length).filter
      (fun x => decide (t.getD x 0 < c))).length =
        t.countP (fun x => decide (x < c)) :=
    (countP_eq_range_filter t (fun x => decide (x < c))).symm
  have hassoc : ∀ m ∈ List.range t.length,
      ((decide (1 ≤ m) && decide (t.getD (m - 1) 0 = c)) &&
        (fun x => lexLt (t.drop x) q) m) =
      (decide (1 ≤ m) && (fun x => decide (t.getD (x - 1) 0 = c) &&
        lexLt (t.drop x) q) m) := by
    intro m _
    simp [Bool.and_assoc]
  have hshift := filter_range_shift t.length
    (fun x => decide (t.getD (x - 1) 0 = c) && lexLt (t.drop x) q)
  have hback : ∀ j ∈ List.range (t.length - 1),
      ((fun x => decide (t.getD (x - 1) 0 = c) && lexLt (t.drop x) q)
        (j + 1)) =
      ((fun x => decide (t.getD x 0 = c) && lexLt (t.drop (x + 1)) q)
        j) := by
    intro j _
    simp
  have hdrop : ((List.range t.length).filter
      (fun x => decide (t.getD x 0 = c) &&
        lexLt (t.drop (x + 1)) q)).length =
    ((List.range (t.length - 1)).filter
      (fun x => decide (t.getD x 0 = c) &&
        lexLt (t.drop (x + 1)) q)).length := by
    refine filter_range_drop_last hn ?_
    rw [hlast]
    have : decide (sentinel = c) = false := by
      simp only [decide_eq_false_iff_not]
      exact fun he => hcs he.symm
    rw [this]
    simp
  rw [List.filter_congr hassoc, hshift, List.filter_congr hback, hA,
    ← hdrop]

theorem step_bot (t : List Nat) (sentinel : Nat)
    (hn : 0 < t.length)
    (hlast : t.getD (t.length - 1) 0 = sentinel)
    (hsent : presentB t sentinel = true)
    (c : Nat) (hcpres : presentB t c = true) (hcs : c ≠ sentinel)
    (q : List Nat) :
    cntL t (c :: q) + cntP t (c :: q) =
      t.countP (fun x => decide (x < c)) +
        (((bwtRanks t sentinel).take (cntL t q + cntP t q)).filter
          (fun x => x == rankOf t c)).length := by
  have hocc := cnt_bwt_take t sentinel hsent c hcpres hcs
    (fun m => lexLt (t.drop m) q || q.isPrefixOf (t.drop m))
    (cntL t q + cntP t q) (cntLP_le t q)
    (fun j hj => by
      rw [Bool.or_eq_true]
      exact (sa_pos t q j hj).2)
  rw [hocc]
  have hsplitL : ∀ m ∈ List.range t.length,
      (lexLt (t.drop m) (c :: q) ||
        (c :: q).isPrefixOf (t.drop m)) =
        ((fun x => decide (t.getD x 0 < c)) m ||
          (fun x => decide (t.getD x 0 = c) &&
            (lexLt (t.drop (x + 1)) q ||
              q.isPrefixOf (t.drop (x + 1)))) m) := by
    intro m hm
    exact both_head_split (List.mem_range.mp hm) c q
  rw [cntLP_or, List.filter_congr hsplitL, length_filter_or_disj (by
    rintro x _ ⟨h1, h2⟩
    simp only [decide_eq_true_eq, Bool.and_eq_true] at h1 h2
    omega)]
  have hA : ((List.range t.length).filter
      (fun x => decide (t.getD x 0 < c))).length =
        t.countP (fun x => decide (x < c)) :=
    (countP_eq_range_filter t (fun x => decide (x < c))).symm
  have hassoc : ∀ m ∈ List.range t.length,
      ((decide (1 ≤ m) && decide (t.getD (m - 1) 0 = c)) &&
        (fun x => lexLt (t.drop x) q || q.isPrefixOf (t.drop x)) m) =
      (decide (1 ≤ m) && (fun x => decide (t.getD (x - 1) 0 = c) &&
        (lexLt (t.drop x) q || q.isPrefixOf (t.drop x))) m) := by
    intro m _
    simp [Bool.and_assoc]
  have hshift := filter_range_shift t.length
    (fun x => decide (t.getD (x - 1) 0 = c) &&
      (lexLt (t.drop x) q || q.isPrefixOf (t.drop x)))
  have hback : ∀ j ∈ List.range (t.length - 1),
      ((fun x => decide (t.getD (x - 1) 0 = c) &&
        (lexLt (t.drop x) q || q.isPrefixOf (t.drop x))) (j + 1)) =
      ((fun x => decide (t.getD x 0 = c) &&
        (lexLt (t.drop (x + 1)) q ||
          q.isPrefixOf (t.drop (x + 1)))) j) := by
    intro j _
    simp
  have hdrop : ((List.range t.length).filter
      (fun x => decide (t.getD x 0 = c) &&
        (lexLt (t.drop (x + 1)) q ||
          q.isPrefixOf (t.drop (x + 1))))).length =
    ((List.range (t.length - 1)).filter
      (fun x => decide (t.getD x 0 = c) &&
        (lexLt (t.drop (x + 1)) q ||
          q.isPrefixOf (t.drop (x + 1))))).length := by
    refine filter_range_drop_last hn ?_
    rw [hlast]
    have : decide (sentinel = c) = false := by
      simp only [decide_eq_false_iff_not]
      exact fun he => hcs he.symm
    rw [this]
    simp
  rw [List.filter_congr hassoc, hshift, List.filter_congr hback, hA,
    ← hdrop]

/-! ### Sorted output and the slice of the suffix array -/

theorem counts_getD_rankOf (t : List Nat) (ht : ∀ x ∈ t, x < 256)
    {c : Nat} (hc : presentB t c = true) :
    ((build_alphabet t).2.2).getD (rankOf t c) 0 = t.count c := by
  have hcount : t.count c ≠ 0 := by
    rw [presentB, bne_iff_ne] at hc
    exact hc
  have hc256 : c < 256 := ht c (List.count_pos_iff.mp (by omega))
  obtain ⟨_, _, _, _, h5⟩ := alphabet_spec t ht
  rw [h5, range256_filter_split t hc256 hc, List.map_append,
    List.map_cons]
  have hr : rankOf t c =
      (((List.range c).filter (presentB t)).map
        (fun b => t.count b)).length := by
    rw [List.length_map]
    rfl
  rw [hr]
  exact getD_append_mid _ _ _ _

theorem rankOf_lt_sigma (t : List Nat) (ht : ∀ x ∈ t, x < 256)
    {c : Nat} (hc256 : c < 256) (hc : presentB t c = true) :
    rankOf t c < ((build_alphabet t).2.2).length := by
  obtain ⟨_, _, _, _, h5⟩ := alphabet_spec t ht
  rw [h5, List.length_map]
  exact filter_range_prefix_len hc256 hc

theorem insertSorted_perm (x : Nat) (l : List Nat) :
    List.Perm (insertSorted x l) (x :: l) := by
  induction l with
  | nil => exact List.Perm.refl _
  | cons y ys ih =>
    rw [insertSorted]
    by_cases h : x ≤ y
    · rw [if_pos h]
    · rw [if_neg h]
      exact (ih.cons y).trans (List.Perm.swap x y ys)

theorem sortNat_perm (l : List Nat) : List.Perm (sortNat l) l := by
  rw [sortNat]
  induction l with
  | nil => exact List.Perm.refl _
  | cons x xs ih =>
    rw [List.foldr_cons]
    exact (insertSorted_perm x _).trans (ih.cons x)

theorem insertSorted_sorted (x : Nat) (l : List Nat)
    (h : List.Pairwise (· ≤ ·) l) :
    List.Pairwise (· ≤ ·) (insertSorted x l) := by
  induction l with
  | nil => simp [insertSorted]
  | cons y ys ih =>
    rw [insertSorted]
    obtain ⟨hy, hys⟩ := List.pairwise_cons.mp h
    by_cases hxy : x ≤ y
    · rw [if_pos hxy]
      refine List.Pairwise.cons ?_ h
      intro z hz
      rcases List.mem_cons.mp hz with he | hm
      · omega
      · have := hy z hm
        omega
    · rw [if_neg hxy]
      refine List.Pairwise.cons ?_ (ih hys)
      intro z hz
      have hz' := (insertSorted_perm x ys).mem_iff.mp hz
      rcases List.mem_cons.mp hz' with he | hm
      · omega
      · exact hy z hm

theorem sortNat_sorted (l : List Nat) :
    List.Pairwise (· ≤ ·) (sortNat l) := by
  rw [sortNat]
  induction l with
  | nil => simp
  | cons x xs ih =>
    rw [List.foldr_cons]
    exact insertSorted_sorted x _ ih

theorem sortNat_sorted_lt (l : List Nat) (h : l.Nodup) :
    List.Pairwise (· < ·) (sortNat l) := by
  have hs := sortNat_sorted l
  have hnd : (sortNat l).Nodup := (sortNat_perm l).nodup_iff.mpr h
  refine ((hs.and hnd).imp ?_)
  rintro a b ⟨hle, hne⟩
  omega

theorem eq_of_sorted_lt_mem : ∀ (l1 l2 : List Nat),
    List.Pairwise (· < ·) l1 → List.Pairwise (· < ·) l2 →
    (∀ x, x ∈ l1 ↔ x ∈ l2) → l1 = l2 := by
  intro l1
  induction l1 with
  | nil =>
    intro l2 _ _ hm
    cases l2 with
    | nil => rfl
    | cons b l2 => exact absurd ((hm b).mpr (by simp)) (by simp)
  | cons a l1 ih =>
    intro l2 h1 h2 hm
    cases l2 with
    | nil => exact absurd ((hm a).mp (by simp)) (by simp)
    | cons b l2 =>
      obtain ⟨ha1, h1'⟩ := List.pairwise_cons.mp h1
      obtain ⟨hb2, h2'⟩ := List.pairwise_cons.mp h2
      have hab : a = b := by
        have ham := (hm a).mp (by simp)
        have hbm := (hm b).mpr (by simp)
        rcases List.mem_cons.mp ham with h | h
        · exact h
        · rcases List.mem_cons.mp hbm with h' | h'
          · exact h'.symm
          · have hba := hb2 a h
            have hab' := ha1 b h'
            omega
      subst hab
      have htail : l1 = l2 := by
        refine ih l2 h1' h2' ?_
        intro x
        constructor
        · intro hx
          have hx2 := (hm x).mp (by simp [hx])
          rcases List.mem_cons.mp hx2 with h | h
          · subst h
            exact absurd (ha1 x hx) (lt_irrefl x)
          · exact h
        · intro hx
          have hx1 := (hm x).mpr (by simp [hx])
          rcases List.mem_cons.mp hx1 with h | h
          · subst h
            exact absurd (hb2 x hx) (lt_irrefl x)
          · exact h
      rw [htail]

theorem sa_slice (t q : List Nat) :
    ((build_suffix_array t).drop (cntL t q)).take (cntP t q) =
      (build_suffix_array t).filter
        (fun j => q.isPrefixOf (t.drop j)) := by
  have hlenA : ((build_suffix_array t).filter
      (fun j => lexLt (t.drop j) q)).length = cntL t q :=
    ((sa_perm t).filter _).length_eq
  have hlenB : ((build_suffix_array t).filter
      (fun j => q.isPrefixOf (t.drop j))).length = cntP t q :=
    ((sa_perm t).filter _).length_eq
  conv_lhs => rw [sa_decomp t q]
  rw [List.append_assoc, ← hlenA, List.drop_left, ← hlenB,
    List.take_left]

/-! ### Occurrences across the sentinel -/

theorem occursAt_to_sentinel {text0 pat : List Nat} {sentinel m : Nat}
    (hp : pat ≠ []) (h : occursAt pat text0 m) :
    pat.isPrefixOf ((text0 ++ [sentinel]).drop m) = true := by
  have hle := occursAt_le_length hp h
  rw [List.isPrefixOf_iff_prefix]
  have hd : (text0 ++ [sentinel]).drop m = text0.drop m ++ [sentinel] :=
    List.drop_append_of_le_length (by omega)
  rw [hd]
  have h1 : pat <+: text0.drop m := by
    rw [← occursAt_iff.mp h]
    exact List.take_prefix _ _
  exact h1.trans (List.prefix_append _ _)

theorem sentinel_to_occursAt {text0 pat : List Nat} {sentinel x : Nat}
    (hp : pat ≠ []) (hns : sentinel ∉ pat)
    (h : pat.isPrefixOf ((text0 ++ [sentinel]).drop x) = true) :
    occursAt pat text0 x := by
  have hocct : occursAt pat (text0 ++ [sentinel]) x := by
    rw [occursAt_iff]
    exact (List.prefix_iff_eq_take.mp
      (List.isPrefixOf_iff_prefix.mp h)).symm
  have hle : x + pat.length ≤ (text0 ++ [sentinel]).length :=
    occursAt_le_length hp hocct
  rw [List.length_append, List.length_singleton] at hle
  have hlt : x + pat.length ≤ text0.length := by
    by_contra hgt
    have heq : x + pat.length = text0.length + 1 := by omega
    have hj : pat.length - 1 < pat.length := by
      have := List.length_pos.mpr hp
      omega
    have hsent := occursAt_getD hocct hj
    have hidx : x + (pat.length - 1) = text0.length := by omega
    rw [hidx] at hsent
    have hsent_at : (text0 ++ [sentinel]).getD text0.length 0 =
        sentinel := getD_append_mid text0 sentinel [] 0
    rw [hsent_at] at hsent
    rw [← hsent] at hns
    exact hns (getD_mem hj 0)
  refine occursAt_of_getD (by omega) ?_
  intro j hj
  rw [occursAt_getD hocct hj]
  exact getD_append_left text0 [sentinel] _ 0 (by omega)

theorem occursAt_subset {text0 pat : List Nat} {m : Nat}
    (h : occursAt pat text0 m) : ∀ x ∈ pat, x ∈ text0 := by
  intro x hx
  rw [← occursAt_iff.mp h] at hx
  exact List.mem_of_mem_drop (List.mem_of_mem_take hx)

theorem isPrefixOf_append_drop {u v w : List Nat}
    (h : (u ++ v).isPrefixOf w = true) :
    v.isPrefixOf (w.drop u.length) = true := by
  rw [List.isPrefixOf_iff_prefix] at h ⊢
  obtain ⟨r, hr⟩ := h
  rw [← hr, List.append_assoc, List.drop_left]
  exact ⟨r, rfl⟩

theorem cntP_pos_of_prefix {t q : List Nat} {m : Nat} (hq : q ≠ [])
    (h : q.isPrefixOf (t.drop m) = true) : 0 < cntP t q := by
  have hmn : m < t.length := by
    by_contra hge
    rw [List.drop_eq_nil_of_le (by omega)] at h
    cases q with
    | nil => exact hq rfl
    | cons a as => cases h
  have hmem : m ∈ (List.range t.length).filter
      (fun j => q.isPrefixOf (t.drop j)) :=
    List.mem_filter.mpr ⟨List.mem_range.mpr hmn, h⟩
  rw [cntP]
  exact List.length_pos.mpr (List.ne_nil_of_mem hmem)

theorem bsLoop_cons (fm : FMIndexL) (ch : Nat) (rest : List Nat)
    (top bottom : Nat) :
    bsLoop fm (ch :: rest) top bottom =
      match rank_for_byte fm ch with
      | none => none
      | some rank =>
        if fm.counts.getD rank 0 = 0 then none
        else
          if fm.c.getD rank 0 + occ_at fm rank bottom ≤
              fm.c.getD rank 0 + occ_at fm rank top then none
          else bsLoop fm rest (fm.c.getD rank 0 + occ_at fm rank top)
            (fm.c.getD rank 0 + occ_at fm rank bottom) := rfl

theorem bsLoop_spec (fm : FMIndexL) (t : List Nat) (sentinel : Nat)
    (ht : ∀ x ∈ t, x < 256)
    (hn : 0 < t.length)
    (hlast : t.getD (t.length - 1) 0 = sentinel)
    (hsent : presentB t sentinel = true)
    (htext : fm.text = t)
    (hbwt : fm.bwt = bwtRanks t sentinel)
    (hcf : fm.c = build_c (build_alphabet t).2.2)
    (hcounts : fm.counts = (build_alphabet t).2.2)
    (hoccf : fm.occ = build_occ fm.bwt
      ((build_alphabet t).2.2).length 128)
    (hcp : fm.checkpoint = 128)
    (hb2r : fm.byte_to_rank = (build_alphabet t).1)
    (hbound : t.length < 2 ^ 32) :
    ∀ (rest qs : List Nat),
      (∀ x ∈ rest, presentB t x = true ∧ x ≠ sentinel) →
      (∃ m, (rest.reverse ++ qs).isPrefixOf (t.drop m) = true) →
      bsLoop fm rest (cntL t qs) (cntL t qs + cntP t qs) =
        some (cntL t (rest.reverse ++ qs),
          cntL t (rest.reverse ++ qs) +
            cntP t (rest.reverse ++ qs)) := by
  have hsentmem : sentinel ∈ t := by
    have h' := hsent
    rw [presentB, bne_iff_ne] at h'
    exact List.count_pos_iff.mp (by omega)
  have hblen : fm.bwt.length = t.length := by
    rw [hbwt, bwtRanks, List.length_map, sa_length]
  have hsig : ∀ x ∈ fm.bwt, x < ((build_alphabet t).2.2).length := by
    rw [hbwt, bwtRanks]
    intro x hx
    obtain ⟨pos, hpos, hxe⟩ := List.mem_map.mp hx
    have hposn : pos < t.length := sa_mem.mp hpos
    have hbmem : (if pos = 0 then sentinel else t.getD (pos - 1) 0) ∈
        t := by
      by_cases h0 : pos = 0
      · rw [if_pos h0]
        exact hsentmem
      · rw [if_neg h0]
        exact getD_mem (by omega) 0
    have hbpres : presentB t
        (if pos = 0 then sentinel else t.getD (pos - 1) 0) = true := by
      rw [presentB, bne_iff_ne]
      have := List.count_pos_iff.mpr hbmem
      omega
    rw [← hxe]
    exact rankOf_lt_sigma t ht (ht _ hbmem) hbpres
  intro rest
  induction rest with
  | nil =>
    intro qs _ _
    rw [bsLoop]
    rfl
  | cons ch rest' ih =>
    intro qs hchars hex
    have hchp : presentB t ch = true := (hchars ch (by simp)).1
    have hchs : ch ≠ sentinel := (hchars ch (by simp)).2
    have hchcnt : t.count ch ≠ 0 := by
      have h' := hchp
      rw [presentB, bne_iff_ne] at h'
      exact h'
    have hrank : rank_for_byte fm ch = some (rankOf t ch) := by
      rw [rank_for_byte, hb2r]
      rw [(alphabet_spec t ht).2.1 ch hchcnt]
      rw [if_neg (by omega), Int.toNat_natCast]
    have hcnt : fm.counts.getD (rankOf t ch) 0 ≠ 0 := by
      rw [hcounts, counts_getD_rankOf t ht hchp]
      exact hchcnt
    have hoccs := occ_at_spec fm ((build_alphabet t).2.2).length hoccf
      hcp (by rw [hblen, htext]) hsig (by rw [hblen]; exact hbound)
    have hcval : fm.c.getD (rankOf t ch) 0 =
        t.countP (fun x => decide (x < ch)) := by
      rw [hcf]
      exact c_key t ht ch hchcnt
    have htopv : fm.c.getD (rankOf t ch) 0 +
        occ_at fm (rankOf t ch) (cntL t qs) = cntL t (ch :: qs) := by
      rw [hoccs, hcval, htext, hbwt,
        Nat.min_eq_left (cntL_le t qs)]
      exact (step_top t sentinel hn hlast hsent ch hchp hchs qs).symm
    have hbotv : fm.c.getD (rankOf t ch) 0 +
        occ_at fm (rankOf t ch) (cntL t qs + cntP t qs) =
          cntL t (ch :: qs) + cntP t (ch :: qs) := by
      rw [hoccs, hcval, htext, hbwt,
        Nat.min_eq_left (cntLP_le t qs)]
      exact (step_bot t sentinel hn hlast hsent ch hchp hchs qs).symm
    obtain ⟨m, hm⟩ := hex
    have hm2 : ((rest'.reverse) ++ (ch :: qs)).isPrefixOf
        (t.drop m) = true := by
      rw [← List.singleton_append, ← List.append_assoc,
        ← List.reverse_cons]
      exact hm
    have hsub := isPrefixOf_append_drop hm2
    rw [List.drop_drop] at hsub
    have hcntp : 0 < cntP t (ch :: qs) :=
      cntP_pos_of_prefix (by simp) hsub
    rw [bsLoop_cons, hrank]
    simp only []
    rw [if_neg hcnt, htopv, hbotv, if_neg (by omega)]
    have hres := ih (ch :: qs)
      (fun x hx => hchars x (by simp [hx])) ⟨m, hm2⟩
    have hP : (ch :: rest').reverse ++ qs =
        rest'.reverse ++ (ch :: qs) := by
      rw [List.reverse_cons, List.append_assoc, List.singleton_append]
    rw [hP]
    exact hres

theorem lexLt_nil_right : ∀ u : List Nat, lexLt u [] = false := by
  intro u
  cases u <;> rfl

theorem cntL_nil (t : List Nat) : cntL t [] = 0 := by
  rw [cntL, List.filter_eq_nil_iff.mpr (fun a _ => by
    rw [lexLt_nil_right]
    simp)]
  rfl

theorem cntP_nil (t : List Nat) : cntP t [] = t.length := by
  rw [cntP]
  have h : (List.range t.length).filter
      (fun j => [].isPrefixOf (t.drop j)) = List.range t.length :=
    List.filter_eq_self.mpr (fun a _ =>
      List.isPrefixOf_iff_prefix.mpr (List.nil_prefix))
  rw [h, List.length_range]

/-- C2: **FM-index round trip.**  For every corpus built into an
FM-index (with a sentinel byte absent from the input, a separator
different from the sentinel, and fewer than `2^32` bytes) and every
non-empty byte pattern that occurs in the corpus, the construction
succeeds and `search` returns exactly the sorted list of all occurrence
offsets that the naive scalar `find_all` reports on the corpus. -/
theorem fm_index_roundtrip (text0 : List Nat) (sentinel : Nat)
    (separator : Option Nat) (pat : List Nat)
    (htb : Bytes text0) (hs256 : sentinel < 256)
    (hsep : separator ≠ some sentinel)
    (hnotin : sentinel ∉ text0)
    (hsize : text0.length + 1 < 2 ^ 32)
    (hp : pat ≠ [])
    (hocc : ∃ m, occursAt pat text0 m) :
    ∃ fm, fmIndexNew text0 sentinel separator = some fm ∧
      fm_search fm pat = naive_find_all_scalar text0 pat := by
  obtain ⟨m0, hm0⟩ := hocc
  have ht : ∀ x ∈ text0 ++ [sentinel], x < 256 := by
    intro x hx
    rcases List.mem_append.mp hx with h | h
    · exact htb x h
    · rw [List.mem_singleton] at h
      omega
  have hn : 0 < (text0 ++ [sentinel]).length := by simp
  have hlast : (text0 ++ [sentinel]).getD
      ((text0 ++ [sentinel]).length - 1) 0 = sentinel := by
    have hl : (text0 ++ [sentinel]).length - 1 = text0.length := by simp
    rw [hl]
    exact getD_append_mid text0 sentinel [] 0
  have hsentmem : sentinel ∈ text0 ++ [sentinel] := by simp
  have hsent : presentB (text0 ++ [sentinel]) sentinel = true := by
    rw [presentB, bne_iff_ne]
    have := List.count_pos_iff.mpr hsentmem
    omega
  have hpatsub : ∀ x ∈ pat, x ∈ text0 := occursAt_subset hm0
  have hpatpres : ∀ x ∈ pat,
      presentB (text0 ++ [sentinel]) x = true ∧ x ≠ sentinel := by
    intro x hx
    constructor
    · rw [presentB, bne_iff_ne]
      have hm : x ∈ text0 ++ [sentinel] :=
        List.mem_append.mpr (Or.inl (hpatsub x hx))
      have := List.count_pos_iff.mpr hm
      omega
    · intro he
      rw [he] at hx
      exact hnotin (hpatsub sentinel hx)
  have hsne : sentinel ∉ pat := by
    intro hx
    exact hnotin (hpatsub sentinel hx)
  have hbound : (text0 ++ [sentinel]).length < 2 ^ 32 := by
    rw [List.length_append, List.length_singleton]
    omega
  have hb2rpos : ∀ b ∈ build_bwt (text0 ++ [sentinel])
      (build_suffix_array (text0 ++ [sentinel])) sentinel,
      0 ≤ ((build_alphabet (text0 ++ [sentinel])).1).getD b (-1) := by
    intro b hb
    rw [build_bwt] at hb
    obtain ⟨pos, hpos, hbe⟩ := List.mem_map.mp hb
    have hposn : pos < (text0 ++ [sentinel]).length := sa_mem.mp hpos
    have hbmem : b ∈ text0 ++ [sentinel] := by
      rw [← hbe]
      by_cases h0 : pos = 0
      · rw [if_pos h0]
        exact hsentmem
      · rw [if_neg h0]
        exact getD_mem (by omega) 0
    have hbcnt : (text0 ++ [sentinel]).count b ≠ 0 := by
      have := List.count_pos_iff.mpr hbmem
      omega
    rw [(alphabet_spec _ ht).2.1 b hbcnt]
    omega
  have hremap := remap_bwt_eq ((build_alphabet (text0 ++ [sentinel])).1)
    (build_bwt (text0 ++ [sentinel])
      (build_suffix_array (text0 ++ [sentinel])) sentinel) hb2rpos
  have hbwteq : (build_bwt (text0 ++ [sentinel])
      (build_suffix_array (text0 ++ [sentinel])) sentinel).map
        (fun b => (((build_alphabet (text0 ++ [sentinel])).1).getD b
          (-1)).toNat) =
      bwtRanks (text0 ++ [sentinel]) sentinel := by
    rw [build_bwt, bwtRanks, List.map_map]
    refine List.map_congr_left ?_
    intro pos hpos
    have hposn : pos < (text0 ++ [sentinel]).length := sa_mem.mp hpos
    simp only [Function.comp]
    have hbmem : (if pos = 0 then sentinel
        else (text0 ++ [sentinel]).getD (pos - 1) 0) ∈
          text0 ++ [sentinel] := by
      by_cases h0 : pos = 0
      · rw [if_pos h0]
        exact hsentmem
      · rw [if_neg h0]
        exact getD_mem (by omega) 0
    have hbcnt : (text0 ++ [sentinel]).count
        (if pos = 0 then sentinel
          else (text0 ++ [sentinel]).getD (pos - 1) 0) ≠ 0 := by
      have := List.count_pos_iff.mpr hbmem
      omega
    rw [(alphabet_spec _ ht).2.1 _ hbcnt, Int.toNat_natCast]
  have hsentrank : ¬ ((build_alphabet (text0 ++ [sentinel])).1).getD
      sentinel (-1) < 0 := by
    have hscnt : (text0 ++ [sentinel]).count sentinel ≠ 0 := by
      have := List.count_pos_iff.mpr hsentmem
      omega
    rw [(alphabet_spec _ ht).2.1 sentinel hscnt]
    omega
  simp only [fmIndexNew]
  rw [if_neg hsep, if_neg hnotin]
  rcases halpha : build_alphabet (text0 ++ [sentinel]) with
    ⟨b2r, r2b, cnts⟩
  simp only []
  rw [halpha] at hremap hsentrank
  simp only [] at hremap hsentrank
  rw [if_neg hsentrank, hremap]
  simp only []
  refine ⟨_, rfl, ?_⟩
  rw [halpha] at hbwteq
  -- the resulting index record
  rw [fm_search, backward_search]
  simp only []
  rw [if_neg hp]
  have hbs := bsLoop_spec
    { text := text0 ++ [sentinel],
      sa := build_suffix_array (text0 ++ [sentinel]),
      bwt := (build_bwt (text0 ++ [sentinel])
        (build_suffix_array (text0 ++ [sentinel])) sentinel).map
          (fun b => (b2r.getD b (-1)).toNat),
      c := build_c cnts, counts := cnts,
      occ := build_occ ((build_bwt (text0 ++ [sentinel])
        (build_suffix_array (text0 ++ [sentinel])) sentinel).map
          (fun b => (b2r.getD b (-1)).toNat)) cnts.length 128,
      checkpoint := 128, byte_to_rank := b2r, rank_to_byte := r2b }
    (text0 ++ [sentinel]) sentinel ht hn hlast hsent rfl
    (by
      show (build_bwt (text0 ++ [sentinel])
        (build_suffix_array (text0 ++ [sentinel])) sentinel).map
          (fun b => (b2r.getD b (-1)).toNat) = _
      rw [hbwteq])
    (by
      show build_c cnts = _
      rw [halpha])
    (by
      show cnts = _
      rw [halpha])
    (by
      show build_occ _ cnts.length 128 = _
      rw [halpha])
    rfl
    (by
      show b2r = _
      rw [halpha])
    hbound
    pat.reverse []
    (by
      intro x hx
      exact hpatpres x (List.mem_reverse.mp hx))
    (by
      refine ⟨m0, ?_⟩
      rw [List.reverse_reverse, List.append_nil]
      exact occursAt_to_sentinel hp hm0)
  rw [List.reverse_reverse, List.append_nil] at hbs
  rw [cntL_nil, cntP_nil] at hbs
  simp only [Nat.zero_add] at hbs
  have hlen_eq : (text0 ++ [sentinel]).length =
      (({ text := text0 ++ [sentinel],
          sa := build_suffix_array (text0 ++ [sentinel]),
          bwt := (build_bwt (text0 ++ [sentinel])
            (build_suffix_array (text0 ++ [sentinel])) sentinel).map
              (fun b => (b2r.getD b (-1)).toNat),
          c := build_c cnts, counts := cnts,
          occ := build_occ ((build_bwt (text0 ++ [sentinel])
            (build_suffix_array (text0 ++ [sentinel])) sentinel).map
              (fun b => (b2r.getD b (-1)).toNat)) cnts.length 128,
          checkpoint := 128, byte_to_rank := b2r,
          rank_to_byte := r2b } : FMIndexL).text).length := rfl
  rw [← hlen_eq] at *
  rw [hbs]
  simp only []
  have hsub : cntL (text0 ++ [sentinel]) pat +
      cntP (text0 ++ [sentinel]) pat -
      cntL (text0 ++ [sentinel]) pat =
        cntP (text0 ++ [sentinel]) pat := by omega
  rw [hsub]
  show sortNat (((build_suffix_array (text0 ++ [sentinel])).drop
      (cntL (text0 ++ [sentinel]) pat)).take
        (cntP (text0 ++ [sentinel]) pat)) = _
  rw [sa_slice]
  have hvalid := naive_find_all_valid text0 pat hp
  refine eq_of_sorted_lt_mem _ _
    (sortNat_sorted_lt _ ((sa_nodup _).filter _))
    (List.chain'_iff_pairwise.mp hvalid.1) ?_
  intro x
  rw [(sortNat_perm _).mem_iff, List.mem_filter, hvalid.2 x]
  constructor
  · rintro ⟨hxsa, hxpref⟩
    exact sentinel_to_occursAt hp hsne hxpref
  · intro hxocc
    have hle := occursAt_le_length hp hxocc
    have hplen : 0 < pat.length := List.length_pos.mpr hp
    refine ⟨sa_mem.mpr (by
      rw [List.length_append, List.length_singleton]
      omega), ?_⟩
    exact occursAt_to_sentinel hp hxocc

theorem fm_index_roundtrip_witness :
    ∃ fm, fmIndexNew [98, 97] 0 none = some fm ∧
      fm_search fm [97] = naive_find_all_scalar [98, 97] [97] :=
  fm_index_roundtrip [98, 97] 0 none [97] (by decide) (by decide)
    (by decide) (by decide) (by decide) (by decide) ⟨1, by decide⟩
